import Mathlib

/-!
A shallow embedding of the `glass_model` Python package: the token scanners
of `gstr.py` and the layer/buildup classes of `glass_model/__init__.py`.

Python strings are modelled as `List Char`, Python numbers (`int`/`float`,
which in this domain are exact decimals) as `ℚ`, and `None` by `Option`.
Exceptions raised by constructors and parsers are modelled with `Except GErr`.
-/

attribute [local semireducible] Rat.add Rat.mul Rat.inv Rat.sub Rat.ofScientific

namespace GlassModel

/-- Python strings, modelled as lists of characters. -/
abbrev Str := List Char

/-- Shorthand for writing `Str` literals. -/
def str (s : String) : Str := s.data

/-- Python's regex word class `\w` (ASCII part): letters, digits, underscore. -/
def isWordChar (c : Char) : Bool := c.isAlphanum || c = '_'

/-- First character test (Python `startswith` for one character). -/
def startsWithChar (c : Char) : Str → Bool
  | [] => false
  | d :: _ => d = c

/-- Last character test (Python `endswith` for one character). -/
def endsWithChar (c : Char) (s : Str) : Bool := s.getLast? = some c

/-- One decimal digit as a character. -/
def digitChar : ℕ → Char
  | 0 => '0'
  | 1 => '1'
  | 2 => '2'
  | 3 => '3'
  | 4 => '4'
  | 5 => '5'
  | 6 => '6'
  | 7 => '7'
  | 8 => '8'
  | _ => '9'

/-- Numeric value of a digit character. -/
def charVal (c : Char) : ℕ := c.toNat - 48

/-- Little-endian decimal digits of `n`; the first argument is fuel
(`n` itself always suffices). -/
def natDigitsRev : ℕ → ℕ → List ℕ
  | 0, _ => []
  | f + 1, n => if n = 0 then [] else n % 10 :: natDigitsRev f (n / 10)

/-- Decimal rendering of a natural number, as Python `str` renders an `int`. -/
def natToChars (n : ℕ) : Str :=
  if n = 0 then ['0'] else ((natDigitsRev n n).map digitChar).reverse

/-- Numeric value of a digit string (most significant digit first). -/
def charsToNat (s : Str) : ℕ := s.foldl (fun a c => 10 * a + charVal c) 0

/-- `q` is an exact decimal (its denominator divides a power of ten). -/
def IsDecimal (q : ℚ) : Prop := q.den ∣ 10 ^ q.den

instance (q : ℚ) : Decidable (IsDecimal q) :=
  inferInstanceAs (Decidable (q.den ∣ 10 ^ q.den))

/-- Smallest exponent `e ≤ d` with `d ∣ 10 ^ e` (`0` when there is none):
the number of fractional digits needed for denominator `d`. -/
def decExp (d : ℕ) : ℕ :=
  (((List.range (d + 1)).find? fun e => 10 ^ e % d = 0).getD 0)

/-- Left-pad a natural's digits with zeros to `e` digits (fractional part). -/
def natPad (e n : ℕ) : Str :=
  List.replicate (e - (natToChars n).length) '0' ++ natToChars n

/-- Python `str`/`repr` of a non-negative exact-decimal number: integral values
render without a decimal point (Python collapses `x == int(x)` to `int`),
other values as `intpart.fracpart`. -/
def renderNum (q : ℚ) : Str :=
  if decExp q.den = 0 then natToChars ((q.num * 10 ^ decExp q.den / (q.den : ℤ)).toNat)
  else
    natToChars ((q.num * 10 ^ decExp q.den / (q.den : ℤ)).toNat / 10 ^ decExp q.den) ++
      '.' :: natPad (decExp q.den) ((q.num * 10 ^ decExp q.den / (q.den : ℤ)).toNat % 10 ^ decExp q.den)

/-- Python `f-string` of an optional number: `None` renders as `"None"`. -/
def renderOptNum : Option ℚ → Str
  | none => str "None"
  | some q => renderNum q

/-- Python `str.strip`. -/
def pyStrip (s : Str) : Str :=
  ((s.dropWhile Char.isWhitespace).reverse.dropWhile Char.isWhitespace).reverse

/-- Python `s.split(sep)` for a one-character separator. -/
def splitChar (sep : Char) : Str → List Str
  | [] => [[]]
  | c :: rest =>
    if c = sep then [] :: splitChar sep rest
    else
      match splitChar sep rest with
      | [] => [[c]]
      | t :: ts => (c :: t) :: ts

/-- Python `sep.join(parts)` for a one-character separator. -/
def joinChar (sep : Char) : List Str → Str
  | [] => []
  | [t] => t
  | t :: ts => t ++ sep :: joinChar sep ts

/-- Python `s.split(sep)` for a non-empty separator string (leftmost,
non-overlapping occurrences), with explicit fuel so that recursion is
structural; the string's length is always enough fuel. -/
def splitOnStrAux (p : Str) : ℕ → Str → List Str
  | _, [] => [[]]
  | 0, s => [s]
  | f + 1, c :: rest =>
    if p ≠ [] ∧ p.isPrefixOf (c :: rest) then
      [] :: splitOnStrAux p f ((c :: rest).drop p.length)
    else
      match splitOnStrAux p f rest with
      | [] => [[c]]
      | t :: ts => (c :: t) :: ts

/-- Python `s.split(sep)` for a non-empty separator string. -/
def splitOnStr (p : Str) (s : Str) : List Str := splitOnStrAux p s.length s

/-- Value of the regex match `\d+\.\d+|\d+` at the start of `s` (whose first
character is a digit): the greedy digit run, extended past one `'.'` when at
least one digit follows it. -/
def numTokenVal (s : Str) : ℚ :=
  match s.dropWhile Char.isDigit with
  | c :: r2 =>
    if c = '.' ∧ r2.takeWhile Char.isDigit ≠ [] then
      (charsToNat (s.takeWhile Char.isDigit) : ℚ) +
        (charsToNat (r2.takeWhile Char.isDigit) : ℚ) / 10 ^ (r2.takeWhile Char.isDigit).length
    else (charsToNat (s.takeWhile Char.isDigit) : ℚ)
  | [] => (charsToNat (s.takeWhile Char.isDigit) : ℚ)

/-- Scan for the leftmost position whose previous character is a word
boundary for a digit, carrying the previous character. -/
def findFirstNumberAux (prev : Option Char) : Str → Option ℚ
  | [] => none
  | c :: rest =>
    if c.isDigit && (match prev with | none => true | some p => !isWordChar p) then
      some (numTokenVal (c :: rest))
    else findFirstNumberAux (some c) rest

/-- `gstr.find_first_number`: leftmost `\b\d+\.\d+|\b\d+` match as a number
(Python's collapse of an integral `float` to `int` keeps the value). -/
def find_first_number (s : Str) : Option ℚ := findFirstNumberAux none s

/-- Value of the regex `(?:\d*\.*\d+)` matched greedily at the start of `s`,
`none` when it does not match there.  A match whose dot-run has two or more
dots (`"1..2"`, `"..5"`) makes Python's `float()` raise `ValueError`; the
model returns `none` for it.  The collapse is unreachable on rendered
strings (whose numbers are single-dotted), and the marker-scan
characterisation is stated only for strings without such groups after a
marker (`markerSafeB`, built on `badNumCore`, names the collapsed case
exactly). -/
def parseUnsigned (s : Str) : Option ℚ :=
  if ((s.dropWhile Char.isDigit).dropWhile fun c => c = '.').takeWhile Char.isDigit ≠ [] then
    if ((s.dropWhile Char.isDigit).takeWhile fun c => c = '.').length = 1 then
      some ((charsToNat (s.takeWhile Char.isDigit) : ℚ) +
        (charsToNat (((s.dropWhile Char.isDigit).dropWhile fun c => c = '.').takeWhile
          Char.isDigit) : ℚ) /
          10 ^ ((((s.dropWhile Char.isDigit).dropWhile fun c => c = '.')).takeWhile
            Char.isDigit).length)
    else none
  else if s.takeWhile Char.isDigit ≠ [] then some (charsToNat (s.takeWhile Char.isDigit))
  else none

/-- Value of `([-+]?(?:\d*\.*\d+))` at the start of `s`. -/
def parseSignedNumAt : Str → Option ℚ
  | [] => parseUnsigned []
  | c :: r =>
    if c = '-' then (parseUnsigned r).map Neg.neg
    else if c = '+' then parseUnsigned r
    else parseUnsigned (c :: r)

/-- Rightmost position where `marker` occurs followed by a signed-number
match, returning that number.  This models `re.findall(marker + num)[-1]`
for the markers used here, whose matches cannot overlap a later occurrence
of the marker. -/
def findMarkerNumLast (marker : Str) : Str → Option ℚ
  | [] => none
  | c :: rest =>
    match findMarkerNumLast marker rest with
    | some v => some v
    | none =>
      if marker.isPrefixOf (c :: rest) then
        parseSignedNumAt ((c :: rest).drop marker.length)
      else none

/-- Leftmost such match: `re.findall(marker + num)[0]`. -/
def findMarkerNumFirst (marker : Str) : Str → Option ℚ
  | [] => none
  | c :: rest =>
    match
      (if marker.isPrefixOf (c :: rest) then
        parseSignedNumAt ((c :: rest).drop marker.length)
      else none) with
    | some v => some v
    | none => findMarkerNumFirst marker rest

/-- `gstr.find_number_after_marker`.  The source computes
`float(re.findall(marker + num)[-1])` (or `[0]`), which raises `ValueError`
when the selected group has a multi-dot dot-run; the model returns `none`
for such a group, so this function is total where the source can raise.
Statements about it are therefore guarded by `markerSafeB`, which rules the
raising groups out. -/
def find_number_after_marker (marker : Str) (s : Str) (after_last : Bool) : Option ℚ :=
  if after_last then findMarkerNumLast marker s else findMarkerNumFirst marker s

/-- One pass of the bracket scan of `gstr.find_enclosed_brackets`: the matched
pairs (in pop order), the remaining stack of open indices, and the index after
the scanned text.  An unmatched `')'` with an empty stack is only reported on
stdout in the source; the scan continues. -/
def febStep (stack : List ℕ) (i : ℕ) : Str → List (ℕ × ℕ) × List ℕ × ℕ
  | [] => ([], stack, i)
  | c :: rest =>
    if c = '(' then febStep (i :: stack) (i + 1) rest
    else if c = ')' then
      match stack with
      | j :: st =>
        let r := febStep st (i + 1) rest
        ((j, i) :: r.1, r.2)
      | [] => febStep [] (i + 1) rest
    else febStep stack (i + 1) rest

/-- `gstr.find_enclosed_brackets`: unmatched brackets (closing with an empty
stack, or opens left at the end) are only printed, never raised; the matched
pairs are returned in either case. -/
def find_enclosed_brackets (s : Str) : List (ℕ × ℕ) := (febStep [] 0 s).1

/-- Python `s.find(c)`: `List.findIdx` returns `s.length` when `c` is absent
where Python returns `-1`; both compare unequal to any index of `s`, which is
the only use made of the result. -/
def firstIdx (c : Char) (s : Str) : ℕ := s.findIdx fun d => d = c

namespace Protocol

/-- `Protocol.IGDB_START`. -/
def IGDB_START : Char := '#'

/-- `Protocol.IGDB_OPEN_BRACKET`. -/
def IGDB_OPEN_BRACKET : Char := '('

/-- `Protocol.IGDB_CLOSE_BRACKET`. -/
def IGDB_CLOSE_BRACKET : Char := ')'

/-- `Protocol.IGDB_FLIP`. -/
def IGDB_FLIP : Char := 'x'

/-- `Protocol.GAS_SEPARATOR`. -/
def GAS_SEPARATOR : Char := '_'

/-- `Protocol.INTERLAYER_SEPARATOR`. -/
def INTERLAYER_SEPARATOR : Char := '&'

/-- `Protocol.META`. -/
def META : Char := '-'

/-- `Protocol.WIDTH`. -/
def WIDTH : Str := str "W"

/-- `Protocol.HEIGHT`. -/
def HEIGHT : Str := str "H"

/-- `Protocol.SUPPORT`. -/
def SUPPORT : Str := str "SUPPORT"

/-- `Protocol.LAM`. -/
def LAM : Str := str "LAM"

end Protocol

/-- The error conditions the model surfaces.  The source raises
`errors.BuildupException` (whose defining module is not part of the given
sources) for the first two and an uncaught `IndexError` for the third. -/
inductive GErr
  | invalidHeatTreatment
  | inconsistentLayerCount
  | bracketIndexOutOfRange
  deriving DecidableEq

/-- `_BaseLayer.THICKNESS_NOT_SET`: the source uses the numeric value `0`
as its "thickness not set" sentinel. -/
def THICKNESS_NOT_SET : ℚ := 0

/-- Pointwise addition of optional numbers: `none` (Python `None`, whose
addition raises) absorbs. -/
def optStep (acc t : Option ℚ) : Option ℚ :=
  match acc, t with
  | some a, some b => some (a + b)
  | _, _ => none

/-- Sequential monadic map over `Except`, as a Python loop that raises out
of the first failing iteration. -/
def exceptMapM {ε α β : Type} (f : α → Except ε β) : List α → Except ε (List β)
  | [] => .ok []
  | x :: xs =>
    match f x, exceptMapM f xs with
    | .ok y, .ok ys => .ok (y :: ys)
    | .error e, _ => .error e
    | _, .error e => .error e

/-- All-or-nothing sequencing of optional values. -/
def optSeq : List (Option ℚ) → Option (List ℚ)
  | [] => some []
  | none :: _ => none
  | some x :: ts =>
    match optSeq ts with
    | some xs => some (x :: xs)
    | none => none

/-- `_BaseLayer.init_from_g_str` without the final class-constructor call:
strip the token, take the leading number as thickness, and take the last
piece of the split on the rendered thickness as descriptor. -/
def parseLayerToken (g : Str) : Str × Option ℚ :=
  ((splitOnStr (renderOptNum (find_first_number (pyStrip g))) (pyStrip g)).getLastD [],
    find_first_number (pyStrip g))

/-- `Interlayer`: a laminate interlayer; `descriptor` is the material token,
`t` the `_t_nom`/`_t_actual` value (always stored together). -/
structure Interlayer where
  descriptor : Str
  t : Option ℚ
  deriving DecidableEq

namespace Interlayer

/-- `Interlayer.PVB`. -/
def PVB : Str := str "PVB"

/-- `Interlayer.SG`. -/
def SG : Str := str "SG"

/-- `Interlayer.EVA`. -/
def EVA : Str := str "EVA"

/-- `Interlayer.MATERIALS`. -/
def MATERIALS : List Str := [PVB, SG, EVA]

/-- `Interlayer(descriptor, t)`: the inherited `_BaseLayer.__init__`, which
stores descriptor and thickness without any validation. -/
def make (descriptor : Str) (t : Option ℚ) : Interlayer := ⟨descriptor, t⟩

/-- `Interlayer(descriptor)` with the thickness argument defaulted to
`THICKNESS_NOT_SET`. -/
def makeDefault (descriptor : Str) : Interlayer := make descriptor (some THICKNESS_NOT_SET)

/-- `Interlayer.init_from_g_str` (inherited from `_BaseLayer`). -/
def init_from_g_str (g : Str) : Interlayer :=
  let p := parseLayerToken g
  ⟨p.1, p.2⟩

/-- `_BaseLayer.to_gstr`. -/
def to_gstr (x : Interlayer) : Str := renderOptNum x.t ++ x.descriptor

end Interlayer

/-- `GasLayer`: a sealed gas gap. -/
structure GasLayer where
  descriptor : Str
  t : Option ℚ
  deriving DecidableEq

namespace GasLayer

/-- `GasLayer.AIR`. -/
def AIR : Str := str "AIR"

/-- `GasLayer.ARGON`. -/
def ARGON : Str := str "AR"

/-- `GasLayer.XENON`. -/
def XENON : Str := str "XE"

/-- `GasLayer.KRYPTON`. -/
def KRYPTON : Str := str "KR"

/-- `GasLayer.MATERIALS`. -/
def MATERIALS : List Str := [AIR, ARGON, XENON, KRYPTON]

/-- `GasLayer(descriptor, t)`: the inherited, validation-free
`_BaseLayer.__init__`. -/
def make (descriptor : Str) (t : Option ℚ) : GasLayer := ⟨descriptor, t⟩

/-- `GasLayer(descriptor)` with the default thickness sentinel. -/
def makeDefault (descriptor : Str) : GasLayer := make descriptor (some THICKNESS_NOT_SET)

/-- `GasLayer.init_from_g_str` (inherited from `_BaseLayer`). -/
def init_from_g_str (g : Str) : GasLayer :=
  let p := parseLayerToken g
  ⟨p.1, p.2⟩

/-- `_BaseLayer.to_gstr`. -/
def to_gstr (x : GasLayer) : Str := renderOptNum x.t ++ x.descriptor

end GasLayer

namespace HeatTreatment

/-- `HeatTreatment.MONO`. -/
def MONO : Str := str "MONO"

/-- `HeatTreatment.ANNEALED`. -/
def ANNEALED : Str := str "A"

/-- `HeatTreatment.HEAT_STRENGTHENED`. -/
def HEAT_STRENGTHENED : Str := str "HS"

/-- `HeatTreatment.TOUGHENED`. -/
def TOUGHENED : Str := str "T"

/-- `HeatTreatment.TOUGHEND_HEATSOAKED`. -/
def TOUGHEND_HEATSOAKED : Str := str "TS"

/-- `HeatTreatment.VAR`. -/
def VAR : List Str := [MONO, ANNEALED, HEAT_STRENGTHENED, TOUGHENED, TOUGHEND_HEATSOAKED]

end HeatTreatment

namespace Support

/-- `Support.FOUR_SIDE`. -/
def FOUR_SIDE : ℚ := 4

/-- `Support.TWO_SIDE`. -/
def TWO_SIDE : ℚ := 2

end Support

/-- `GlassBuildup.parse_meta`: with the metadata marker present, scan the
three markers over the whole string (last occurrence each) and keep the part
before the first marker; otherwise the string is returned unchanged and
nothing is set. -/
def parse_meta (g : Str) : Str × Option ℚ × Option ℚ × Option ℚ :=
  if Protocol.META ∈ g then
    ((splitChar Protocol.META g).headI,
      find_number_after_marker Protocol.WIDTH g true,
      find_number_after_marker Protocol.HEIGHT g true,
      find_number_after_marker Protocol.SUPPORT g true)
  else (g, none, none, none)

/-- `GlassBuildup.parse_igdbcode`, as (returned string, `igdbcode`,
`igdbflip`).  Indexing `[-1]` into an empty bracket-pair list is an
uncaught `IndexError`, modelled as `.error`. -/
def parse_igdbcode (g : Str) : Except GErr (Str × Option Str × Bool) :=
  if startsWithChar Protocol.IGDB_START g && endsWithChar Protocol.IGDB_CLOSE_BRACKET g then
    match (find_enclosed_brackets g).getLast? with
    | none => .error .bracketIndexOutOfRange
    | some pr =>
      if firstIdx Protocol.IGDB_OPEN_BRACKET g = pr.1 then
        let x := (g.drop 1).take (pr.1 - 1)
        .ok ((g.drop (pr.1 + 1)).take (pr.2 - (pr.1 + 1)),
          some ((splitChar Protocol.IGDB_FLIP x).headI),
          endsWithChar Protocol.IGDB_FLIP x)
      else .ok (g, none, false)
  else .ok (g, none, false)

/-- `GlassBuildup.add_igdbcode`: wrap when the code is truthy (set and
non-empty). -/
def add_igdbcode (igdbcode : Option Str) (igdbflip : Bool) (g : Str) : Str :=
  match igdbcode with
  | some code =>
    if code ≠ [] then
      Protocol.IGDB_START :: code ++ (if igdbflip then [Protocol.IGDB_FLIP] else []) ++
        Protocol.IGDB_OPEN_BRACKET :: g ++ [Protocol.IGDB_CLOSE_BRACKET]
    else g
  | none => g

/-- One marker-value piece of the metadata tail; a falsy value (unset, or the
number `0`) renders nothing. -/
def metaPart (marker : Str) (v : Option ℚ) : Str :=
  match v with
  | some q => if q ≠ 0 then marker ++ renderNum q else []
  | none => []

/-- `GlassBuildup.add_meta`: append `-W...H...SUPPORT...` when at least one
of the three is truthy. -/
def add_meta (width height support : Option ℚ) (g : Str) : Str :=
  let s := metaPart Protocol.WIDTH width ++ metaPart Protocol.HEIGHT height ++
    metaPart Protocol.SUPPORT support
  if s ≠ [] then g ++ Protocol.META :: s else g

/-- `MonoGlass`: a single pane.  `descriptor` holds the heat treatment,
`t` the `_t_nom`/`_t_actual` value (stored together by `__init__`), the
rest are the `GlassBuildup` attributes. -/
structure MonoGlass where
  descriptor : Str
  t : Option ℚ
  width : Option ℚ
  height : Option ℚ
  support : Option ℚ
  igdbcode : Option Str
  igdbflip : Bool
  deriving DecidableEq

namespace MonoGlass

/-- `MonoGlass.THICKNESSES`. -/
def THICKNESSES : List ℚ := [4, 5, 6, 8, 10, 12, 15, 19, 25]

/-- `MonoGlass.__init__`: the heat treatment must be in
`HeatTreatment.VAR`, else `errors.BuildupException` is raised. -/
def make (heat_treatment : Str) (t_nom : Option ℚ) : Except GErr MonoGlass :=
  if heat_treatment ∈ HeatTreatment.VAR then
    .ok ⟨heat_treatment, t_nom, none, none, none, none, false⟩
  else .error .invalidHeatTreatment

/-- `MonoGlass.init_from_g_str`: strip metadata, strip the identifier
wrapper, then parse the remaining token and validate its descriptor through
`MonoGlass.__init__`. -/
def init_from_g_str (g : Str) : Except GErr MonoGlass :=
  match parse_igdbcode (parse_meta g).1 with
  | .error e => .error e
  | .ok r =>
    if (parseLayerToken r.1).1 ∈ HeatTreatment.VAR then
      .ok ⟨(parseLayerToken r.1).1, (parseLayerToken r.1).2, (parse_meta g).2.1,
        (parse_meta g).2.2.1, (parse_meta g).2.2.2, r.2.1, r.2.2⟩
    else .error .invalidHeatTreatment

/-- `MonoGlass.to_gstr`. -/
def to_gstr (m : MonoGlass) (inc_meta : Bool) : Str :=
  if inc_meta then
    add_meta m.width m.height m.support
      (add_igdbcode m.igdbcode m.igdbflip (renderOptNum m.t ++ m.descriptor))
  else add_igdbcode m.igdbcode m.igdbflip (renderOptNum m.t ++ m.descriptor)

/-- `GlassBuildup.width` setter on a mono pane: plain attribute write. -/
def setWidth (m : MonoGlass) (w : Option ℚ) : MonoGlass := { m with width := w }

/-- `GlassBuildup.height` setter on a mono pane. -/
def setHeight (m : MonoGlass) (h : Option ℚ) : MonoGlass := { m with height := h }

/-- `GlassBuildup.support` setter on a mono pane. -/
def setSupport (m : MonoGlass) (s : Option ℚ) : MonoGlass := { m with support := s }

end MonoGlass

/-- Interleave as `itertools.zip_longest` followed by chaining and dropping
the `None` padding: used by `MultiLayerGlassBuildup.__init__` to build
`_layers` from the glass layers and the separator layers. -/
def interleaveL {α : Type} : List α → List α → List α
  | [], ys => ys
  | xs, [] => xs
  | x :: xs, y :: ys => x :: y :: interleaveL xs ys

/-- A `_layers` element of a `LaminatedGlass`. -/
inductive LamLayer
  | ply : MonoGlass → LamLayer
  | il : Interlayer → LamLayer
  deriving DecidableEq

/-- `LaminatedGlass`: plies and interlayers (the stored `_layers` list is
their interleaving, recovered by the `plies`/`interlayers` properties),
plus the `GlassBuildup` attributes. -/
structure LamGlass where
  plies : List MonoGlass
  interlayers : List Interlayer
  width : Option ℚ
  height : Option ℚ
  support : Option ℚ
  igdbcode : Option Str
  igdbflip : Bool
  deriving DecidableEq

namespace LamGlass

/-- The `_layers` list of a `LaminatedGlass`. -/
def layers (l : LamGlass) : List LamLayer :=
  interleaveL (l.plies.map LamLayer.ply) (l.interlayers.map LamLayer.il)

/-- `MultiLayerGlassBuildup.t_nom`: sum the nominal thicknesses over
`_layers`, skipping every `Interlayer`; an unset thickness on a counted
layer is a `TypeError` in Python, modelled as `none`. -/
def t_nom (l : LamGlass) : Option ℚ :=
  l.layers.foldl
    (fun acc ly =>
      match ly with
      | .il _ => acc
      | .ply m => optStep acc m.t)
    (some 0)

/-- `MultiLayerGlassBuildup.t_actual`: sum over all of `_layers`. -/
def t_actual (l : LamGlass) : Option ℚ :=
  l.layers.foldl
    (fun acc ly => optStep acc (match ly with | .il x => x.t | .ply m => m.t))
    (some 0)

/-- `MultiLayerGlassBuildup.width` setter: writes the attribute and
cascades to every `GlassBuildup` element of `_layers` (the plies). -/
def setWidth (l : LamGlass) (w : Option ℚ) : LamGlass :=
  { l with width := w, plies := l.plies.map fun m => m.setWidth w }

/-- `MultiLayerGlassBuildup.height` setter. -/
def setHeight (l : LamGlass) (h : Option ℚ) : LamGlass :=
  { l with height := h, plies := l.plies.map fun m => m.setHeight h }

/-- `MultiLayerGlassBuildup.support` setter. -/
def setSupport (l : LamGlass) (s : Option ℚ) : LamGlass :=
  { l with support := s, plies := l.plies.map fun m => m.setSupport s }

/-- `LaminatedGlass.to_gstr`: render `_layers` in order, join on the
interlayer separator, wrap with the identifier, then append metadata. -/
def to_gstr (l : LamGlass) (inc_meta : Bool) : Str :=
  if inc_meta then
    add_meta l.width l.height l.support
      (add_igdbcode l.igdbcode l.igdbflip (joinChar Protocol.INTERLAYER_SEPARATOR
        (l.layers.map fun ly => match ly with | .ply m => m.to_gstr false | .il x => x.to_gstr)))
  else
    add_igdbcode l.igdbcode l.igdbflip (joinChar Protocol.INTERLAYER_SEPARATOR
      (l.layers.map fun ly => match ly with | .ply m => m.to_gstr false | .il x => x.to_gstr))

end LamGlass

/-- `LaminatedGlass.__init__`: with non-empty plies the interlayer count
must be one less than the ply count, else `errors.BuildupException`. -/
def LaminatedGlass.make (plies : List MonoGlass) (interlayers : List Interlayer) :
    Except GErr LamGlass :=
  if plies ≠ [] ∧ interlayers.length ≠ plies.length - 1 then
    .error .inconsistentLayerCount
  else .ok ⟨plies, interlayers, none, none, none, none, false⟩

/-- A glass-bearing lite of an insulated unit: `Mono` or `Laminated` (the
only shapes the gas-separator split can produce, since split pieces never
contain the separator). -/
inductive Lite
  | mono : MonoGlass → Lite
  | lam : LamGlass → Lite
  deriving DecidableEq

namespace Lite

/-- `to_gstr` on a lite, by class dispatch. -/
def to_gstr : Lite → Bool → Str
  | .mono m, b => m.to_gstr b
  | .lam l, b => l.to_gstr b

/-- `t_nom` on a lite, by class dispatch. -/
def t_nom : Lite → Option ℚ
  | .mono m => m.t
  | .lam l => l.t_nom

/-- Width write-through on a lite. -/
def setWidth : Lite → Option ℚ → Lite
  | .mono m, w => .mono (m.setWidth w)
  | .lam l, w => .lam (l.setWidth w)

/-- Height write-through on a lite. -/
def setHeight : Lite → Option ℚ → Lite
  | .mono m, h => .mono (m.setHeight h)
  | .lam l, h => .lam (l.setHeight h)

/-- Support write-through on a lite. -/
def setSupport : Lite → Option ℚ → Lite
  | .mono m, s => .mono (m.setSupport s)
  | .lam l, s => .lam (l.setSupport s)

end Lite

/-- `InsulatedGlass`: lites and gas layers plus the `GlassBuildup`
attributes. -/
structure IguGlass where
  lites : List Lite
  gases : List GasLayer
  width : Option ℚ
  height : Option ℚ
  support : Option ℚ
  igdbcode : Option Str
  igdbflip : Bool
  deriving DecidableEq

/-- A `_layers` element of an `InsulatedGlass`. -/
inductive IguLayer
  | lite : Lite → IguLayer
  | gas : GasLayer → IguLayer
  deriving DecidableEq

namespace IguGlass

/-- The `_layers` list of an `InsulatedGlass`. -/
def layers (u : IguGlass) : List IguLayer :=
  interleaveL (u.lites.map IguLayer.lite) (u.gases.map IguLayer.gas)

/-- `MultiLayerGlassBuildup.t_nom` on an insulated unit: every layer counts
(none is an `Interlayer`); laminated lites contribute their own `t_nom`,
which again skips their interlayers. -/
def t_nom (u : IguGlass) : Option ℚ :=
  u.layers.foldl
    (fun acc ly => optStep acc (match ly with | .lite l => l.t_nom | .gas g => g.t))
    (some 0)

/-- `MultiLayerGlassBuildup.width` setter: cascades to every lite. -/
def setWidth (u : IguGlass) (w : Option ℚ) : IguGlass :=
  { u with width := w, lites := u.lites.map fun l => l.setWidth w }

/-- `MultiLayerGlassBuildup.height` setter. -/
def setHeight (u : IguGlass) (h : Option ℚ) : IguGlass :=
  { u with height := h, lites := u.lites.map fun l => l.setHeight h }

/-- `MultiLayerGlassBuildup.support` setter. -/
def setSupport (u : IguGlass) (s : Option ℚ) : IguGlass :=
  { u with support := s, lites := u.lites.map fun l => l.setSupport s }

/-- The parts list built by `InsulatedGlass.to_gstr`'s loop: each lite
(without metadata), followed by its gas layer while one remains. -/
def parts : List Lite → List GasLayer → List Str
  | [], _ => []
  | l :: ls, [] => l.to_gstr false :: parts ls []
  | l :: ls, g :: gs => l.to_gstr false :: g.to_gstr :: parts ls gs

/-- `InsulatedGlass.to_gstr`. -/
def to_gstr (u : IguGlass) (inc_meta : Bool) : Str :=
  if inc_meta then
    add_meta u.width u.height u.support
      (add_igdbcode u.igdbcode u.igdbflip (joinChar Protocol.GAS_SEPARATOR (parts u.lites u.gases)))
  else add_igdbcode u.igdbcode u.igdbflip (joinChar Protocol.GAS_SEPARATOR (parts u.lites u.gases))

end IguGlass

/-- `InsulatedGlass.__init__`: with non-empty lites the gas count must be
one less than the lite count. -/
def InsulatedGlass.make (lites : List Lite) (gases : List GasLayer) :
    Except GErr IguGlass :=
  if lites ≠ [] ∧ gases.length ≠ lites.length - 1 then
    .error .inconsistentLayerCount
  else .ok ⟨lites, gases, none, none, none, none, false⟩

/-- Every second element starting at index 0 (`_layers[0::2]`). -/
def evens {α : Type} : List α → List α
  | [] => []
  | [x] => [x]
  | x :: _ :: xs => x :: evens xs

/-- Every second element starting at index 1 (`_layers[1::2]`). -/
def odds {α : Type} (l : List α) : List α := evens (l.drop 1)

/-- `LaminatedGlass.init_from_g_str`: strip metadata and identifier, split
on the interlayer separator; even pieces parse as `MonoGlass`, odd pieces
as `Interlayer`. -/
def LaminatedGlass.init_from_g_str (g : Str) : Except GErr LamGlass :=
  match parse_igdbcode (parse_meta g).1 with
  | .error e => .error e
  | .ok r =>
    match exceptMapM MonoGlass.init_from_g_str
        (evens (splitChar Protocol.INTERLAYER_SEPARATOR r.1)) with
    | .error e => .error e
    | .ok plies =>
      .ok ⟨plies,
        (odds (splitChar Protocol.INTERLAYER_SEPARATOR r.1)).map Interlayer.init_from_g_str,
        (parse_meta g).2.1, (parse_meta g).2.2.1, (parse_meta g).2.2.2, r.2.1, r.2.2⟩

/-- `GlassBuildup.make_glass` restricted to a piece of a gas-separator
split (such pieces never contain the separator, so the insulated branch
cannot fire): dispatch on the interlayer separator or the `LAM` prefix. -/
def parseLite (g : Str) : Except GErr Lite :=
  if Protocol.INTERLAYER_SEPARATOR ∈ g ∨ Protocol.LAM.isPrefixOf g then
    (LaminatedGlass.init_from_g_str g).map Lite.lam
  else (MonoGlass.init_from_g_str g).map Lite.mono

/-- `InsulatedGlass.init_from_g_str`: split on the gas separator; even
pieces are lites dispatched through `make_glass`, odd pieces gas layers. -/
def InsulatedGlass.init_from_g_str (g : Str) : Except GErr IguGlass :=
  match parse_igdbcode (parse_meta g).1 with
  | .error e => .error e
  | .ok r =>
    match exceptMapM parseLite (evens (splitChar Protocol.GAS_SEPARATOR r.1)) with
    | .error e => .error e
    | .ok lites =>
      .ok ⟨lites, (odds (splitChar Protocol.GAS_SEPARATOR r.1)).map GasLayer.init_from_g_str,
        (parse_meta g).2.1, (parse_meta g).2.2.1, (parse_meta g).2.2.2, r.2.1, r.2.2⟩

/-- The buildup class hierarchy under `GlassBuildup`, as a sum. -/
inductive GlassBuildup
  | mono : MonoGlass → GlassBuildup
  | lam : LamGlass → GlassBuildup
  | igu : IguGlass → GlassBuildup
  deriving DecidableEq

/-- A lite as a `GlassBuildup`. -/
def Lite.toBuildup : Lite → GlassBuildup
  | .mono m => .mono m
  | .lam l => .lam l

namespace GlassBuildup

/-- `GlassBuildup.make_glass`: choose the subclass from the separators. -/
def make_glass (g : Str) : Except GErr GlassBuildup :=
  if Protocol.GAS_SEPARATOR ∈ g then (InsulatedGlass.init_from_g_str g).map GlassBuildup.igu
  else (parseLite g).map Lite.toBuildup

/-- `to_gstr` by class dispatch. -/
def to_gstr : GlassBuildup → Bool → Str
  | .mono m, b => m.to_gstr b
  | .lam l, b => l.to_gstr b
  | .igu u, b => u.to_gstr b

/-- The `_width` attribute. -/
def width : GlassBuildup → Option ℚ
  | .mono m => m.width
  | .lam l => l.width
  | .igu u => u.width

/-- The `_height` attribute. -/
def height : GlassBuildup → Option ℚ
  | .mono m => m.height
  | .lam l => l.height
  | .igu u => u.height

/-- The `_support` attribute. -/
def support : GlassBuildup → Option ℚ
  | .mono m => m.support
  | .lam l => l.support
  | .igu u => u.support

/-- The width setter by class dispatch. -/
def setWidth : GlassBuildup → Option ℚ → GlassBuildup
  | .mono m, w => .mono (m.setWidth w)
  | .lam l, w => .lam (l.setWidth w)
  | .igu u, w => .igu (u.setWidth w)

/-- The height setter by class dispatch. -/
def setHeight : GlassBuildup → Option ℚ → GlassBuildup
  | .mono m, h => .mono (m.setHeight h)
  | .lam l, h => .lam (l.setHeight h)
  | .igu u, h => .igu (u.setHeight h)

/-- The support setter by class dispatch. -/
def setSupport : GlassBuildup → Option ℚ → GlassBuildup
  | .mono m, s => .mono (m.setSupport s)
  | .lam l, s => .lam (l.setSupport s)
  | .igu u, s => .igu (u.setSupport s)

/-- `GlassBuildup.ar`: `max(width, height) / min(width, height)`.  With an
unset dimension Python's `max(None, _)` raises a `TypeError`; the model
returns `none` there. -/
def ar (b : GlassBuildup) : Option ℚ :=
  match b.width, b.height with
  | some w, some h => some (max w h / min w h)
  | _, _ => none

end GlassBuildup

instance {ε α : Type} [DecidableEq ε] [DecidableEq α] : DecidableEq (Except ε α) := fun a b =>
  match a, b with
  | .ok x, .ok y => if h : x = y then .isTrue (by rw [h]) else .isFalse (by simp [h])
  | .ok _, .error _ => .isFalse (by simp)
  | .error _, .ok _ => .isFalse (by simp)
  | .error e, .error f => if h : e = f then .isTrue (by rw [h]) else .isFalse (by simp [h])

/-- Specification-side reading of the laminated nominal thickness: the sum of
the plies' nominal thicknesses, with no interlayer contribution (`none` when
a ply thickness is unset). -/
def lamTnomSpec (l : LamGlass) : Option ℚ :=
  (optSeq (l.plies.map fun m => m.t)).map fun ts => ts.sum

/-- Specification-side nominal thickness of a lite. -/
def liteTnomSpec : Lite → Option ℚ
  | .mono m => m.t
  | .lam l => lamTnomSpec l

/-- Specification-side reading of the insulated nominal thickness: the sum
over lites and gas gaps, nested laminated lites again excluding their
interlayers. -/
def iguTnomSpec (u : IguGlass) : Option ℚ :=
  match optSeq (u.lites.map liteTnomSpec), optSeq (u.gases.map fun g => g.t) with
  | some ls, some gs => some (ls.sum + gs.sum)
  | _, _ => none

/-- The `(width, height, support)` triple of a mono pane. -/
def MonoGlass.metaTriple (m : MonoGlass) : Option ℚ × Option ℚ × Option ℚ :=
  (m.width, m.height, m.support)

/-- The metadata triples of a laminated buildup and its plies, outer first. -/
def LamGlass.metas (l : LamGlass) : List (Option ℚ × Option ℚ × Option ℚ) :=
  (l.width, l.height, l.support) :: l.plies.map MonoGlass.metaTriple

/-- The metadata triples of the glass-bearing nodes of a lite. -/
def Lite.metas : Lite → List (Option ℚ × Option ℚ × Option ℚ)
  | .mono m => [m.metaTriple]
  | .lam l => l.metas

/-- The metadata triples of an insulated buildup, its lites and their plies. -/
def IguGlass.metas (u : IguGlass) : List (Option ℚ × Option ℚ × Option ℚ) :=
  (u.width, u.height, u.support) :: (u.lites.map Lite.metas).flatten

/-- The metadata triples of every glass-bearing node of a buildup,
outermost first. -/
def GlassBuildup.metas : GlassBuildup → List (Option ℚ × Option ℚ × Option ℚ)
  | .mono m => [m.metaTriple]
  | .lam l => l.metas
  | .igu u => u.metas

/-- A mono pane with its width, height and support erased. -/
def MonoGlass.clearMeta (m : MonoGlass) : MonoGlass :=
  { m with width := none, height := none, support := none }

/-- A laminated buildup with all width/height/support attributes erased. -/
def LamGlass.clearMeta (l : LamGlass) : LamGlass :=
  { l with width := none, height := none, support := none, plies := l.plies.map MonoGlass.clearMeta }

/-- A lite with all width/height/support attributes erased. -/
def Lite.clearMeta : Lite → Lite
  | .mono m => .mono m.clearMeta
  | .lam l => .lam l.clearMeta

/-- An insulated buildup with all width/height/support attributes erased. -/
def IguGlass.clearMeta (u : IguGlass) : IguGlass :=
  { u with width := none, height := none, support := none, lites := u.lites.map Lite.clearMeta }

/-- A buildup with every width/height/support attribute erased: two buildups
with the same `clearMeta` agree on everything except those attributes. -/
def GlassBuildup.clearMeta : GlassBuildup → GlassBuildup
  | .mono m => .mono m.clearMeta
  | .lam l => .lam l.clearMeta
  | .igu u => .igu u.clearMeta

/-- Decidable check that every `'H'` in the string is immediately followed
by `'S'` (in particular `'H'` is never the last character): then no `'H'`
of the string can begin a successful height-marker match. -/
def hSafeB : Str → Bool
  | [] => true
  | [c] => c != 'H'
  | c :: d :: r => (c != 'H' || d == 'S') && hSafeB (d :: r)

/-- The letters of the enumerated descriptors of the model (heat
treatments, interlayer materials, gas materials). -/
def descCls (c : Char) : Bool :=
  c ∈ ['M', 'O', 'N', 'A', 'H', 'S', 'T', 'P', 'V', 'B', 'G', 'E', 'I', 'R', 'K', 'X']

/-- The characters that can occur in a rendered code-free layer token:
digits and dot from the thickness, and the enumerated descriptor letters. -/
def tokCls (c : Char) : Bool := c.isDigit || c = '.' || descCls c

/-- The characters the metadata tail can add: the marker and the letters of
`W`, `H`, `SUPPORT`, and rendered numbers. -/
def metaCls (c : Char) : Bool :=
  c.isDigit || c = '.' || c = '-' || c = 'W' || c = 'H' || c ∈ ['S', 'U', 'P', 'O', 'R', 'T']

/-- A thickness that round-trips: set, non-negative and an exact decimal. -/
def validThicknessB (t : Option ℚ) : Bool :=
  match t with
  | some q => decide (0 ≤ q) && decide (IsDecimal q)
  | none => false

/-- A width/height/support value that round-trips: unset, or positive (the
renderer drops falsy values) and an exact decimal. -/
def validMetaValB (v : Option ℚ) : Bool :=
  match v with
  | none => true
  | some q => decide (0 < q) && decide (IsDecimal q)

/-- An identifier code that round-trips: unset (with the flip flag then
meaningless and false), or a non-empty digit string. -/
def validCodeB (c : Option Str) (flip : Bool) : Bool :=
  match c with
  | none => !flip
  | some cs => decide (cs ≠ []) && cs.all Char.isDigit

/-- A mono pane in round-trippable form; `top` tells whether it stands at
top level (metadata and identifier code allowed) or nested inside a
composite (metadata and code unset: nested renders drop metadata, and a
nested identifier wrapper would collide with the composite's own). -/
def MonoGlass.validB (top : Bool) (m : MonoGlass) : Bool :=
  decide (m.descriptor ∈ HeatTreatment.VAR) && validThicknessB m.t &&
    (if top then
      validCodeB m.igdbcode m.igdbflip &&
        validMetaValB m.width && validMetaValB m.height && validMetaValB m.support
     else decide (m.igdbcode = none) && !m.igdbflip &&
        decide (m.width = none) && decide (m.height = none) && decide (m.support = none))

/-- An interlayer in round-trippable form. -/
def Interlayer.validB (x : Interlayer) : Bool :=
  decide (x.descriptor ∈ Interlayer.MATERIALS) && validThicknessB x.t

/-- A gas layer in round-trippable form. -/
def GasLayer.validB (x : GasLayer) : Bool :=
  decide (x.descriptor ∈ GasLayer.MATERIALS) && validThicknessB x.t

/-- A laminated buildup in round-trippable form: at least two plies (a
single token would re-parse as a mono pane), the count invariant, valid
plies (nested: no metadata), valid interlayers, and a valid code. -/
def LamGlass.validB (top : Bool) (l : LamGlass) : Bool :=
  decide (2 ≤ l.plies.length) && decide (l.interlayers.length = l.plies.length - 1) &&
    l.plies.all (MonoGlass.validB false) && l.interlayers.all Interlayer.validB &&
    (if top then
      validCodeB l.igdbcode l.igdbflip &&
        validMetaValB l.width && validMetaValB l.height && validMetaValB l.support
     else decide (l.igdbcode = none) && !l.igdbflip &&
        decide (l.width = none) && decide (l.height = none) && decide (l.support = none))

/-- A lite in round-trippable form (always nested). -/
def Lite.validB : Lite → Bool
  | .mono m => m.validB false
  | .lam l => l.validB false

/-- An insulated buildup in round-trippable form: at least two lites, the
count invariant, valid lites and gas layers, and a valid code. -/
def IguGlass.validB (top : Bool) (u : IguGlass) : Bool :=
  decide (2 ≤ u.lites.length) && decide (u.gases.length = u.lites.length - 1) &&
    u.lites.all Lite.validB && u.gases.all GasLayer.validB &&
    (if top then
      validCodeB u.igdbcode u.igdbflip &&
        validMetaValB u.width && validMetaValB u.height && validMetaValB u.support
     else decide (u.igdbcode = none) && !u.igdbflip &&
        decide (u.width = none) && decide (u.height = none) && decide (u.support = none))

/-- A top-level buildup in round-trippable form. -/
def GlassBuildup.validB : GlassBuildup → Bool
  | .mono m => m.validB true
  | .lam l => l.validB true
  | .igu u => u.validB true

/-- A string that cannot start a number-token continuation: its head (when
present) is neither a digit nor a dot. -/
def HeadSafe (rest : Str) : Prop :=
  ∀ c, rest.head? = some c → c.isDigit = false ∧ c ≠ '.'

/-- The greedy regex match `\d*\.*\d+` at the start of `b` has a dot-run of
length at least two with a digit right after it (e.g. `"1..2"`, `"..5"`).
Python's `float()` on such a group raises `ValueError` out of
`find_number_after_marker`; the model's `parseUnsigned` returns `none`
there instead. -/
def badNumCore (b : Str) : Bool :=
  decide (2 ≤ ((b.dropWhile Char.isDigit).takeWhile fun c => c = '.').length) &&
    decide ((((b.dropWhile Char.isDigit).dropWhile fun c => c = '.').takeWhile
      Char.isDigit) ≠ [])

/-- The regex `[-+]?(?:\d*\.*\d+)` at the start of `s` (sign handled as in
`parseSignedNumAt`) would match a multi-dot group, on which `float()`
raises. -/
def badNumTokenAt : Str → Bool
  | [] => badNumCore []
  | c :: r =>
    if c = '-' then badNumCore r
    else if c = '+' then badNumCore r
    else badNumCore (c :: r)

/-- No occurrence of `m` in the string is followed by a multi-dot number
match: then no group collected by the source's `re.findall(m + num)` can
make `float()` raise, the scan returns normally, and the model's
`findMarkerNumLast` agrees with `matches[-1]`. -/
def markerSafeB (m : Str) : Str → Bool
  | [] => true
  | c :: r =>
    (!(m.isPrefixOf (c :: r)) || !(badNumTokenAt ((c :: r).drop m.length))) &&
      markerSafeB m r

/-! ### Helper lemmas -/

theorem splitChar_ne_nil (sep : Char) (s : Str) : splitChar sep s ≠ [] := by
  cases s with
  | nil => simp [splitChar]
  | cons c rest =>
    by_cases h : c = sep
    · simp [splitChar, h]
    · simp only [splitChar, if_neg h]
      cases hs : splitChar sep rest <;> simp

theorem splitChar_headI (sep : Char) (s : Str) :
    (splitChar sep s).headI = s.takeWhile fun c => c != sep := by
  induction s with
  | nil => rfl
  | cons c rest ih =>
    by_cases h : c = sep
    · subst h; simp [splitChar, List.takeWhile_cons]
    · simp only [splitChar, if_neg h, List.takeWhile_cons]
      have hne : (c != sep) = true := by simp [h]
      rw [hne]
      simp only [if_true]
      cases hs : splitChar sep rest with
      | nil => exact absurd hs (splitChar_ne_nil sep rest)
      | cons t ts =>
        have : t = rest.takeWhile fun c => c != sep := by
          have := ih
          rw [hs] at this
          simpa using this
        simp [this]

/-! ### C2: unbalanced brackets in the scan -/

/-- C2.  The claim says unbalanced brackets make the scan fail with a parse
error surfaced to the caller.  The code only prints a message and returns
the matched-pair list normally: on `")"`, `"("` and `"(6A"` (an unmatched
close, an unmatched open, an unmatched open with content) the scan returns
`[]` — a pair list, not an error.  The source's own `print("Error: ...")`
strings show these were meant to be error conditions. -/
theorem find_enclosed_brackets_unbalanced_no_error :
    find_enclosed_brackets (str ")") = [] ∧
    find_enclosed_brackets (str "(") = [] ∧
    find_enclosed_brackets (str "(6A") = [] ∧
    find_enclosed_brackets (str "6A)(") = [] := by
  refine ⟨rfl, rfl, rfl, rfl⟩

/-! ### C3: descriptor validation at construction -/

/-- C3 counterexample.  The claim says an `Interlayer` with a material
outside `{PVB, SG, EVA}` and a `GasLayer` with a gas outside
`{AIR, AR, XE, KR}` are rejected at construction.  Both inherit the
validation-free `_BaseLayer.__init__`: parsing the tokens `"0.5FOO"` and
`"12FOO"` constructs layers carrying the invalid descriptor `"FOO"`, with
no error raised. -/
theorem interlayer_invalid_material_accepted :
    Interlayer.init_from_g_str (str "0.5FOO") = ⟨str "FOO", some (1 / 2)⟩ ∧
    str "FOO" ∉ Interlayer.MATERIALS ∧
    GasLayer.init_from_g_str (str "12FOO") = ⟨str "FOO", some 12⟩ ∧
    str "FOO" ∉ GasLayer.MATERIALS ∧
    Interlayer.make (str "FOO") (some 1) = ⟨str "FOO", some 1⟩ := by
  refine ⟨by decide, by decide, by decide, by decide, rfl⟩

/-- C3 as amended: only `MonoGlass.__init__` validates its descriptor
(heat treatments outside `{MONO, A, HS, T, TS}` raise); `Interlayer` and
`GasLayer` construction accepts any descriptor, including one outside the
variant's `MATERIALS` list. -/
theorem descriptor_validation_only_mono :
    (∀ (d : Str) (t : Option ℚ), d ∉ HeatTreatment.VAR →
      MonoGlass.make d t = .error .invalidHeatTreatment) ∧
    (∀ (d : Str) (t : Option ℚ), d ∈ HeatTreatment.VAR →
      MonoGlass.make d t = .ok ⟨d, t, none, none, none, none, false⟩) ∧
    (∀ (d : Str) (t : Option ℚ), Interlayer.make d t = ⟨d, t⟩) ∧
    (∀ (d : Str) (t : Option ℚ), GasLayer.make d t = ⟨d, t⟩) ∧
    Interlayer.init_from_g_str (str "0.5FOO") = ⟨str "FOO", some (1 / 2)⟩ ∧
    GasLayer.init_from_g_str (str "12FOO") = ⟨str "FOO", some 12⟩ := by
  refine ⟨fun d t hd => ?_, fun d t hd => ?_, fun d t => rfl, fun d t => rfl,
    by decide, by decide⟩
  · simp [MonoGlass.make, hd]
  · simp [MonoGlass.make, hd]

/-- C3 witness: the amended theorem applied at `"Q"` (invalid) and `"HS"`
(valid). -/
theorem descriptor_validation_only_mono_witness :
    MonoGlass.make (str "Q") (some 6) = .error .invalidHeatTreatment ∧
    MonoGlass.make (str "HS") (some 6) =
      .ok ⟨str "HS", some 6, none, none, none, none, false⟩ :=
  ⟨descriptor_validation_only_mono.1 (str "Q") (some 6) (by decide),
    descriptor_validation_only_mono.2.1 (str "HS") (some 6) (by decide)⟩

/-! ### C4: layer-count validation -/

/-- C4.  Constructing `LaminatedGlass` with non-empty plies and an
interlayer count other than `plies - 1` raises the layer-count error, and
likewise `InsulatedGlass` for lites and gas gaps; with matching counts
construction succeeds. -/
theorem layer_count_validation :
    (∀ (plies : List MonoGlass) (ils : List Interlayer), plies ≠ [] →
      ils.length ≠ plies.length - 1 →
      LaminatedGlass.make plies ils = .error .inconsistentLayerCount) ∧
    (∀ (plies : List MonoGlass) (ils : List Interlayer),
      ils.length = plies.length - 1 →
      LaminatedGlass.make plies ils = .ok ⟨plies, ils, none, none, none, none, false⟩) ∧
    (∀ (lites : List Lite) (gs : List GasLayer), lites ≠ [] →
      gs.length ≠ lites.length - 1 →
      InsulatedGlass.make lites gs = .error .inconsistentLayerCount) ∧
    (∀ (lites : List Lite) (gs : List GasLayer),
      gs.length = lites.length - 1 →
      InsulatedGlass.make lites gs = .ok ⟨lites, gs, none, none, none, none, false⟩) := by
  refine ⟨fun p i h1 h2 => ?_, fun p i h => ?_, fun l g h1 h2 => ?_, fun l g h => ?_⟩
  · simp [LaminatedGlass.make, h1, h2]
  · simp [LaminatedGlass.make, h]
  · simp [InsulatedGlass.make, h1, h2]
  · simp [InsulatedGlass.make, h]

/-- C4 witness: one ply with one interlayer errors; two plies with one
interlayer (and the insulated mirror) construct. -/
theorem layer_count_validation_witness :
    LaminatedGlass.make [⟨str "A", some 6, none, none, none, none, false⟩]
        [⟨str "PVB", some 1⟩] = .error .inconsistentLayerCount ∧
    LaminatedGlass.make
        [⟨str "A", some 6, none, none, none, none, false⟩,
          ⟨str "A", some 6, none, none, none, none, false⟩]
        [⟨str "PVB", some 1⟩] =
      .ok ⟨[⟨str "A", some 6, none, none, none, none, false⟩,
        ⟨str "A", some 6, none, none, none, none, false⟩],
        [⟨str "PVB", some 1⟩], none, none, none, none, false⟩ ∧
    InsulatedGlass.make [.mono ⟨str "A", some 6, none, none, none, none, false⟩]
        [⟨str "AIR", some 12⟩] = .error .inconsistentLayerCount :=
  ⟨layer_count_validation.1 _ _ (by decide) (by decide),
    layer_count_validation.2.1 _ _ (by decide),
    layer_count_validation.2.2.1 _ _ (by decide) (by decide)⟩

/-! ### C9: the thickness sentinel -/

/-- C9 counterexample.  The claim says the "unset thickness" sentinel is
distinct from the value zero.  In the source `THICKNESS_NOT_SET = 0`: a
layer built with the default (unset) thickness is the very same value as a
layer built with thickness `0`, so the two are not distinguishable. -/
theorem thickness_sentinel_is_zero :
    THICKNESS_NOT_SET = 0 ∧
    Interlayer.makeDefault (str "PVB") = Interlayer.make (str "PVB") (some 0) ∧
    GasLayer.makeDefault (str "AIR") = GasLayer.make (str "AIR") (some 0) :=
  ⟨rfl, rfl, rfl⟩

/-- C9 as amended: the sentinel `THICKNESS_NOT_SET` is the numeric value
`0` (not distinct from zero — a default-constructed layer equals a
zero-thickness layer), and thickness is not constrained to be non-negative:
construction stores a negative thickness unchanged. -/
theorem thickness_sentinel_amended :
    THICKNESS_NOT_SET = 0 ∧
    (∀ d : Str, Interlayer.makeDefault d = Interlayer.make d (some 0)) ∧
    (∀ d : Str, GasLayer.makeDefault d = GasLayer.make d (some 0)) ∧
    (Interlayer.make (str "PVB") (some (-1))).t = some (-1) ∧
    (MonoGlass.make HeatTreatment.ANNEALED (some (-1))).map (fun m => m.t) =
      .ok (some (-1)) :=
  ⟨rfl, fun d => rfl, fun d => rfl, rfl, rfl⟩

/-! ### C8: aspect ratio -/

/-- C8.  With both dimensions set to positive values the aspect ratio is
`max/min`, symmetric under swapping width and height, and at least `1`;
with either dimension unset (`None`, on which Python's `max` raises a
`TypeError`) there is no defined result, modelled as `none`. -/
theorem aspect_ratio_spec :
    (∀ (b : GlassBuildup) (w h : ℚ), 0 < w → 0 < h →
      b.width = some w → b.height = some h →
      b.ar = some (max w h / min w h) ∧ ∃ v, b.ar = some v ∧ 1 ≤ v) ∧
    (∀ (b b' : GlassBuildup) (w h : ℚ),
      b.width = some w → b.height = some h →
      b'.width = some h → b'.height = some w → b.ar = b'.ar) ∧
    (∀ b : GlassBuildup, b.width = none ∨ b.height = none → b.ar = none) := by
  refine ⟨fun b w h hw hh hbw hbh => ?_, fun b b' w h h1 h2 h3 h4 => ?_, fun b hb => ?_⟩
  · have har : b.ar = some (max w h / min w h) := by
      simp [GlassBuildup.ar, hbw, hbh]
    have hmin : 0 < min w h := lt_min hw hh
    refine ⟨har, max w h / min w h, har, ?_⟩
    rw [one_le_div hmin]
    exact min_le_max
  · simp [GlassBuildup.ar, h1, h2, h3, h4, max_comm, min_comm]
  · rcases hb with hb | hb
    · simp [GlassBuildup.ar, hb]
    · cases hw : b.width <;> simp [GlassBuildup.ar, hw, hb]

/-- C8 witness: the theorem applied to a pane with width `3000` and height
`4000` (and to the swapped pane for symmetry). -/
theorem aspect_ratio_spec_witness :
    (GlassBuildup.mono ⟨str "A", some 6, some 3000, some 4000, none, none, false⟩).ar
        = some (max 3000 4000 / min 3000 4000) ∧
    (GlassBuildup.mono ⟨str "A", some 6, some 3000, some 4000, none, none, false⟩).ar
        = (GlassBuildup.mono ⟨str "A", some 6, some 4000, some 3000, none, none, false⟩).ar ∧
    (GlassBuildup.mono ⟨str "A", some 6, none, some 4000, none, none, false⟩).ar = none :=
  ⟨(aspect_ratio_spec.1
      (GlassBuildup.mono ⟨str "A", some 6, some 3000, some 4000, none, none, false⟩)
      3000 4000 (by norm_num) (by norm_num) rfl rfl).1,
    aspect_ratio_spec.2.1
      (GlassBuildup.mono ⟨str "A", some 6, some 3000, some 4000, none, none, false⟩)
      (GlassBuildup.mono ⟨str "A", some 6, some 4000, some 3000, none, none, false⟩)
      3000 4000 rfl rfl rfl rfl,
    aspect_ratio_spec.2.2
      (GlassBuildup.mono ⟨str "A", some 6, none, some 4000, none, none, false⟩)
      (Or.inl rfl)⟩

/-! ### C5: nominal thickness sums -/

theorem optStep_none (t : Option ℚ) : optStep none t = none := by
  cases t <;> rfl

theorem optStep_none_right (t : Option ℚ) : optStep t none = none := by
  cases t <;> rfl

theorem foldl_optStep_none (ts : List (Option ℚ)) : ts.foldl optStep none = none := by
  induction ts with
  | nil => rfl
  | cons t ts ih => rw [List.foldl_cons, optStep_none]; exact ih

theorem foldl_optStep_eq (ts : List (Option ℚ)) (a : ℚ) :
    ts.foldl optStep (some a) = (optSeq ts).map fun l => a + l.sum := by
  induction ts generalizing a with
  | nil => simp [optSeq]
  | cons t ts ih =>
    cases t with
    | none => simp [List.foldl_cons, optStep, foldl_optStep_none, optSeq]
    | some b =>
      rw [List.foldl_cons]
      have hst : optStep (some a) (some b) = some (a + b) := rfl
      rw [hst, ih]
      cases hts : optSeq ts with
      | none => simp [optSeq, hts]
      | some l => simp [optSeq, hts, add_assoc]

theorem lam_layers_fold (ps : List MonoGlass) (ils : List Interlayer) (acc : Option ℚ) :
    (interleaveL (ps.map LamLayer.ply) (ils.map LamLayer.il)).foldl
      (fun acc ly => match ly with | .il _ => acc | .ply m => optStep acc m.t) acc
      = (ps.map fun m => m.t).foldl optStep acc := by
  induction ps generalizing ils acc with
  | nil =>
    simp only [List.map_nil]
    induction ils generalizing acc with
    | nil => rfl
    | cons i is ih =>
      simpa [interleaveL] using ih acc
  | cons p ps ih =>
    cases ils with
    | nil =>
      have h0 : interleaveL ((p :: ps).map LamLayer.ply) (([] : List Interlayer).map LamLayer.il)
          = (p :: ps).map LamLayer.ply := by
        simp [interleaveL]
      rw [h0]
      have h1 := ih [] (optStep acc p.t)
      simp only [List.map_nil] at h1
      have h2 : interleaveL (ps.map LamLayer.ply) ([] : List LamLayer) = ps.map LamLayer.ply := by
        cases hps : ps.map LamLayer.ply <;> rfl
      rw [h2] at h1
      simp only [List.map_cons, List.foldl_cons]
      exact h1
    | cons i is =>
      simpa [interleaveL] using ih is (optStep acc p.t)

theorem lam_t_nom_eq (l : LamGlass) : l.t_nom = lamTnomSpec l := by
  unfold LamGlass.t_nom lamTnomSpec LamGlass.layers
  rw [lam_layers_fold, foldl_optStep_eq]
  cases h : optSeq (l.plies.map fun m => m.t) with
  | none => simp [h]
  | some ts => simp [h]

theorem interleaveL_map {α β : Type} (f : α → β) (A B : List α) :
    (interleaveL A B).map f = interleaveL (A.map f) (B.map f) := by
  induction A generalizing B with
  | nil => cases B <;> simp [interleaveL]
  | cons x A ih =>
    cases B with
    | nil => simp [interleaveL]
    | cons y B => simp [interleaveL, ih]

theorem optFold_interleave (A B : List (Option ℚ)) (a : ℚ) :
    (interleaveL A B).foldl optStep (some a) =
      match optSeq A, optSeq B with
      | some x, some y => some (a + (x.sum + y.sum))
      | _, _ => none := by
  induction A generalizing B a with
  | nil =>
    have hi : interleaveL ([] : List (Option ℚ)) B = B := by cases B <;> rfl
    rw [hi, foldl_optStep_eq]
    cases hB : optSeq B with
    | none => simp [optSeq]
    | some l => simp [optSeq]
  | cons x A ih =>
    cases B with
    | nil =>
      have hi : interleaveL (x :: A) ([] : List (Option ℚ)) = x :: A := rfl
      rw [hi, foldl_optStep_eq]
      cases hA : optSeq (x :: A) with
      | none => simp [hA, optSeq]
      | some l => simp [hA, optSeq]
    | cons y B =>
      have hi : interleaveL (x :: A) (y :: B) = x :: y :: interleaveL A B := rfl
      rw [hi]
      cases x with
      | none =>
        simp only [List.foldl_cons, optStep_none, optStep_none_right, foldl_optStep_none]
        simp [optSeq, optStep_none, foldl_optStep_none]
      | some bx =>
        cases y with
        | none =>
          have h1 : optStep (some a) (some bx) = some (a + bx) := rfl
          simp only [List.foldl_cons, h1, optStep_none, optStep_none_right, foldl_optStep_none]
          cases hA : optSeq A <;> simp [optSeq, hA]
        | some by' =>
          have h1 : optStep (some a) (some bx) = some (a + bx) := rfl
          have h2 : optStep (some (a + bx)) (some by') = some (a + bx + by') := rfl
          rw [List.foldl_cons, List.foldl_cons, h1, h2, ih]
          cases hA : optSeq A with
          | none => simp [optSeq, hA]
          | some l =>
            cases hB : optSeq B with
            | none => simp [optSeq, hA, hB]
            | some l2 =>
              simp only [optSeq, hA, hB]
              simp [List.sum_cons]
              ring

theorem lite_t_nom_eq (li : Lite) : li.t_nom = liteTnomSpec li := by
  cases li with
  | mono m => rfl
  | lam l => exact lam_t_nom_eq l

theorem igu_fold_extract (L : List IguLayer) (acc : Option ℚ) :
    L.foldl (fun acc ly =>
        optStep acc (match ly with | IguLayer.lite l => l.t_nom | IguLayer.gas g => g.t)) acc
      = (L.map fun ly =>
          match ly with | IguLayer.lite l => l.t_nom | IguLayer.gas g => g.t).foldl
        optStep acc := by
  induction L generalizing acc with
  | nil => rfl
  | cons ly L ih => simp [List.foldl_cons, ih]

theorem igu_t_nom_eq (u : IguGlass) : u.t_nom = iguTnomSpec u := by
  unfold IguGlass.t_nom IguGlass.layers
  rw [igu_fold_extract]
  rw [interleaveL_map, List.map_map, List.map_map]
  have hl : (fun ly => match ly with | IguLayer.lite l => l.t_nom | IguLayer.gas g => g.t)
      ∘ IguLayer.lite = Lite.t_nom := rfl
  have hg : (fun ly => match ly with | IguLayer.lite l => l.t_nom | IguLayer.gas g => g.t)
      ∘ IguLayer.gas = fun g : GasLayer => g.t := rfl
  rw [hl, hg, optFold_interleave]
  have hmap : u.lites.map Lite.t_nom = u.lites.map liteTnomSpec :=
    List.map_congr_left fun li _ => lite_t_nom_eq li
  rw [hmap]
  unfold iguTnomSpec
  cases hA : optSeq (u.lites.map liteTnomSpec) with
  | none => simp
  | some ls =>
    cases hB : optSeq (u.gases.map fun g => g.t) with
    | none => simp
    | some gs => simp

/-- C5.  The nominal total thickness of a laminated buildup is the sum of
its plies' nominal thicknesses, with every interlayer excluded; for an
insulated buildup it is the sum over lites and gas gaps (gas included,
nested laminated lites again excluding their interlayers).  `none` models
the `TypeError` Python raises when a counted thickness is unset. -/
theorem t_nom_sums :
    (∀ l : LamGlass, l.t_nom = lamTnomSpec l) ∧
    (∀ u : IguGlass, u.t_nom = iguTnomSpec u) :=
  ⟨lam_t_nom_eq, igu_t_nom_eq⟩

/-! ### C7: width/height/support write-through -/

theorem lam_setWidth_metas (l : LamGlass) (v : Option ℚ) :
    (l.setWidth v).metas = l.metas.map fun t => (v, t.2.1, t.2.2) := by
  simp only [LamGlass.setWidth, LamGlass.metas, List.map_cons, List.map_map]
  rfl

theorem lam_setHeight_metas (l : LamGlass) (v : Option ℚ) :
    (l.setHeight v).metas = l.metas.map fun t => (t.1, v, t.2.2) := by
  simp only [LamGlass.setHeight, LamGlass.metas, List.map_cons, List.map_map]
  rfl

theorem lam_setSupport_metas (l : LamGlass) (v : Option ℚ) :
    (l.setSupport v).metas = l.metas.map fun t => (t.1, t.2.1, v) := by
  simp only [LamGlass.setSupport, LamGlass.metas, List.map_cons, List.map_map]
  rfl

theorem lite_setWidth_metas (li : Lite) (v : Option ℚ) :
    (li.setWidth v).metas = li.metas.map fun t => (v, t.2.1, t.2.2) := by
  cases li with
  | mono m => rfl
  | lam l => exact lam_setWidth_metas l v

theorem lite_setHeight_metas (li : Lite) (v : Option ℚ) :
    (li.setHeight v).metas = li.metas.map fun t => (t.1, v, t.2.2) := by
  cases li with
  | mono m => rfl
  | lam l => exact lam_setHeight_metas l v

theorem lite_setSupport_metas (li : Lite) (v : Option ℚ) :
    (li.setSupport v).metas = li.metas.map fun t => (t.1, t.2.1, v) := by
  cases li with
  | mono m => rfl
  | lam l => exact lam_setSupport_metas l v

theorem lam_setWidth_clearMeta (l : LamGlass) (v : Option ℚ) :
    (l.setWidth v).clearMeta = l.clearMeta := by
  simp only [LamGlass.setWidth, LamGlass.clearMeta, List.map_map]
  rfl

theorem lam_setHeight_clearMeta (l : LamGlass) (v : Option ℚ) :
    (l.setHeight v).clearMeta = l.clearMeta := by
  simp only [LamGlass.setHeight, LamGlass.clearMeta, List.map_map]
  rfl

theorem lam_setSupport_clearMeta (l : LamGlass) (v : Option ℚ) :
    (l.setSupport v).clearMeta = l.clearMeta := by
  simp only [LamGlass.setSupport, LamGlass.clearMeta, List.map_map]
  rfl

theorem lite_setWidth_clearMeta (li : Lite) (v : Option ℚ) :
    (li.setWidth v).clearMeta = li.clearMeta := by
  cases li with
  | mono m => rfl
  | lam l => simp [Lite.setWidth, Lite.clearMeta, lam_setWidth_clearMeta]

theorem lite_setHeight_clearMeta (li : Lite) (v : Option ℚ) :
    (li.setHeight v).clearMeta = li.clearMeta := by
  cases li with
  | mono m => rfl
  | lam l => simp [Lite.setHeight, Lite.clearMeta, lam_setHeight_clearMeta]

theorem lite_setSupport_clearMeta (li : Lite) (v : Option ℚ) :
    (li.setSupport v).clearMeta = li.clearMeta := by
  cases li with
  | mono m => rfl
  | lam l => simp [Lite.setSupport, Lite.clearMeta, lam_setSupport_clearMeta]

/-- C7.  Setting width, height or support on a buildup writes the value
through to every owned glass-bearing sub-buildup (`metas` lists the
`(width, height, support)` triple of every glass node, recursively through
laminated lites of an insulated unit), while everything else — thicknesses,
descriptors, identifier code and flip, the interlayer and gas layers, and
the other two metadata attributes of every node — is unchanged (the
`clearMeta` erasure, which removes only the three metadata attributes,
is preserved, and the other two components of every `metas` triple are
carried over unchanged). -/
theorem metadata_write_through :
    ∀ (b : GlassBuildup) (v : Option ℚ),
      ((b.setWidth v).metas = b.metas.map fun t => (v, t.2.1, t.2.2)) ∧
      ((b.setWidth v).clearMeta = b.clearMeta) ∧
      ((b.setHeight v).metas = b.metas.map fun t => (t.1, v, t.2.2)) ∧
      ((b.setHeight v).clearMeta = b.clearMeta) ∧
      ((b.setSupport v).metas = b.metas.map fun t => (t.1, t.2.1, v)) ∧
      ((b.setSupport v).clearMeta = b.clearMeta) := by
  intro b v
  cases b with
  | mono m => exact ⟨rfl, rfl, rfl, rfl, rfl, rfl⟩
  | lam l =>
    exact ⟨lam_setWidth_metas l v, congrArg GlassBuildup.lam (lam_setWidth_clearMeta l v),
      lam_setHeight_metas l v, congrArg GlassBuildup.lam (lam_setHeight_clearMeta l v),
      lam_setSupport_metas l v, congrArg GlassBuildup.lam (lam_setSupport_clearMeta l v)⟩
  | igu u =>
    refine ⟨?_, ?_, ?_, ?_, ?_, ?_⟩ <;>
      simp only [GlassBuildup.setWidth, GlassBuildup.setHeight, GlassBuildup.setSupport,
        GlassBuildup.metas, GlassBuildup.clearMeta, IguGlass.setWidth, IguGlass.setHeight,
        IguGlass.setSupport, IguGlass.metas, IguGlass.clearMeta,
        List.map_cons, List.map_map, List.map_flatten]
    · have h : List.map (Lite.metas ∘ fun li => li.setWidth v) u.lites
          = List.map ((List.map fun t => (v, t.2.1, t.2.2)) ∘ Lite.metas) u.lites :=
        List.map_congr_left fun li _ => by simpa [Function.comp] using lite_setWidth_metas li v
      rw [h]
    · have h : List.map (Lite.clearMeta ∘ fun li => li.setWidth v) u.lites
          = List.map Lite.clearMeta u.lites :=
        List.map_congr_left fun li _ => by simpa [Function.comp] using lite_setWidth_clearMeta li v
      rw [h]
    · have h : List.map (Lite.metas ∘ fun li => li.setHeight v) u.lites
          = List.map ((List.map fun t => (t.1, v, t.2.2)) ∘ Lite.metas) u.lites :=
        List.map_congr_left fun li _ => by simpa [Function.comp] using lite_setHeight_metas li v
      rw [h]
    · have h : List.map (Lite.clearMeta ∘ fun li => li.setHeight v) u.lites
          = List.map Lite.clearMeta u.lites :=
        List.map_congr_left fun li _ => by simpa [Function.comp] using lite_setHeight_clearMeta li v
      rw [h]
    · have h : List.map (Lite.metas ∘ fun li => li.setSupport v) u.lites
          = List.map ((List.map fun t => (t.1, t.2.1, v)) ∘ Lite.metas) u.lites :=
        List.map_congr_left fun li _ => by simpa [Function.comp] using lite_setSupport_metas li v
      rw [h]
    · have h : List.map (Lite.clearMeta ∘ fun li => li.setSupport v) u.lites
          = List.map Lite.clearMeta u.lites :=
        List.map_congr_left fun li _ => by simpa [Function.comp] using lite_setSupport_clearMeta li v
      rw [h]

/-! ### C10: identifier code truncation at the flip character -/

/-- C10.  On an input accepted by identifier-wrapper extraction (starts with
`'#'`, ends with `')'`, and the first open paren is the pair the scan
returns last), the recorded code is the wrapper text between `'#'` and `'('`
truncated at the first `'x'` (`_x.split('x')[0]`, which equals
`takeWhile (≠ 'x')`), so the stored code never contains `'x'`; the flip flag
is exactly "the wrapper text ends with `'x'`". -/
theorem parse_igdbcode_code_truncates (g : Str) (pr : ℕ × ℕ)
    (h1 : startsWithChar Protocol.IGDB_START g = true)
    (h2 : endsWithChar Protocol.IGDB_CLOSE_BRACKET g = true)
    (h3 : (find_enclosed_brackets g).getLast? = some pr)
    (h4 : firstIdx Protocol.IGDB_OPEN_BRACKET g = pr.1) :
    parse_igdbcode g = .ok ((g.drop (pr.1 + 1)).take (pr.2 - (pr.1 + 1)),
        some (((g.drop 1).take (pr.1 - 1)).takeWhile fun c => c != Protocol.IGDB_FLIP),
        endsWithChar Protocol.IGDB_FLIP ((g.drop 1).take (pr.1 - 1))) ∧
    Protocol.IGDB_FLIP ∉
      ((g.drop 1).take (pr.1 - 1)).takeWhile fun c => c != Protocol.IGDB_FLIP := by
  constructor
  · unfold parse_igdbcode
    rw [h1, h2]
    simp only [Bool.and_self, if_true, h3, h4, if_pos rfl]
    rw [splitChar_headI]
  · intro hmem
    have h := List.mem_takeWhile_imp hmem
    simp at h

/-- C10 witness: the theorem applied to `"#20x(6A)"`, whose bracket scan
returns the single pair `(4, 7)`. -/
theorem parse_igdbcode_code_truncates_witness :
    parse_igdbcode (str "#20x(6A)") = .ok (str "6A", some (str "20"), true) := by
  have h := parse_igdbcode_code_truncates (str "#20x(6A)") (4, 7)
    (by decide) (by decide) (by decide) (by decide)
  rw [h.1]
  decide

/-! ### C6: metadata marker scanning -/

theorem isPrefixOf_append : ∀ (p s : Str), p.isPrefixOf s = true → s = p ++ s.drop p.length := by
  intro p
  induction p with
  | nil => intro s _; simp
  | cons a p ih =>
    intro s h
    cases s with
    | nil => simp [List.isPrefixOf] at h
    | cons b s' =>
      simp only [List.isPrefixOf, Bool.and_eq_true, beq_iff_eq] at h
      obtain ⟨rfl, h2⟩ := h
      calc a :: s' = a :: (p ++ s'.drop p.length) := by rw [← ih s' h2]
        _ = (a :: p) ++ (a :: s').drop (a :: p).length := by simp

theorem isPrefixOf_of_append : ∀ (p t : Str), p.isPrefixOf (p ++ t) = true := by
  intro p t
  induction p with
  | nil => simp [List.isPrefixOf]
  | cons a p ih => simpa [List.isPrefixOf]

theorem findMarkerNumLast_cons (m : Str) (c : Char) (rest : Str) :
    findMarkerNumLast m (c :: rest) =
      match findMarkerNumLast m rest with
      | some v => some v
      | none =>
        if m.isPrefixOf (c :: rest) then parseSignedNumAt ((c :: rest).drop m.length)
        else none := rfl

theorem findMarkerNumLast_none_iff (m : Str) (hm : m ≠ []) :
    ∀ s : Str, findMarkerNumLast m s = none ↔
      ∀ a b : Str, s = a ++ m ++ b → parseSignedNumAt b = none := by
  intro s
  induction s with
  | nil =>
    constructor
    · intro _ a b hab
      exfalso
      apply hm
      rcases List.append_eq_nil.mp hab.symm with ⟨h1, -⟩
      exact (List.append_eq_nil.mp h1).2
    · intro _
      rfl
  | cons c rest ih =>
    constructor
    · intro h a b hab
      have hrest : findMarkerNumLast m rest = none := by
        cases hr : findMarkerNumLast m rest with
        | none => rfl
        | some v =>
          rw [findMarkerNumLast_cons, hr] at h
          exact Option.noConfusion h
      cases a with
      | nil =>
        simp only [List.nil_append] at hab
        rw [findMarkerNumLast_cons, hrest] at h
        have hpre : m.isPrefixOf (c :: rest) = true := by
          rw [hab]; exact isPrefixOf_of_append m b
        rw [if_pos hpre] at h
        rw [hab, List.drop_left] at h
        exact h
      | cons c' a' =>
        have h2 : rest = a' ++ m ++ b := by
          have hab' : c :: rest = c' :: (a' ++ m ++ b) := by simpa using hab
          exact (List.cons.injEq _ _ _ _ ▸ hab').2
        exact (ih.mp hrest) a' b h2
    · intro hall
      have hrest : findMarkerNumLast m rest = none :=
        ih.mpr fun a b hab => hall (c :: a) b (by rw [hab]; rfl)
      rw [findMarkerNumLast_cons, hrest]
      by_cases hpre : m.isPrefixOf (c :: rest) = true
      · simp only [hpre, if_true]
        have hdec := isPrefixOf_append m (c :: rest) hpre
        exact hall [] ((c :: rest).drop m.length) (by simpa using hdec)
      · simp only [Bool.not_eq_true] at hpre
        simp [hpre]

theorem findMarkerNumLast_some_iff (m : Str) (hm : m ≠ []) :
    ∀ (s : Str) (v : ℚ), findMarkerNumLast m s = some v ↔
      ∃ a b : Str, s = a ++ m ++ b ∧ parseSignedNumAt b = some v ∧
        ∀ (a' b' : Str) (v' : ℚ), s = a' ++ m ++ b' → parseSignedNumAt b' = some v' →
          a'.length ≤ a.length := by
  intro s
  induction s with
  | nil =>
    intro v
    constructor
    · intro h
      exact Option.noConfusion h
    · rintro ⟨a, b, hab, -, -⟩
      exfalso
      apply hm
      rcases List.append_eq_nil.mp hab.symm with ⟨h1, -⟩
      exact (List.append_eq_nil.mp h1).2
  | cons c rest ih =>
    intro v
    constructor
    · intro h
      cases hr : findMarkerNumLast m rest with
      | some w =>
        have hvw : w = v := by
          rw [findMarkerNumLast_cons, hr] at h
          exact Option.some.injEq _ _ ▸ h
        subst hvw
        obtain ⟨a, b, hab, hparse, hmax⟩ := (ih w).mp hr
        refine ⟨c :: a, b, by rw [hab]; rfl, hparse, ?_⟩
        intro a' b' v' hab' hparse'
        cases a' with
        | nil => simp
        | cons c'' a'' =>
          have h2 : rest = a'' ++ m ++ b' := by
            have : c :: rest = c'' :: (a'' ++ m ++ b') := by simpa using hab'
            exact (List.cons.injEq _ _ _ _ ▸ this).2
          have := hmax a'' b' v' h2 hparse'
          simpa using this
      | none =>
        rw [findMarkerNumLast_cons, hr] at h
        by_cases hpre : m.isPrefixOf (c :: rest) = true
        · rw [if_pos hpre] at h
          have hdec := isPrefixOf_append m (c :: rest) hpre
          refine ⟨[], (c :: rest).drop m.length, by simpa using hdec, h, ?_⟩
          intro a' b' v' hab' hparse'
          cases a' with
          | nil => simp
          | cons c'' a'' =>
            exfalso
            have h2 : rest = a'' ++ m ++ b' := by
              have : c :: rest = c'' :: (a'' ++ m ++ b') := by simpa using hab'
              exact (List.cons.injEq _ _ _ _ ▸ this).2
            have := ((findMarkerNumLast_none_iff m hm rest).mp hr) a'' b' h2
            rw [hparse'] at this
            exact Option.noConfusion this
        · simp only [Bool.not_eq_true] at hpre
          rw [hpre] at h
          simp at h
    · rintro ⟨a, b, hab, hparse, hmax⟩
      cases a with
      | nil =>
        simp only [List.nil_append] at hab
        have hrest : findMarkerNumLast m rest = none := by
          rw [findMarkerNumLast_none_iff m hm rest]
          intro a'' b'' hab''
          cases hp : parseSignedNumAt b'' with
          | none => rfl
          | some v'' =>
            exfalso
            have := hmax (c :: a'') b'' v'' (by rw [hab'']; rfl) hp
            simp at this
        rw [findMarkerNumLast_cons, hrest]
        have hpre : m.isPrefixOf (c :: rest) = true := by
          rw [hab]; exact isPrefixOf_of_append m b
        rw [if_pos hpre, hab, List.drop_left]
        exact hparse
      | cons c' a'' =>
        have hc : c = c' := by
          have : c :: rest = c' :: (a'' ++ m ++ b) := by simpa using hab
          exact (List.cons.injEq _ _ _ _ ▸ this).1
        subst hc
        have h2 : rest = a'' ++ m ++ b := by
          have : c :: rest = c :: (a'' ++ m ++ b) := by simpa using hab
          exact (List.cons.injEq _ _ _ _ ▸ this).2
        have hrest : findMarkerNumLast m rest = some v := by
          rw [ih v]
          refine ⟨a'', b, h2, hparse, ?_⟩
          intro a' b' v' hab' hparse'
          have := hmax (c :: a') b' v' (by rw [hab']; rfl) hparse'
          simpa using this
        rw [findMarkerNumLast_cons, hrest]

/-- C6 counterexample.  The claim says the markers are scanned within the
metadata segment only.  For `"#W5(6A)-H100"` the metadata segment `"H100"`
contains no `W`, so under the claim the parsed width would be unset; the
code scans the whole string and records width `5` from the identifier
wrapper text `W5` in the core. -/
theorem parse_meta_scans_whole_string_cx :
    (parse_meta (str "#W5(6A)-H100")).2.1 = some 5 ∧
    (parse_meta (str "#W5(6A)-H100")).2.1 ≠ none := by
  constructor
  · decide
  · decide

/-- C6 as amended: with the metadata marker present, the returned core is
the prefix of the input before the first marker, and the three markers `W`,
`H`, `SUPPORT` are each scanned independently, each optional and in any
order, over the *whole input string* (not the metadata segment only),
taking the rightmost occurrence followed by a number match; an input
without the metadata marker is returned unchanged with nothing set.
The clauses are stated for marker-safe strings (`markerSafeB`): no
occurrence of the marker is followed by a multi-dot group of the number
regex (such as `"W1..2"`), since on those the source raises `ValueError`
from `float()` instead of returning, while the model's parser treats the
malformed group as no match.  The characterisation clauses pin "rightmost
occurrence" down: on a marker-safe string, `findMarkerNumLast` returns
`some v` exactly when the string splits as `a ++ marker ++ b` with the
number `v` parsed right after the marker and no successful match at any
later position, and `none` exactly when no position matches. -/
theorem parse_meta_markers_whole_string :
    (∀ g : Str, Protocol.META ∉ g → parse_meta g = (g, none, none, none)) ∧
    (∀ g : Str, Protocol.META ∈ g →
      markerSafeB Protocol.WIDTH g = true → markerSafeB Protocol.HEIGHT g = true →
      markerSafeB Protocol.SUPPORT g = true →
      parse_meta g = (g.takeWhile fun c => c != Protocol.META,
        findMarkerNumLast Protocol.WIDTH g,
        findMarkerNumLast Protocol.HEIGHT g,
        findMarkerNumLast Protocol.SUPPORT g)) ∧
    (∀ (m s : Str) (v : ℚ), m ≠ [] → markerSafeB m s = true →
      (findMarkerNumLast m s = some v ↔
      ∃ a b : Str, s = a ++ m ++ b ∧ parseSignedNumAt b = some v ∧
        ∀ (a' b' : Str) (v' : ℚ), s = a' ++ m ++ b' → parseSignedNumAt b' = some v' →
          a'.length ≤ a.length)) ∧
    (∀ m s : Str, m ≠ [] → markerSafeB m s = true → (findMarkerNumLast m s = none ↔
      ∀ a b : Str, s = a ++ m ++ b → parseSignedNumAt b = none)) := by
  refine ⟨fun g hg => ?_, fun g hg _ _ _ => ?_,
    fun m s v hm _ => findMarkerNumLast_some_iff m hm s v,
    fun m s hm _ => findMarkerNumLast_none_iff m hm s⟩
  · simp [parse_meta, hg]
  · simp only [parse_meta, if_pos hg, find_number_after_marker, if_true]
    rw [splitChar_headI]

/-- C6 witness: the amended theorem applied to `"6A-W3000H4000SUPPORT4"`
(marker present, marker-safe for all three markers) and `"6A"` (no
marker). -/
theorem parse_meta_markers_whole_string_witness :
    parse_meta (str "6A-W3000H4000SUPPORT4") =
      ((str "6A-W3000H4000SUPPORT4").takeWhile fun c => c != Protocol.META,
        findMarkerNumLast Protocol.WIDTH (str "6A-W3000H4000SUPPORT4"),
        findMarkerNumLast Protocol.HEIGHT (str "6A-W3000H4000SUPPORT4"),
        findMarkerNumLast Protocol.SUPPORT (str "6A-W3000H4000SUPPORT4")) ∧
    parse_meta (str "6A") = (str "6A", none, none, none) :=
  ⟨parse_meta_markers_whole_string.2.1 (str "6A-W3000H4000SUPPORT4") (by decide)
      (by decide) (by decide) (by decide),
    parse_meta_markers_whole_string.1 (str "6A") (by decide)⟩

/-! ### C1 groundwork: decimal rendering and parsing -/

theorem charVal_digitChar (d : ℕ) (hd : d < 10) : charVal (digitChar d) = d := by
  interval_cases d <;> decide

theorem digitChar_isDigit (d : ℕ) (hd : d < 10) : (digitChar d).isDigit = true := by
  interval_cases d <;> decide

theorem natDigitsRev_lt (f : ℕ) : ∀ n, ∀ d ∈ natDigitsRev f n, d < 10 := by
  induction f with
  | zero => intro n d hd; simp [natDigitsRev] at hd
  | succ f ih =>
    intro n d hd
    by_cases h : n = 0
    · simp [natDigitsRev, h] at hd
    · simp only [natDigitsRev, if_neg h, List.mem_cons] at hd
      rcases hd with rfl | hd
      · exact Nat.mod_lt _ (by norm_num)
      · exact ih _ d hd

theorem charsToNat_append_singleton (l : Str) (c : Char) :
    charsToNat (l ++ [c]) = 10 * charsToNat l + charVal c := by
  simp [charsToNat, List.foldl_append]

theorem charsToNat_reverse_digits :
    ∀ ds : List ℕ, (∀ d ∈ ds, d < 10) →
      charsToNat ((ds.map digitChar).reverse) = Nat.ofDigits 10 ds := by
  intro ds
  induction ds with
  | nil => intro _; rfl
  | cons d ds ih =>
    intro h
    simp only [List.map_cons, List.reverse_cons]
    rw [charsToNat_append_singleton, ih fun x hx => h x (List.mem_cons_of_mem _ hx),
      charVal_digitChar d (h d (List.mem_cons_self _ _)), Nat.ofDigits_cons]
    ring

theorem ofDigits_natDigitsRev : ∀ (f n : ℕ), n ≤ f → Nat.ofDigits 10 (natDigitsRev f n) = n := by
  intro f
  induction f with
  | zero =>
    intro n hn
    interval_cases n
    rfl
  | succ f ih =>
    intro n hn
    by_cases h : n = 0
    · simp [natDigitsRev, h]
    · simp only [natDigitsRev, if_neg h, Nat.ofDigits_cons]
      have hdiv : n / 10 ≤ f := by
        have h1 : n / 10 < n := Nat.div_lt_self (Nat.pos_of_ne_zero h) (by norm_num)
        omega
      rw [ih (n / 10) hdiv]
      omega

theorem charsToNat_natToChars (n : ℕ) : charsToNat (natToChars n) = n := by
  unfold natToChars
  by_cases h : n = 0
  · subst h; decide
  · rw [if_neg h, charsToNat_reverse_digits _ (natDigitsRev_lt n n),
      ofDigits_natDigitsRev n n le_rfl]

theorem natToChars_digits (n : ℕ) : ∀ c ∈ natToChars n, c.isDigit = true := by
  unfold natToChars
  by_cases h : n = 0
  · subst h; intro c hc; simp at hc; subst hc; decide
  · rw [if_neg h]
    intro c hc
    rw [List.mem_reverse, List.mem_map] at hc
    obtain ⟨d, hd, rfl⟩ := hc
    exact digitChar_isDigit d (natDigitsRev_lt n n d hd)

theorem natToChars_ne_nil (n : ℕ) : natToChars n ≠ [] := by
  unfold natToChars
  by_cases h : n = 0
  · simp [h]
  · rw [if_neg h]
    obtain ⟨f, rfl⟩ : ∃ f, n = f + 1 := ⟨n - 1, by omega⟩
    simp [natDigitsRev, h]

theorem natDigitsRev_len : ∀ (f n e : ℕ), n ≤ f → n < 10 ^ e → (natDigitsRev f n).length ≤ e := by
  intro f
  induction f with
  | zero => intro n e _ _; simp [natDigitsRev]
  | succ f ih =>
    intro n e hn he
    by_cases h : n = 0
    · simp [natDigitsRev, h]
    · simp only [natDigitsRev, if_neg h, List.length_cons]
      have he1 : 1 ≤ e := by
        by_contra hc
        have : e = 0 := by omega
        subst this
        simp at he
        omega
      have hdiv : n / 10 ≤ f := by
        have h1 : n / 10 < n := Nat.div_lt_self (Nat.pos_of_ne_zero h) (by norm_num)
        omega
      have hlt : n / 10 < 10 ^ (e - 1) := by
        have h10 : (10 : ℕ) ^ e = 10 ^ (e - 1) * 10 := by
          rw [← pow_succ]
          congr 1
          omega
        rw [Nat.div_lt_iff_lt_mul (by norm_num)]
        omega
      have := ih (n / 10) (e - 1) hdiv hlt
      omega

theorem natToChars_len_le (n e : ℕ) (he : 1 ≤ e) (h : n < 10 ^ e) :
    (natToChars n).length ≤ e := by
  unfold natToChars
  by_cases h0 : n = 0
  · simp [h0]; omega
  · rw [if_neg h0]
    simpa using natDigitsRev_len n n e le_rfl h

theorem charsToNat_cons_zero (l : Str) : charsToNat ('0' :: l) = charsToNat l := rfl

theorem charsToNat_replicate_zero (k : ℕ) (l : Str) :
    charsToNat (List.replicate k '0' ++ l) = charsToNat l := by
  induction k with
  | zero => rfl
  | succ k ih => simpa [List.replicate_succ] using ih

theorem charsToNat_natPad (e n : ℕ) : charsToNat (natPad e n) = n := by
  unfold natPad
  rw [charsToNat_replicate_zero, charsToNat_natToChars]

theorem natPad_digits (e n : ℕ) : ∀ c ∈ natPad e n, c.isDigit = true := by
  unfold natPad
  intro c hc
  rw [List.mem_append] at hc
  rcases hc with hc | hc
  · rw [List.eq_of_mem_replicate hc]; decide
  · exact natToChars_digits n c hc

theorem natPad_len (e n : ℕ) (he : 1 ≤ e) (h : n < 10 ^ e) : (natPad e n).length = e := by
  unfold natPad
  have := natToChars_len_le n e he h
  simp only [List.length_append, List.length_replicate]
  omega

theorem natPad_ne_nil (e n : ℕ) : natPad e n ≠ [] := by
  unfold natPad
  intro h
  rcases List.append_eq_nil.mp h with ⟨-, h2⟩
  exact natToChars_ne_nil n h2

theorem decExp_spec (d : ℕ) (hd : 0 < d) (h : d ∣ 10 ^ d) :
    d ∣ 10 ^ decExp d ∧ (1 < d → 1 ≤ decExp d) := by
  unfold decExp
  cases hf : (List.range (d + 1)).find? (fun e => 10 ^ e % d = 0) with
  | none =>
    exfalso
    have := List.find?_eq_none.mp hf d (List.mem_range.mpr (by omega))
    simp only [decide_eq_true_eq] at this
    exact this (Nat.dvd_iff_mod_eq_zero.mp h)
  | some e =>
    have hprop := List.find?_some hf
    simp only [decide_eq_true_eq] at hprop
    have hdvd : d ∣ 10 ^ e := Nat.dvd_iff_mod_eq_zero.mpr hprop
    refine ⟨by simpa using hdvd, fun hd1 => ?_⟩
    simp only [Option.getD_some]
    by_contra hc
    have he0 : e = 0 := by omega
    subst he0
    rw [pow_zero] at hprop
    have : d = 1 := Nat.dvd_one.mp (Nat.dvd_iff_mod_eq_zero.mpr hprop)
    omega

theorem decExp_eq_zero_iff (d : ℕ) (hd : 0 < d) (h : d ∣ 10 ^ d) :
    decExp d = 0 ↔ d = 1 := by
  constructor
  · intro h0
    have := (decExp_spec d hd h).1
    rw [h0] at this
    simpa using this
  · intro h1
    subst h1
    decide

theorem renderNum_key (q : ℚ) (h0 : 0 ≤ q) (hd : IsDecimal q) :
    ((q.num * 10 ^ decExp q.den / (q.den : ℤ)).toNat : ℚ) = q * 10 ^ decExp q.den := by
  have hdenpos : 0 < q.den := q.pos
  have hdvd : (q.den : ℤ) ∣ q.num * 10 ^ decExp q.den := by
    have h1 : (q.den : ℤ) ∣ (10 : ℤ) ^ decExp q.den := by
      have h2 := (decExp_spec q.den hdenpos hd).1
      exact_mod_cast Int.natCast_dvd_natCast.mpr h2
    exact Dvd.dvd.mul_left h1 q.num
  obtain ⟨k, hk⟩ := hdvd
  have hnum : 0 ≤ q.num := Rat.num_nonneg.mpr h0
  have hkval : q.num * 10 ^ decExp q.den / (q.den : ℤ) = k := by
    rw [hk]
    exact Int.mul_ediv_cancel_left k (by exact_mod_cast hdenpos.ne')
  have hk0 : 0 ≤ k := by
    have hmul : (0 : ℤ) ≤ (q.den : ℤ) * k := by
      rw [← hk]
      positivity
    nlinarith [hmul]
  rw [hkval]
  have hcast : ((k.toNat : ℕ) : ℚ) = (k : ℚ) := by
    rw [← Int.cast_natCast, Int.toNat_of_nonneg hk0]
  rw [hcast]
  have hQ : (q.den : ℚ) * (k : ℚ) = (q.num : ℚ) * 10 ^ decExp q.den := by
    exact_mod_cast congrArg (fun z : ℤ => (z : ℚ)) hk.symm
  have hden0 : ((q.den : ℕ) : ℚ) ≠ 0 := by positivity
  have hqden : (q.num : ℚ) = q * (q.den : ℚ) := (div_eq_iff hden0).mp (Rat.num_div_den q)
  have hfin : (q.den : ℚ) * (k : ℚ) = (q.den : ℚ) * (q * 10 ^ decExp q.den) := by
    rw [hQ, hqden]
    ring
  exact mul_left_cancel₀ hden0 hfin

theorem renderNum_den_one (q : ℚ) (h0 : 0 ≤ q) (hq : q.den = 1) :
    renderNum q = natToChars q.num.toNat ∧ ((q.num.toNat : ℕ) : ℚ) = q := by
  have he : decExp q.den = 0 := by rw [hq]; decide
  constructor
  · unfold renderNum
    rw [he]
    simp [hq]
  · have hnum : 0 ≤ q.num := Rat.num_nonneg.mpr h0
    have : ((q.num.toNat : ℕ) : ℚ) = (q.num : ℚ) := by
      rw [← Int.cast_natCast, Int.toNat_of_nonneg hnum]
    rw [this]
    conv_rhs => rw [← Rat.num_div_den q, hq]
    simp

theorem renderNum_frac (q : ℚ) (h0 : 0 ≤ q) (hd : IsDecimal q) (hq : q.den ≠ 1) :
    ∃ iN fN : ℕ, renderNum q = natToChars iN ++ '.' :: natPad (decExp q.den) fN ∧
      fN < 10 ^ decExp q.den ∧ 1 ≤ decExp q.den ∧
      (iN : ℚ) + (fN : ℚ) / 10 ^ decExp q.den = q := by
  have hdenpos : 0 < q.den := q.pos
  have he1 : 1 ≤ decExp q.den := (decExp_spec q.den hdenpos hd).2 (by omega)
  have he0 : decExp q.den ≠ 0 := by omega
  refine ⟨(q.num * 10 ^ decExp q.den / (q.den : ℤ)).toNat / 10 ^ decExp q.den,
    (q.num * 10 ^ decExp q.den / (q.den : ℤ)).toNat % 10 ^ decExp q.den, ?_, ?_, he1, ?_⟩
  · unfold renderNum
    rw [if_neg he0]
  · exact Nat.mod_lt _ (by positivity)
  · have hkey := renderNum_key q h0 hd
    set N := (q.num * 10 ^ decExp q.den / (q.den : ℤ)).toNat with hN
    have hdm : 10 ^ decExp q.den * (N / 10 ^ decExp q.den) + N % 10 ^ decExp q.den = N :=
      Nat.div_add_mod N (10 ^ decExp q.den)
    have hpow : ((10 : ℚ)) ^ decExp q.den ≠ 0 := by positivity
    have hQ : (10 : ℚ) ^ decExp q.den * ((N / 10 ^ decExp q.den : ℕ) : ℚ)
        + ((N % 10 ^ decExp q.den : ℕ) : ℚ) = (N : ℚ) := by
      exact_mod_cast congrArg (fun n : ℕ => (n : ℚ)) hdm
    rw [hkey] at hQ
    field_simp
    linarith [hQ]

theorem renderNum_chars (q : ℚ) : ∀ c ∈ renderNum q, c.isDigit = true ∨ c = '.' := by
  unfold renderNum
  by_cases he : decExp q.den = 0
  · rw [if_pos he]
    intro c hc
    exact Or.inl (natToChars_digits _ c hc)
  · rw [if_neg he]
    intro c hc
    rw [List.mem_append] at hc
    rcases hc with hc | hc
    · exact Or.inl (natToChars_digits _ c hc)
    · rw [List.mem_cons] at hc
      rcases hc with rfl | hc
      · exact Or.inr rfl
      · exact Or.inl (natPad_digits _ _ c hc)

theorem renderNum_head_digit (q : ℚ) :
    ∃ c t, renderNum q = c :: t ∧ c.isDigit = true := by
  unfold renderNum
  by_cases he : decExp q.den = 0
  · rw [if_pos he]
    cases hn : natToChars ((q.num * 10 ^ decExp q.den / (q.den : ℤ)).toNat) with
    | nil => exact absurd hn (natToChars_ne_nil _)
    | cons c t =>
      refine ⟨c, t, rfl, ?_⟩
      exact natToChars_digits _ c (by rw [hn]; exact List.mem_cons_self _ _)
  · rw [if_neg he]
    cases hn : natToChars ((q.num * 10 ^ decExp q.den / (q.den : ℤ)).toNat / 10 ^ decExp q.den) with
    | nil => exact absurd hn (natToChars_ne_nil _)
    | cons c t =>
      refine ⟨c, t ++ '.' :: natPad (decExp q.den)
        ((q.num * 10 ^ decExp q.den / (q.den : ℤ)).toNat % 10 ^ decExp q.den), rfl, ?_⟩
      exact natToChars_digits _ c (by rw [hn]; exact List.mem_cons_self _ _)

theorem renderNum_ne_nil (q : ℚ) : renderNum q ≠ [] := by
  obtain ⟨c, t, hct, -⟩ := renderNum_head_digit q
  rw [hct]
  simp

theorem takeWhile_append_all {p : Char → Bool} (a rest : Str) (ha : ∀ c ∈ a, p c = true) :
    (a ++ rest).takeWhile p = a ++ rest.takeWhile p := by
  induction a with
  | nil => rfl
  | cons c a ih =>
    simp only [List.cons_append, List.takeWhile_cons, ha c (List.mem_cons_self _ _), if_true]
    rw [ih fun x hx => ha x (List.mem_cons_of_mem _ hx)]

theorem dropWhile_append_all {p : Char → Bool} (a rest : Str) (ha : ∀ c ∈ a, p c = true) :
    (a ++ rest).dropWhile p = rest.dropWhile p := by
  induction a with
  | nil => rfl
  | cons c a ih =>
    simp only [List.cons_append, List.dropWhile_cons, ha c (List.mem_cons_self _ _), if_true]
    exact ih fun x hx => ha x (List.mem_cons_of_mem _ hx)

theorem takeWhile_head_false {p : Char → Bool} (rest : Str)
    (h : ∀ c, rest.head? = some c → p c = false) : rest.takeWhile p = [] := by
  cases rest with
  | nil => rfl
  | cons c r => simp [List.takeWhile_cons, h c rfl]

theorem dropWhile_head_false {p : Char → Bool} (rest : Str)
    (h : ∀ c, rest.head? = some c → p c = false) : rest.dropWhile p = rest := by
  cases rest with
  | nil => rfl
  | cons c r => simp [List.dropWhile_cons, h c rfl]

theorem numTokenVal_int_case (s : Str)
    (h : ∀ c r2, s.dropWhile Char.isDigit = c :: r2 →
      ¬(c = '.' ∧ r2.takeWhile Char.isDigit ≠ [])) :
    numTokenVal s = (charsToNat (s.takeWhile Char.isDigit) : ℚ) := by
  unfold numTokenVal
  split
  · next c r2 heq => rw [if_neg (h c r2 heq)]
  · rfl

theorem numTokenVal_frac_case (s : Str) (r2 : Str)
    (hdw : s.dropWhile Char.isDigit = '.' :: r2)
    (hne : r2.takeWhile Char.isDigit ≠ []) :
    numTokenVal s = (charsToNat (s.takeWhile Char.isDigit) : ℚ) +
      (charsToNat (r2.takeWhile Char.isDigit) : ℚ) / 10 ^ (r2.takeWhile Char.isDigit).length := by
  unfold numTokenVal
  split
  · next c' r2' heq =>
    rw [hdw] at heq
    obtain ⟨h1, h2⟩ : '.' = c' ∧ r2 = r2' := by
      have := heq
      exact ⟨(List.cons.injEq _ _ _ _ ▸ this).1, (List.cons.injEq _ _ _ _ ▸ this).2⟩
    subst h1
    subst h2
    rw [if_pos ⟨rfl, hne⟩]
  · next heq =>
    rw [hdw] at heq
    exact absurd heq (by simp)

theorem parseUnsigned_render (q : ℚ) (h0 : 0 ≤ q) (hd : IsDecimal q) (rest : Str)
    (hrest : HeadSafe rest) : parseUnsigned (renderNum q ++ rest) = some q := by
  have hdotrest : ∀ c, rest.head? = some c → ((fun c => decide (c = '.')) c = false) :=
    fun c hc => by simp [(hrest c hc).2]
  by_cases hden : q.den = 1
  · obtain ⟨hr, hv⟩ := renderNum_den_one q h0 hden
    rw [hr]
    have hA : (natToChars q.num.toNat ++ rest).takeWhile Char.isDigit
        = natToChars q.num.toNat := by
      rw [takeWhile_append_all _ _ (natToChars_digits _),
        takeWhile_head_false rest fun c hc => (hrest c hc).1, List.append_nil]
    have hB : (natToChars q.num.toNat ++ rest).dropWhile Char.isDigit = rest := by
      rw [dropWhile_append_all _ _ (natToChars_digits _),
        dropWhile_head_false rest fun c hc => (hrest c hc).1]
    unfold parseUnsigned
    rw [hA, hB, dropWhile_head_false rest hdotrest,
      takeWhile_head_false rest fun c hc => (hrest c hc).1]
    rw [if_neg (by simp), if_pos (natToChars_ne_nil _), charsToNat_natToChars, hv]
  · obtain ⟨iN, fN, hr, hfN, he1, hv⟩ := renderNum_frac q h0 hd hden
    rw [hr, List.append_assoc, List.cons_append]
    have hdothead : ∀ c, (('.' :: (natPad (decExp q.den) fN ++ rest)) : Str).head? = some c →
        c.isDigit = false := by
      intro c hc
      simp only [List.head?_cons, Option.some.injEq] at hc
      subst hc
      decide
    have hpadhead : ∀ c, (natPad (decExp q.den) fN ++ rest).head? = some c →
        ((fun c => decide (c = '.')) c = false) := by
      intro c hc
      cases hpad : natPad (decExp q.den) fN with
      | nil => exact absurd hpad (natPad_ne_nil _ _)
      | cons c0 t0 =>
        rw [hpad] at hc
        simp only [List.cons_append, List.head?_cons, Option.some.injEq] at hc
        subst hc
        have hdig := natPad_digits (decExp q.den) fN c0 (by rw [hpad]; exact List.mem_cons_self _ _)
        simp only [decide_eq_false_iff_not]
        intro hcc
        rw [hcc] at hdig
        exact absurd hdig (by decide)
    have hA : (natToChars iN ++ '.' :: (natPad (decExp q.den) fN ++ rest)).takeWhile Char.isDigit
        = natToChars iN := by
      rw [takeWhile_append_all _ _ (natToChars_digits _),
        takeWhile_head_false _ hdothead, List.append_nil]
    have hB : (natToChars iN ++ '.' :: (natPad (decExp q.den) fN ++ rest)).dropWhile Char.isDigit
        = '.' :: (natPad (decExp q.den) fN ++ rest) := by
      rw [dropWhile_append_all _ _ (natToChars_digits _), dropWhile_head_false _ hdothead]
    have hdots : (('.' :: (natPad (decExp q.den) fN ++ rest)).takeWhile fun c => c = '.')
        = ['.'] := by
      simp only [List.takeWhile_cons]
      rw [if_pos (by decide), takeWhile_head_false _ hpadhead]
    have hdropdots : (('.' :: (natPad (decExp q.den) fN ++ rest)).dropWhile fun c => c = '.')
        = natPad (decExp q.den) fN ++ rest := by
      simp only [List.dropWhile_cons]
      rw [if_pos (by decide), dropWhile_head_false _ hpadhead]
    have hd2 : (natPad (decExp q.den) fN ++ rest).takeWhile Char.isDigit
        = natPad (decExp q.den) fN := by
      rw [takeWhile_append_all _ _ (natPad_digits _ _),
        takeWhile_head_false rest fun c hc => (hrest c hc).1, List.append_nil]
    unfold parseUnsigned
    rw [hA, hB, hdots, hdropdots, hd2]
    rw [if_pos (natPad_ne_nil _ _), if_pos (by simp), charsToNat_natToChars, charsToNat_natPad,
      natPad_len (decExp q.den) fN he1 hfN, hv]

theorem numTokenVal_render (q : ℚ) (h0 : 0 ≤ q) (hd : IsDecimal q) (rest : Str)
    (hrest : HeadSafe rest) : numTokenVal (renderNum q ++ rest) = q := by
  by_cases hden : q.den = 1
  · obtain ⟨hr, hv⟩ := renderNum_den_one q h0 hden
    rw [hr]
    have hA : (natToChars q.num.toNat ++ rest).takeWhile Char.isDigit
        = natToChars q.num.toNat := by
      rw [takeWhile_append_all _ _ (natToChars_digits _),
        takeWhile_head_false rest fun c hc => (hrest c hc).1, List.append_nil]
    have hB : (natToChars q.num.toNat ++ rest).dropWhile Char.isDigit = rest := by
      rw [dropWhile_append_all _ _ (natToChars_digits _),
        dropWhile_head_false rest fun c hc => (hrest c hc).1]
    rw [numTokenVal_int_case _ ?hint, hA, charsToNat_natToChars, hv]
    case hint =>
      intro c r2 heq
      rw [hB] at heq
      rintro ⟨rfl, -⟩
      exact (hrest '.' (by rw [heq]; rfl)).2 rfl
  · obtain ⟨iN, fN, hr, hfN, he1, hv⟩ := renderNum_frac q h0 hd hden
    rw [hr, List.append_assoc, List.cons_append]
    have hdothead : ∀ c, (('.' :: (natPad (decExp q.den) fN ++ rest)) : Str).head? = some c →
        c.isDigit = false := by
      intro c hc
      simp only [List.head?_cons, Option.some.injEq] at hc
      subst hc
      decide
    have hA : (natToChars iN ++ '.' :: (natPad (decExp q.den) fN ++ rest)).takeWhile Char.isDigit
        = natToChars iN := by
      rw [takeWhile_append_all _ _ (natToChars_digits _),
        takeWhile_head_false _ hdothead, List.append_nil]
    have hB : (natToChars iN ++ '.' :: (natPad (decExp q.den) fN ++ rest)).dropWhile Char.isDigit
        = '.' :: (natPad (decExp q.den) fN ++ rest) := by
      rw [dropWhile_append_all _ _ (natToChars_digits _), dropWhile_head_false _ hdothead]
    have hd2 : (natPad (decExp q.den) fN ++ rest).takeWhile Char.isDigit
        = natPad (decExp q.den) fN := by
      rw [takeWhile_append_all _ _ (natPad_digits _ _),
        takeWhile_head_false rest fun c hc => (hrest c hc).1, List.append_nil]
    rw [numTokenVal_frac_case _ (natPad (decExp q.den) fN ++ rest) hB
      (by rw [hd2]; exact natPad_ne_nil _ _)]
    rw [hA, hd2, charsToNat_natToChars, charsToNat_natPad,
      natPad_len (decExp q.den) fN he1 hfN, hv]

/-! ### C1 groundwork: character facts, stripping, H-safety, marker occurrences -/

theorem digit_not_ws (c : Char) (h : c.isDigit = true) : c.isWhitespace = false := by
  cases hw : c.isWhitespace
  · rfl
  · exfalso
    have hc : ((c = ' ' ∨ c = '\t') ∨ c = '\r') ∨ c = '\n' := by
      simpa [Char.isWhitespace] using hw
    rcases hc with ((rfl | rfl) | rfl) | rfl <;> exact absurd h (by decide)

theorem dropWhile_all_false {p : Char → Bool} (s : Str) (h : ∀ c ∈ s, p c = false) :
    s.dropWhile p = s := by
  cases s with
  | nil => rfl
  | cons c r => rw [List.dropWhile_cons, h c (List.mem_cons_self c r)]; simp

theorem pyStrip_eq_self (s : Str) (h : ∀ c ∈ s, c.isWhitespace = false) : pyStrip s = s := by
  unfold pyStrip
  rw [dropWhile_all_false s h,
    dropWhile_all_false s.reverse fun c hc => h c (List.mem_reverse.mp hc),
    List.reverse_reverse]

theorem hSafeB_of_not_mem (s : Str) (h : 'H' ∉ s) : hSafeB s = true := by
  induction s with
  | nil => rfl
  | cons c r ih =>
    have h1 : c ≠ 'H' := fun hc => h (by rw [hc]; exact List.mem_cons_self _ _)
    have h2 : 'H' ∉ r := fun hm => h (List.mem_cons_of_mem _ hm)
    cases r with
    | nil =>
      simp only [hSafeB, bne_iff_ne, ne_eq]
      exact h1
    | cons d r2 =>
      simp only [hSafeB, Bool.and_eq_true, Bool.or_eq_true, bne_iff_ne, ne_eq]
      exact ⟨Or.inl h1, by simpa [hSafeB] using ih h2⟩

theorem hSafeB_append (a : Str) (b : Str) (ha : hSafeB a = true) (hb : hSafeB b = true) :
    hSafeB (a ++ b) = true := by
  induction a with
  | nil => simpa
  | cons c a' ih =>
    cases a' with
    | nil =>
      have hc : c ≠ 'H' := by simpa [hSafeB] using ha
      cases b with
      | nil => simpa [hSafeB] using ha
      | cons d r =>
        simp only [List.cons_append, List.nil_append, hSafeB, Bool.and_eq_true,
          Bool.or_eq_true, bne_iff_ne, ne_eq]
        exact ⟨Or.inl hc, hb⟩
    | cons c2 a2 =>
      simp only [hSafeB, Bool.and_eq_true, Bool.or_eq_true, bne_iff_ne, ne_eq] at ha
      simp only [List.cons_append, hSafeB, Bool.and_eq_true, Bool.or_eq_true, bne_iff_ne,
        ne_eq]
      refine ⟨ha.1, ?_⟩
      have := ih ha.2
      simpa [List.cons_append] using this

theorem hSafeB_after (g : Str) (hg : hSafeB g = true) :
    ∀ a b : Str, g = a ++ 'H' :: b → ∃ b2, b = 'S' :: b2 := by
  induction g with
  | nil => intro a b heq; exact absurd heq.symm (by simp)
  | cons c r ih =>
    intro a b heq
    cases a with
    | nil =>
      simp only [List.nil_append] at heq
      injection heq with h1 h2
      subst h1
      rw [h2] at hg
      cases b with
      | nil => simp [hSafeB] at hg
      | cons d b2 =>
        have hd : d = 'S' := by
          by_contra hd
          simp [hSafeB, hd] at hg
        exact ⟨b2, by rw [hd]⟩
    | cons c2 a2 =>
      injection heq with h1 h2
      cases hr : r with
      | nil => rw [hr] at h2; exact absurd h2.symm (by simp)
      | cons d r2 =>
        rw [hr] at hg
        simp only [hSafeB, Bool.and_eq_true] at hg
        rw [hr] at ih
        exact ih (by simpa [hSafeB] using hg.2) a2 b (hr ▸ h2)

theorem parseSignedNumAt_none_head (c : Char) (r : Str) (h1 : c.isDigit = false)
    (h2 : c ≠ '.') (h3 : c ≠ '-') (h4 : c ≠ '+') : parseSignedNumAt (c :: r) = none := by
  simp only [parseSignedNumAt]
  rw [if_neg h3, if_neg h4]
  unfold parseUnsigned
  have hA : (c :: r).takeWhile Char.isDigit = [] := by
    rw [List.takeWhile_cons, h1]; simp
  have hB : (c :: r).dropWhile Char.isDigit = c :: r := by
    rw [List.dropWhile_cons, h1]; simp
  have hC : ((c :: r).dropWhile fun x => x = '.') = c :: r := by
    rw [List.dropWhile_cons]; simp [h2]
  rw [hB, hC, hA]
  rw [if_neg (by simp), if_neg (by simp)]

theorem findMarkerNumLast_none_of_char (m s : Str) (c : Char) (hm : m ≠ [])
    (hc : c ∈ m) (hs : c ∉ s) : findMarkerNumLast m s = none := by
  rw [findMarkerNumLast_none_iff m hm s]
  intro a b heq
  exact absurd (by rw [heq]; simp [hc] : c ∈ s) hs

theorem findMarkerNumLast_H_none (s : Str) (hs : hSafeB s = true) :
    findMarkerNumLast (str "H") s = none := by
  rw [findMarkerNumLast_none_iff _ (by decide) s]
  intro a b heq
  obtain ⟨b2, rfl⟩ := hSafeB_after s hs a b (by simpa using heq)
  exact parseSignedNumAt_none_head 'S' b2 (by decide) (by decide) (by decide) (by decide)

theorem findMarkerNumLast_at (mc : Char) (mr : Str) (a0 b0 : Str) (v : ℚ)
    (hv : parseSignedNumAt b0 = some v) (hmr : mc ∉ mr) (hb : mc ∉ b0) :
    findMarkerNumLast (mc :: mr) (a0 ++ (mc :: mr) ++ b0) = some v := by
  rw [findMarkerNumLast_some_iff _ (by simp) _ v]
  refine ⟨a0, b0, rfl, hv, ?_⟩
  intro a1 b1 v1 heq hp1
  by_contra hlt
  push_neg at hlt
  have hmc : (a0 ++ (mc :: mr) ++ b0)[a1.length]? = some mc := by
    rw [heq, List.append_assoc, List.getElem?_append_right (le_refl a1.length)]
    simp
  rw [List.append_assoc, List.getElem?_append_right (by omega : a0.length ≤ a1.length),
    List.cons_append] at hmc
  have hk1 : 1 ≤ a1.length - a0.length := by omega
  obtain ⟨k, hk⟩ := Nat.exists_eq_add_of_le hk1
  rw [hk, Nat.add_comm, List.getElem?_cons_succ] at hmc
  have hmem : mc ∈ mr ++ b0 := by
    obtain ⟨hlt2, hget⟩ := List.getElem?_eq_some.mp hmc
    exact hget ▸ List.getElem_mem hlt2
  rcases List.mem_append.mp hmem with h | h
  · exact hmr h
  · exact hb h

/-! ### C1 groundwork: splits, joins, interleaving, traversals, bracket scan -/

theorem splitOnStrAux_fuel (p : Str) : ∀ (f1 f2 : ℕ) (s : Str), s.length ≤ f1 →
    s.length ≤ f2 → splitOnStrAux p f1 s = splitOnStrAux p f2 s := by
  intro f1
  induction f1 with
  | zero =>
    intro f2 s h1 h2
    have hs : s = [] := List.length_eq_zero.mp (Nat.le_zero.mp h1)
    subst hs
    cases f2 <;> rfl
  | succ f ih =>
    intro f2 s h1 h2
    cases s with
    | nil => cases f2 <;> rfl
    | cons c rest =>
      cases f2 with
      | zero => simp at h2
      | succ g =>
        simp only [splitOnStrAux]
        by_cases hp : p ≠ [] ∧ p.isPrefixOf (c :: rest)
        · rw [if_pos hp, if_pos hp]
          have hp1 : 1 ≤ p.length := by
            cases hpp : p with
            | nil => exact absurd hpp hp.1
            | cons x xs => simp
          have hl1 : ((c :: rest).drop p.length).length ≤ f := by
            simp only [List.length_drop, List.length_cons]
            simp only [List.length_cons] at h1
            omega
          have hl2 : ((c :: rest).drop p.length).length ≤ g := by
            simp only [List.length_drop, List.length_cons]
            simp only [List.length_cons] at h2
            omega
          rw [ih _ _ hl1 hl2]
        · rw [if_neg hp, if_neg hp]
          have hr1 : rest.length ≤ f := by simp only [List.length_cons] at h1; omega
          have hr2 : rest.length ≤ g := by simp only [List.length_cons] at h2; omega
          rw [ih g rest hr1 hr2]

theorem splitOnStr_append_self (p d : Str) (hp : p ≠ []) :
    splitOnStr p (p ++ d) = [] :: splitOnStr p d := by
  unfold splitOnStr
  cases p with
  | nil => exact absurd rfl hp
  | cons c pr =>
    simp only [List.cons_append, List.length_cons, List.length_append]
    simp only [splitOnStrAux]
    rw [if_pos ⟨by simp, by rw [← List.cons_append]; exact isPrefixOf_of_append _ d⟩]
    rw [show (c :: (pr ++ d)).drop (c :: pr).length = d by
      rw [← List.cons_append, List.drop_left]]
    rw [splitOnStrAux_fuel (c :: pr) (pr.length + d.length) d.length d (by omega) le_rfl]

theorem splitOnStrAux_no_head (c : Char) (pr : Str) : ∀ (f : ℕ) (s : Str), c ∉ s →
    splitOnStrAux (c :: pr) f s = [s] := by
  intro f
  induction f with
  | zero =>
    intro s hs
    cases s <;> rfl
  | succ f ih =>
    intro s hs
    cases s with
    | nil => rfl
    | cons a r =>
      simp only [splitOnStrAux]
      have hnp : ¬((c :: pr) ≠ [] ∧ (c :: pr).isPrefixOf (a :: r) = true) := by
        rintro ⟨-, hpre⟩
        simp only [List.isPrefixOf, Bool.and_eq_true, beq_iff_eq] at hpre
        exact hs (hpre.1 ▸ List.mem_cons_self a r)
      rw [if_neg hnp, ih r fun hm => hs (List.mem_cons_of_mem _ hm)]

theorem splitChar_cons_sep (sep : Char) (rest : Str) :
    splitChar sep (sep :: rest) = [] :: splitChar sep rest := by
  simp [splitChar]

theorem splitChar_no_sep (sep : Char) (s : Str) (h : sep ∉ s) : splitChar sep s = [s] := by
  induction s with
  | nil => rfl
  | cons c r ih =>
    have hc : ¬c = sep := fun hc => h (hc ▸ List.mem_cons_self _ _)
    simp only [splitChar, if_neg hc]
    rw [ih fun hm => h (List.mem_cons_of_mem _ hm)]

theorem splitChar_append_piece (sep : Char) (t s : Str) (h : sep ∉ t) :
    splitChar sep (t ++ sep :: s) = t :: splitChar sep s := by
  induction t with
  | nil => simp [splitChar]
  | cons c t2 ih =>
    have hc : ¬c = sep := fun hc => h (hc ▸ List.mem_cons_self _ _)
    simp only [List.cons_append, splitChar, if_neg hc]
    rw [show t2.append (sep :: s) = t2 ++ sep :: s from rfl,
      ih fun hm => h (List.mem_cons_of_mem _ hm)]

theorem splitChar_join (sep : Char) : ∀ (parts : List Str), parts ≠ [] →
    (∀ p ∈ parts, sep ∉ p) → splitChar sep (joinChar sep parts) = parts := by
  intro parts
  induction parts with
  | nil => intro h; exact absurd rfl h
  | cons t ts ih =>
    intro _ hall
    cases ts with
    | nil =>
      simp only [joinChar]
      exact splitChar_no_sep sep t (hall t (List.mem_cons_self _ _))
    | cons t2 ts2 =>
      simp only [joinChar]
      rw [splitChar_append_piece sep t _ (hall t (List.mem_cons_self _ _))]
      rw [ih (by simp) fun p hp => hall p (List.mem_cons_of_mem _ hp)]

theorem mem_joinChar (sep : Char) : ∀ (parts : List Str) (c : Char),
    c ∈ joinChar sep parts → c = sep ∨ ∃ p ∈ parts, c ∈ p := by
  intro parts
  induction parts with
  | nil => intro c hc; exact absurd hc (List.not_mem_nil c)
  | cons t ts ih =>
    intro c hc
    cases ts with
    | nil => exact Or.inr ⟨t, List.mem_cons_self _ _, by simpa [joinChar] using hc⟩
    | cons t2 ts2 =>
      simp only [joinChar] at hc
      rcases List.mem_append.mp hc with h | h
      · exact Or.inr ⟨t, List.mem_cons_self _ _, h⟩
      · rcases List.mem_cons.mp h with rfl | h2
        · exact Or.inl rfl
        · rcases ih c h2 with h3 | ⟨p, hp, hcp⟩
          · exact Or.inl h3
          · exact Or.inr ⟨p, List.mem_cons_of_mem _ hp, hcp⟩

theorem sep_mem_joinChar (sep : Char) (t t2 : Str) (ts : List Str) :
    sep ∈ joinChar sep (t :: t2 :: ts) := by
  simp only [joinChar]
  exact List.mem_append.mpr (Or.inr (List.mem_cons_self _ _))

theorem joinChar_ne_nil (sep : Char) (t : Str) (ts : List Str) (ht : t ≠ []) :
    joinChar sep (t :: ts) ≠ [] := by
  cases ts with
  | nil => simpa [joinChar] using ht
  | cons t2 ts2 =>
    simp only [joinChar]
    simp [ht]

theorem evens_cons_odds {α : Type} (x : α) (l : List α) : evens (x :: l) = x :: odds l := by
  cases l <;> rfl

theorem interleave_evens_odds {α : Type} : ∀ (B A : List α), A.length = B.length + 1 →
    evens (interleaveL A B) = A ∧ odds (interleaveL A B) = B := by
  intro B
  induction B with
  | nil =>
    intro A hA
    cases A with
    | nil => simp at hA
    | cons a A2 =>
      cases A2 with
      | nil => exact ⟨rfl, rfl⟩
      | cons a2 A3 => simp at hA
  | cons b B2 ih =>
    intro A hA
    cases A with
    | nil => simp at hA
    | cons a A2 =>
      have hlen : A2.length = B2.length + 1 := by simpa using hA
      obtain ⟨h1, h2⟩ := ih A2 hlen
      constructor
      · show evens (a :: b :: interleaveL A2 B2) = a :: A2
        rw [evens_cons_odds]
        show a :: evens (interleaveL A2 B2) = a :: A2
        rw [h1]
      · show odds (a :: b :: interleaveL A2 B2) = b :: B2
        show evens (b :: interleaveL A2 B2) = b :: B2
        rw [evens_cons_odds, h2]

theorem exceptMapM_map_ok {ε α β : Type} (f : β → Except ε α) (r : α → β) :
    ∀ A : List α, (∀ x ∈ A, f (r x) = .ok x) → exceptMapM f (A.map r) = .ok A := by
  intro A
  induction A with
  | nil => intro _; rfl
  | cons x xs ih =>
    intro hall
    simp only [List.map_cons, exceptMapM]
    rw [hall x (List.mem_cons_self _ _), ih fun y hy => hall y (List.mem_cons_of_mem _ hy)]

theorem findIdx_append_none (p : Char → Bool) : ∀ (a s : Str), (∀ c ∈ a, p c = false) →
    (a ++ s).findIdx p = a.length + s.findIdx p := by
  intro a
  induction a with
  | nil => intro s h; simp
  | cons c a2 ih =>
    intro s h
    simp only [List.cons_append, List.findIdx_cons]
    rw [h c (List.mem_cons_self _ _)]
    simp only [cond_false]
    rw [ih s fun d hd => h d (List.mem_cons_of_mem _ hd)]
    simp only [List.length_cons]
    omega

theorem firstIdx_append_paren (pre rest : Str) (hpre : ∀ c ∈ pre, c ≠ '(') :
    firstIdx '(' (pre ++ '(' :: rest) = pre.length := by
  unfold firstIdx
  rw [findIdx_append_none _ pre _ fun c hc => by simp [hpre c hc]]
  simp [List.findIdx_cons]

theorem febStep_flat : ∀ (a : Str) (st : List ℕ) (i : ℕ), (∀ c ∈ a, c ≠ '(' ∧ c ≠ ')') →
    febStep st i a = ([], st, i + a.length) := by
  intro a
  induction a with
  | nil => intro st i h; simp [febStep]
  | cons c r ih =>
    intro st i h
    have hc := h c (List.mem_cons_self _ _)
    simp only [febStep, if_neg hc.1, if_neg hc.2]
    rw [ih st (i + 1) fun d hd => h d (List.mem_cons_of_mem _ hd)]
    simp only [List.length_cons]
    rw [show i + 1 + r.length = i + (r.length + 1) from by omega]

theorem febStep_append : ∀ (a b : Str) (st : List ℕ) (i : ℕ),
    febStep st i (a ++ b) =
      ((febStep st i a).1 ++ (febStep (febStep st i a).2.1 (febStep st i a).2.2 b).1,
        (febStep (febStep st i a).2.1 (febStep st i a).2.2 b).2) := by
  intro a
  induction a with
  | nil => intro b st i; simp [febStep]
  | cons c r ih =>
    intro b st i
    by_cases hc : c = '('
    · subst hc
      simp only [List.cons_append, febStep, if_pos rfl]
      exact ih b (i :: st) (i + 1)
    · by_cases hc2 : c = ')'
      · subst hc2
        cases st with
        | nil =>
          have e1 : febStep [] i ((')' :: r) ++ b) = febStep [] (i + 1) (r ++ b) := rfl
          have e2 : febStep [] i (')' :: r) = febStep [] (i + 1) r := rfl
          rw [e1, e2]
          exact ih b [] (i + 1)
        | cons j st2 =>
          have e1 : febStep (j :: st2) i ((')' :: r) ++ b) =
              ((j, i) :: (febStep st2 (i + 1) (r ++ b)).1,
                (febStep st2 (i + 1) (r ++ b)).2) := rfl
          have e2 : febStep (j :: st2) i (')' :: r) =
              ((j, i) :: (febStep st2 (i + 1) r).1, (febStep st2 (i + 1) r).2) := rfl
          rw [e1, e2, ih b st2 (i + 1)]
          simp
      · simp only [List.cons_append, febStep, if_neg hc, if_neg hc2]
        exact ih b st (i + 1)

theorem febStep_paren (w : Str) (hw : ∀ c ∈ w, c ≠ '(' ∧ c ≠ ')') (st : List ℕ) (i : ℕ) :
    febStep st i ('(' :: (w ++ [')'])) = ([(i, i + w.length + 1)], st, i + w.length + 2) := by
  simp only [febStep, if_pos rfl]
  rw [febStep_append w [')'] (i :: st) (i + 1), febStep_flat w _ _ hw]
  simp only [febStep, if_neg (by decide : ¬(')' = '(')), if_pos rfl]
  simp only [List.nil_append]
  rw [show i + 1 + w.length = i + w.length + 1 from by omega]
  rw [show i + w.length + 1 + 1 = i + w.length + 2 from by omega]
  simp

theorem feb_wrapped (pre w : Str) (hpre : ∀ c ∈ pre, c ≠ '(' ∧ c ≠ ')')
    (hw : ∀ c ∈ w, c ≠ '(' ∧ c ≠ ')') :
    find_enclosed_brackets (pre ++ ('(' :: (w ++ [')']))) =
      [(pre.length, pre.length + w.length + 1)] := by
  unfold find_enclosed_brackets
  rw [febStep_append, febStep_flat pre [] 0 hpre]
  rw [show (([], [], 0 + pre.length) : List (ℕ × ℕ) × List ℕ × ℕ).2.1 = [] from rfl]
  rw [show (([], [], 0 + pre.length) : List (ℕ × ℕ) × List ℕ × ℕ).2.2 = 0 + pre.length from rfl]
  rw [show (0 : ℕ) + pre.length = pre.length from by omega]
  rw [febStep_paren w hw [] pre.length]
  simp

/-! ### C1 groundwork: descriptor classes and token round-trips -/

theorem descCls_facts (c : Char) (h : descCls c = true) :
    c.isDigit = false ∧ c ≠ '.' ∧ c.isWhitespace = false := by
  simp only [descCls, List.mem_cons, List.not_mem_nil, or_false, decide_eq_true_eq] at h
  rcases h with rfl|rfl|rfl|rfl|rfl|rfl|rfl|rfl|rfl|rfl|rfl|rfl|rfl|rfl|rfl|rfl <;>
    exact ⟨by decide, by decide, by decide⟩

theorem tokCls_ne (c : Char) (h : tokCls c = true) (d : Char) (hd : tokCls d = false) :
    c ≠ d := fun hc => by rw [hc, hd] at h; exact Bool.noConfusion h

theorem descCls_tokCls (c : Char) (h : descCls c = true) : tokCls c = true := by
  simp [tokCls, h]

theorem tokCls_not_ws (c : Char) (h : tokCls c = true) : c.isWhitespace = false := by
  simp only [tokCls, Bool.or_eq_true, decide_eq_true_eq] at h
  rcases h with (hd | rfl) | hdc
  · exact digit_not_ws c hd
  · decide
  · exact (descCls_facts c hdc).2.2

theorem renderNum_tokCls (q : ℚ) : ∀ c ∈ renderNum q, tokCls c = true := by
  intro c hc
  rcases renderNum_chars q c hc with h | rfl
  · simp [tokCls, h]
  · decide

theorem headSafe_of_descCls (desc : Str) (h : ∀ c ∈ desc, descCls c = true) :
    HeadSafe desc := by
  intro c hc
  cases desc with
  | nil => simp at hc
  | cons d r =>
    simp only [List.head?_cons, Option.some.injEq] at hc
    subst hc
    have hf := descCls_facts d (h d (List.mem_cons_self _ _))
    exact ⟨hf.1, hf.2.1⟩

theorem descList_facts (d : Str)
    (hd : d ∈ HeatTreatment.VAR ∨ d ∈ Interlayer.MATERIALS ∨ d ∈ GasLayer.MATERIALS) :
    (∀ c ∈ d, descCls c = true) ∧ d ≠ [] ∧ hSafeB d = true := by
  rcases hd with h | h | h
  · simp only [HeatTreatment.VAR, HeatTreatment.MONO, HeatTreatment.ANNEALED,
      HeatTreatment.HEAT_STRENGTHENED, HeatTreatment.TOUGHENED,
      HeatTreatment.TOUGHEND_HEATSOAKED, List.mem_cons, List.not_mem_nil, or_false] at h
    rcases h with rfl|rfl|rfl|rfl|rfl <;> exact ⟨by decide, by decide, by decide⟩
  · simp only [Interlayer.MATERIALS, Interlayer.PVB, Interlayer.SG, Interlayer.EVA,
      List.mem_cons, List.not_mem_nil, or_false] at h
    rcases h with rfl|rfl|rfl <;> exact ⟨by decide, by decide, by decide⟩
  · simp only [GasLayer.MATERIALS, GasLayer.AIR, GasLayer.ARGON, GasLayer.XENON,
      GasLayer.KRYPTON, List.mem_cons, List.not_mem_nil, or_false] at h
    rcases h with rfl|rfl|rfl|rfl <;> exact ⟨by decide, by decide, by decide⟩

theorem parseLayerToken_render (q : ℚ) (h0 : 0 ≤ q) (hd : IsDecimal q) (desc : Str)
    (hdesc : ∀ c ∈ desc, descCls c = true) :
    parseLayerToken (renderNum q ++ desc) = (desc, some q) := by
  obtain ⟨c0, r0, hr0, hdig⟩ := renderNum_head_digit q
  have hws : ∀ c ∈ renderNum q ++ desc, c.isWhitespace = false := by
    intro c hc
    rcases List.mem_append.mp hc with h | h
    · exact tokCls_not_ws c (renderNum_tokCls q c h)
    · exact (descCls_facts c (hdesc c h)).2.2
  have hstrip : pyStrip (renderNum q ++ desc) = renderNum q ++ desc := pyStrip_eq_self _ hws
  have hffn : find_first_number (renderNum q ++ desc) = some q := by
    rw [hr0, List.cons_append]
    unfold find_first_number
    rw [show findFirstNumberAux none (c0 :: (r0 ++ desc)) =
        (if (c0.isDigit && true) = true then some (numTokenVal (c0 :: (r0 ++ desc)))
         else findFirstNumberAux (some c0) (r0 ++ desc)) from rfl]
    rw [hdig, if_pos (show (true && true) = true from rfl)]
    rw [← List.cons_append, ← hr0]
    exact congrArg some (numTokenVal_render q h0 hd desc (headSafe_of_descCls desc hdesc))
  unfold parseLayerToken
  rw [hstrip, hffn]
  have hsplit : splitOnStr (renderOptNum (some q)) (renderNum q ++ desc) = [[], desc] := by
    rw [show renderOptNum (some q) = renderNum q from rfl,
      splitOnStr_append_self _ _ (renderNum_ne_nil q)]
    unfold splitOnStr
    rw [hr0, splitOnStrAux_no_head c0 r0 desc.length desc ?_]
    intro hm
    have h1 := descCls_facts c0 (hdesc c0 hm)
    rw [h1.1] at hdig
    exact Bool.noConfusion hdig
  rw [hsplit]
  rfl

theorem parse_meta_id (g : Str) (hg : Protocol.META ∉ g) :
    parse_meta g = (g, none, none, none) := by
  simp [parse_meta, hg]

theorem parse_igdbcode_passthrough (g : Str)
    (hlast : ∀ c, g.getLast? = some c → c ≠ ')') : parse_igdbcode g = .ok (g, none, false) := by
  unfold parse_igdbcode
  rw [if_neg ?_]
  intro hcond
  have h2 := (Bool.and_eq_true _ _).mp hcond |>.2
  unfold endsWithChar at h2
  exact hlast ')' (of_decide_eq_true h2) rfl

theorem getLast_ne_of_mem (g : Str) (x : Char) (h : ∀ c ∈ g, c ≠ x) :
    ∀ c, g.getLast? = some c → c ≠ x := by
  intro c hc
  cases g with
  | nil => simp at hc
  | cons d r => exact h c (List.mem_of_mem_getLast? hc)

theorem Interlayer_init_roundtrip (x : Interlayer) (hx : x.validB = true) :
    Interlayer.init_from_g_str x.to_gstr = x := by
  obtain ⟨desc, t⟩ := x
  simp only [Interlayer.validB, Bool.and_eq_true, decide_eq_true_eq] at hx
  obtain ⟨hmem, ht⟩ := hx
  cases t with
  | none => simp [validThicknessB] at ht
  | some q =>
    simp only [validThicknessB, Bool.and_eq_true, decide_eq_true_eq] at ht
    show Interlayer.mk (parseLayerToken (renderOptNum (some q) ++ desc)).1
        (parseLayerToken (renderOptNum (some q) ++ desc)).2 = ⟨desc, some q⟩
    rw [show renderOptNum (some q) = renderNum q from rfl,
      parseLayerToken_render q ht.1 ht.2 desc
        (descList_facts desc (Or.inr (Or.inl hmem))).1]

theorem GasLayer_init_roundtrip (x : GasLayer) (hx : x.validB = true) :
    GasLayer.init_from_g_str x.to_gstr = x := by
  obtain ⟨desc, t⟩ := x
  simp only [GasLayer.validB, Bool.and_eq_true, decide_eq_true_eq] at hx
  obtain ⟨hmem, ht⟩ := hx
  cases t with
  | none => simp [validThicknessB] at ht
  | some q =>
    simp only [validThicknessB, Bool.and_eq_true, decide_eq_true_eq] at ht
    show GasLayer.mk (parseLayerToken (renderOptNum (some q) ++ desc)).1
        (parseLayerToken (renderOptNum (some q) ++ desc)).2 = ⟨desc, some q⟩
    rw [show renderOptNum (some q) = renderNum q from rfl,
      parseLayerToken_render q ht.1 ht.2 desc
        (descList_facts desc (Or.inr (Or.inr hmem))).1]

theorem renderNum_no_H (q : ℚ) : 'H' ∉ renderNum q := by
  intro hmm
  rcases renderNum_chars q 'H' hmm with h2 | h2
  · exact absurd h2 (by decide)
  · exact absurd h2 (by decide)

theorem layer_token_facts (q : ℚ) (desc : Str) (hdesc : ∀ c ∈ desc, descCls c = true)
    (hhs : hSafeB desc = true) :
    (∀ c ∈ renderNum q ++ desc, tokCls c = true) ∧ renderNum q ++ desc ≠ [] ∧
      hSafeB (renderNum q ++ desc) = true := by
  refine ⟨?_, ?_, ?_⟩
  · intro c hc
    rcases List.mem_append.mp hc with h2 | h2
    · exact renderNum_tokCls q c h2
    · exact descCls_tokCls c (hdesc c h2)
  · intro hn
    exact renderNum_ne_nil q (List.append_eq_nil.mp hn).1
  · exact hSafeB_append _ _ (hSafeB_of_not_mem _ (renderNum_no_H q)) hhs

theorem hSafeB_joinChar (sep : Char) (hsep : sep ≠ 'H') : ∀ parts : List Str,
    (∀ p ∈ parts, hSafeB p = true) → hSafeB (joinChar sep parts) = true := by
  intro parts
  induction parts with
  | nil => intro _; rfl
  | cons t ts ih =>
    intro hall
    cases ts with
    | nil => simpa [joinChar] using hall t (List.mem_cons_self _ _)
    | cons t2 ts2 =>
      simp only [joinChar]
      rw [show (sep :: joinChar sep (t2 :: ts2)) = [sep] ++ joinChar sep (t2 :: ts2) from rfl]
      refine hSafeB_append _ _ (hall t (List.mem_cons_self _ _)) (hSafeB_append _ _ ?_
        (ih fun p hp => hall p (List.mem_cons_of_mem _ hp)))
      simp only [hSafeB, bne_iff_ne, ne_eq]
      exact hsep

theorem mono_validB_fields (desc : Str) (t w h s : Option ℚ) (code : Option Str) (flip : Bool)
    (hm : MonoGlass.validB false ⟨desc, t, w, h, s, code, flip⟩ = true) :
    desc ∈ HeatTreatment.VAR ∧ (∃ q : ℚ, t = some q ∧ 0 ≤ q ∧ IsDecimal q) ∧
      code = none ∧ flip = false ∧ w = none ∧ h = none ∧ s = none := by
  unfold MonoGlass.validB at hm
  rw [if_neg (by simp)] at hm
  simp only [Bool.and_eq_true, decide_eq_true_eq, Bool.not_eq_true'] at hm
  obtain ⟨⟨hmem, ht⟩, ⟨⟨⟨⟨hcode, hflip⟩, hw⟩, hh⟩, hs⟩⟩ := hm
  refine ⟨hmem, ?_, hcode, hflip, hw, hh, hs⟩
  cases t with
  | none => simp [validThicknessB] at ht
  | some q =>
    simp only [validThicknessB, Bool.and_eq_true, decide_eq_true_eq] at ht
    exact ⟨q, rfl, ht.1, ht.2⟩

theorem mono_nested_roundtrip (m : MonoGlass) (hm : MonoGlass.validB false m = true) :
    MonoGlass.init_from_g_str (m.to_gstr false) = .ok m := by
  obtain ⟨desc, t, w, h, s, code, flip⟩ := m
  obtain ⟨hmem, ⟨q, rfl, hq0, hqd⟩, rfl, rfl, rfl, rfl, rfl⟩ :=
    mono_validB_fields desc t w h s code flip hm
  have hfacts := descList_facts desc (Or.inl hmem)
  have hg : MonoGlass.to_gstr ⟨desc, some q, none, none, none, none, false⟩ false =
      renderNum q ++ desc := rfl
  rw [hg]
  have htokf := layer_token_facts q desc hfacts.1 hfacts.2.2
  have h1 : parse_meta (renderNum q ++ desc) = (renderNum q ++ desc, none, none, none) :=
    parse_meta_id _ fun hmm => absurd (htokf.1 '-' hmm) (by decide)
  have h2 : parse_igdbcode (renderNum q ++ desc) = .ok (renderNum q ++ desc, none, false) :=
    parse_igdbcode_passthrough _ (getLast_ne_of_mem _ ')' fun c hc =>
      tokCls_ne c (htokf.1 c hc) ')' (by decide))
  have h3 : parseLayerToken (renderNum q ++ desc) = (desc, some q) :=
    parseLayerToken_render q hq0 hqd desc hfacts.1
  unfold MonoGlass.init_from_g_str
  simp only [h1, h2, h3]
  rw [if_pos hmem]

theorem mem_interleaveL {α : Type} : ∀ (A B : List α) (x : α),
    x ∈ interleaveL A B → x ∈ A ∨ x ∈ B := by
  intro A
  induction A with
  | nil =>
    intro B x hx
    rw [show interleaveL ([] : List α) B = B from by cases B <;> rfl] at hx
    exact Or.inr hx
  | cons a A2 ih =>
    intro B x hx
    cases B with
    | nil => exact Or.inl hx
    | cons b B2 =>
      rcases List.mem_cons.mp hx with rfl | hx2
      · exact Or.inl (List.mem_cons_self _ _)
      · rcases List.mem_cons.mp hx2 with rfl | hx3
        · exact Or.inr (List.mem_cons_self _ _)
        · rcases ih B2 x hx3 with h | h
          · exact Or.inl (List.mem_cons_of_mem _ h)
          · exact Or.inr (List.mem_cons_of_mem _ h)

theorem interleaveL_ne_nil {α : Type} (x : α) (A B : List α) : interleaveL (x :: A) B ≠ [] := by
  cases B <;> simp [interleaveL]

theorem lam_validB_fields (plies : List MonoGlass) (ils : List Interlayer) (w h s : Option ℚ)
    (code : Option Str) (flip : Bool)
    (hl : LamGlass.validB false ⟨plies, ils, w, h, s, code, flip⟩ = true) :
    2 ≤ plies.length ∧ plies.length = ils.length + 1 ∧
      (∀ p ∈ plies, MonoGlass.validB false p = true) ∧
      (∀ x ∈ ils, Interlayer.validB x = true) ∧
      code = none ∧ flip = false ∧ w = none ∧ h = none ∧ s = none := by
  unfold LamGlass.validB at hl
  rw [if_neg (by simp)] at hl
  simp only [Bool.and_eq_true, decide_eq_true_eq, Bool.not_eq_true', List.all_eq_true] at hl
  obtain ⟨⟨⟨⟨h2p, hcnt⟩, hpall⟩, hilall⟩, ⟨⟨⟨⟨hcode, hflip⟩, hw⟩, hh⟩, hs⟩⟩ := hl
  exact ⟨h2p, by omega, hpall, hilall, hcode, hflip, hw, hh, hs⟩

theorem il_validB_fields (desc : Str) (t : Option ℚ)
    (hx : Interlayer.validB ⟨desc, t⟩ = true) :
    desc ∈ Interlayer.MATERIALS ∧ ∃ q : ℚ, t = some q ∧ 0 ≤ q ∧ IsDecimal q := by
  simp only [Interlayer.validB, Bool.and_eq_true, decide_eq_true_eq] at hx
  obtain ⟨hmem, ht⟩ := hx
  cases t with
  | none => simp [validThicknessB] at ht
  | some q =>
    simp only [validThicknessB, Bool.and_eq_true, decide_eq_true_eq] at ht
    exact ⟨hmem, q, rfl, ht.1, ht.2⟩

theorem gas_validB_fields (desc : Str) (t : Option ℚ)
    (hx : GasLayer.validB ⟨desc, t⟩ = true) :
    desc ∈ GasLayer.MATERIALS ∧ ∃ q : ℚ, t = some q ∧ 0 ≤ q ∧ IsDecimal q := by
  simp only [GasLayer.validB, Bool.and_eq_true, decide_eq_true_eq] at hx
  obtain ⟨hmem, ht⟩ := hx
  cases t with
  | none => simp [validThicknessB] at ht
  | some q =>
    simp only [validThicknessB, Bool.and_eq_true, decide_eq_true_eq] at ht
    exact ⟨hmem, q, rfl, ht.1, ht.2⟩

theorem mono_token_facts (p : MonoGlass) (hp : MonoGlass.validB false p = true) :
    (∀ c ∈ p.to_gstr false, tokCls c = true) ∧ p.to_gstr false ≠ [] ∧
      hSafeB (p.to_gstr false) = true := by
  obtain ⟨desc, t, w, h, s, code, flip⟩ := p
  obtain ⟨hmem, ⟨q, rfl, -, -⟩, rfl, rfl, rfl, rfl, rfl⟩ :=
    mono_validB_fields desc t w h s code flip hp
  have hfacts := descList_facts desc (Or.inl hmem)
  rw [show MonoGlass.to_gstr ⟨desc, some q, none, none, none, none, false⟩ false =
    renderNum q ++ desc from rfl]
  exact layer_token_facts q desc hfacts.1 hfacts.2.2

theorem il_token_facts (x : Interlayer) (hx : Interlayer.validB x = true) :
    (∀ c ∈ x.to_gstr, tokCls c = true) ∧ x.to_gstr ≠ [] ∧ hSafeB x.to_gstr = true := by
  obtain ⟨desc, t⟩ := x
  obtain ⟨hmem, q, rfl, -, -⟩ := il_validB_fields desc t hx
  have hfacts := descList_facts desc (Or.inr (Or.inl hmem))
  rw [show Interlayer.to_gstr ⟨desc, some q⟩ = renderNum q ++ desc from rfl]
  exact layer_token_facts q desc hfacts.1 hfacts.2.2

theorem gas_token_facts (x : GasLayer) (hx : GasLayer.validB x = true) :
    (∀ c ∈ x.to_gstr, tokCls c = true) ∧ x.to_gstr ≠ [] ∧ hSafeB x.to_gstr = true := by
  obtain ⟨desc, t⟩ := x
  obtain ⟨hmem, q, rfl, -, -⟩ := gas_validB_fields desc t hx
  have hfacts := descList_facts desc (Or.inr (Or.inr hmem))
  rw [show GasLayer.to_gstr ⟨desc, some q⟩ = renderNum q ++ desc from rfl]
  exact layer_token_facts q desc hfacts.1 hfacts.2.2

theorem core_parse (sep : Char) (hsep1 : tokCls sep = false) (hsep2 : sep ≠ '-')
    (hsep3 : sep ≠ ')') (hsep4 : sep ≠ 'H') (T : List Str) (hT_ne : T ≠ [])
    (hTmem : ∀ t ∈ T, (∀ c ∈ t, tokCls c = true) ∧ t ≠ [] ∧ hSafeB t = true) :
    parse_meta (joinChar sep T) = (joinChar sep T, none, none, none) ∧
      parse_igdbcode (joinChar sep T) = .ok (joinChar sep T, none, false) ∧
      splitChar sep (joinChar sep T) = T := by
  have hchars : ∀ c ∈ joinChar sep T, c = sep ∨ tokCls c = true := by
    intro c hc
    rcases mem_joinChar sep T c hc with h | ⟨p, hp, hcp⟩
    · exact Or.inl h
    · exact Or.inr ((hTmem p hp).1 c hcp)
  refine ⟨?_, ?_, ?_⟩
  · refine parse_meta_id _ fun hmm => ?_
    rcases hchars '-' hmm with h | h
    · exact hsep2 h.symm
    · exact absurd h (by decide)
  · refine parse_igdbcode_passthrough _ (getLast_ne_of_mem _ ')' fun c hc => ?_)
    rcases hchars c hc with rfl | h
    · exact hsep3
    · exact tokCls_ne c h ')' (by decide)
  · exact splitChar_join sep T hT_ne fun p hp hsepmem =>
      absurd ((hTmem p hp).1 sep hsepmem) (by simp [hsep1])

theorem lam_nested_roundtrip (l : LamGlass) (hl : LamGlass.validB false l = true) :
    LaminatedGlass.init_from_g_str (l.to_gstr false) = .ok l := by
  obtain ⟨plies, ils, w, h, s, code, flip⟩ := l
  obtain ⟨h2p, hplen, hpall, hilall, rfl, rfl, rfl, rfl, rfl⟩ :=
    lam_validB_fields plies ils w h s code flip hl
  have hg : LamGlass.to_gstr ⟨plies, ils, none, none, none, none, false⟩ false =
      joinChar '&' (interleaveL (plies.map fun m => m.to_gstr false)
        (ils.map Interlayer.to_gstr)) := by
    show joinChar '&' ((interleaveL (plies.map LamLayer.ply) (ils.map LamLayer.il)).map
      fun ly => match ly with | .ply m => m.to_gstr false | .il x => x.to_gstr) = _
    rw [interleaveL_map, List.map_map, List.map_map]
    rfl
  have hTmem : ∀ t ∈ interleaveL (plies.map fun m => m.to_gstr false)
      (ils.map Interlayer.to_gstr),
      (∀ c ∈ t, tokCls c = true) ∧ t ≠ [] ∧ hSafeB t = true := by
    intro t ht
    rcases mem_interleaveL _ _ t ht with h2 | h2
    · obtain ⟨p, hp, rfl⟩ := List.mem_map.mp h2
      exact mono_token_facts p (hpall p hp)
    · obtain ⟨x, hx, rfl⟩ := List.mem_map.mp h2
      exact il_token_facts x (hilall x hx)
  have hT_ne : interleaveL (plies.map fun m => m.to_gstr false)
      (ils.map Interlayer.to_gstr) ≠ [] := by
    cases plies with
    | nil => simp at h2p
    | cons p ps => exact interleaveL_ne_nil _ _ _
  obtain ⟨hmeta, hcode, hsplit⟩ := core_parse '&' (by decide) (by decide) (by decide)
    (by decide) _ hT_ne hTmem
  have hlen : (plies.map fun m => m.to_gstr false).length =
      (ils.map Interlayer.to_gstr).length + 1 := by simp [hplen]
  have hEO := interleave_evens_odds (ils.map Interlayer.to_gstr)
    (plies.map fun m => m.to_gstr false) hlen
  have hmap : exceptMapM MonoGlass.init_from_g_str (plies.map fun m => m.to_gstr false) =
      .ok plies :=
    exceptMapM_map_ok _ _ plies fun p hp => mono_nested_roundtrip p (hpall p hp)
  have hilmap : (ils.map Interlayer.to_gstr).map Interlayer.init_from_g_str = ils := by
    rw [List.map_map]
    have hcg : ∀ x ∈ ils, (Interlayer.init_from_g_str ∘ Interlayer.to_gstr) x = x :=
      fun x hx => Interlayer_init_roundtrip x (hilall x hx)
    exact (List.map_congr_left hcg).trans (List.map_id' ils)
  unfold LaminatedGlass.init_from_g_str
  rw [hg]
  simp only [Protocol.INTERLAYER_SEPARATOR, hmeta, hcode, hsplit, hEO.1, hEO.2, hmap, hilmap]

theorem parseLite_mono (m : MonoGlass) (hm : MonoGlass.validB false m = true) :
    parseLite (m.to_gstr false) = .ok (Lite.mono m) := by
  have htokf := mono_token_facts m hm
  unfold parseLite
  rw [if_neg ?_, mono_nested_roundtrip m hm]
  · rfl
  · rintro (h | h)
    · exact absurd (htokf.1 _ h) (by decide)
    · have hdec := isPrefixOf_append _ _ h
      have hL : 'L' ∈ m.to_gstr false := by
        rw [hdec]
        exact List.mem_append_left _ (by decide)
      exact absurd (htokf.1 'L' hL) (by decide)

theorem lam_token_facts (l : LamGlass) (hl : LamGlass.validB false l = true) :
    (∀ c ∈ l.to_gstr false, (tokCls c || decide (c = '&')) = true) ∧
      l.to_gstr false ≠ [] ∧ hSafeB (l.to_gstr false) = true := by
  obtain ⟨plies, ils, w, h, s, code, flip⟩ := l
  obtain ⟨h2p, hplen, hpall, hilall, rfl, rfl, rfl, rfl, rfl⟩ :=
    lam_validB_fields plies ils w h s code flip hl
  have hg : LamGlass.to_gstr ⟨plies, ils, none, none, none, none, false⟩ false =
      joinChar '&' (interleaveL (plies.map fun m => m.to_gstr false)
        (ils.map Interlayer.to_gstr)) := by
    show joinChar '&' ((interleaveL (plies.map LamLayer.ply) (ils.map LamLayer.il)).map
      fun ly => match ly with | .ply m => m.to_gstr false | .il x => x.to_gstr) = _
    rw [interleaveL_map, List.map_map, List.map_map]
    rfl
  rw [hg]
  have hTmem : ∀ t ∈ interleaveL (plies.map fun m => m.to_gstr false)
      (ils.map Interlayer.to_gstr),
      (∀ c ∈ t, tokCls c = true) ∧ t ≠ [] ∧ hSafeB t = true := by
    intro t ht
    rcases mem_interleaveL _ _ t ht with h2 | h2
    · obtain ⟨p, hp, rfl⟩ := List.mem_map.mp h2
      exact mono_token_facts p (hpall p hp)
    · obtain ⟨x, hx, rfl⟩ := List.mem_map.mp h2
      exact il_token_facts x (hilall x hx)
  refine ⟨?_, ?_, ?_⟩
  · intro c hc
    rcases mem_joinChar '&' _ c hc with rfl | ⟨p, hp, hcp⟩
    · simp
    · simp [(hTmem p hp).1 c hcp]
  · cases plies with
    | nil => simp at h2p
    | cons p1 prest =>
      cases prest with
      | nil => simp at h2p
      | cons p2 ps =>
        cases ils with
        | nil => simp at hplen
        | cons i1 irest =>
          rw [show interleaveL ((p1 :: p2 :: ps).map fun m => m.to_gstr false)
              ((i1 :: irest).map Interlayer.to_gstr) =
            p1.to_gstr false :: i1.to_gstr :: interleaveL ((p2 :: ps).map
              fun m => m.to_gstr false) (irest.map Interlayer.to_gstr) from rfl]
          exact joinChar_ne_nil '&' _ _
            (mono_token_facts p1 (hpall p1 (List.mem_cons_self _ _))).2.1
  · exact hSafeB_joinChar '&' (by decide) _ fun p hp => (hTmem p hp).2.2

theorem parseLite_lam (l : LamGlass) (hl : LamGlass.validB false l = true) :
    parseLite (l.to_gstr false) = .ok (Lite.lam l) := by
  have hsepmem : Protocol.INTERLAYER_SEPARATOR ∈ l.to_gstr false := by
    obtain ⟨plies, ils, w, h, s, code, flip⟩ := l
    obtain ⟨h2p, hplen, hpall, hilall, rfl, rfl, rfl, rfl, rfl⟩ :=
      lam_validB_fields plies ils w h s code flip hl
    cases plies with
    | nil => simp at h2p
    | cons p1 prest =>
      cases prest with
      | nil => simp at h2p
      | cons p2 ps =>
        cases ils with
        | nil => simp at hplen
        | cons i1 irest =>
          rw [show LamGlass.to_gstr ⟨p1 :: p2 :: ps, i1 :: irest,
              none, none, none, none, false⟩ false =
            joinChar '&' (p1.to_gstr false :: i1.to_gstr ::
              ((interleaveL ((p2 :: ps).map LamLayer.ply) (irest.map LamLayer.il)).map
                fun ly => match ly with
                  | .ply m => m.to_gstr false
                  | .il x => x.to_gstr)) from rfl]
          exact sep_mem_joinChar '&' _ _ _
  unfold parseLite
  rw [if_pos (Or.inl hsepmem), lam_nested_roundtrip l hl]
  rfl

theorem parseLite_roundtrip (li : Lite) (h : Lite.validB li = true) :
    parseLite (li.to_gstr false) = .ok li := by
  cases li with
  | mono m => exact parseLite_mono m (by simpa [Lite.validB] using h)
  | lam l => exact parseLite_lam l (by simpa [Lite.validB] using h)

theorem lite_token_facts (li : Lite) (h : Lite.validB li = true) :
    (∀ c ∈ li.to_gstr false, (tokCls c || decide (c = '&')) = true) ∧
      li.to_gstr false ≠ [] ∧ hSafeB (li.to_gstr false) = true := by
  cases li with
  | mono m =>
    have hf := mono_token_facts m (by simpa [Lite.validB] using h)
    exact ⟨fun c hc => by simp [hf.1 c hc], hf.2.1, hf.2.2⟩
  | lam l => exact lam_token_facts l (by simpa [Lite.validB] using h)

theorem parts_eq_interleave : ∀ (lites : List Lite) (gases : List GasLayer),
    lites.length = gases.length + 1 →
    IguGlass.parts lites gases =
      interleaveL (lites.map fun li => li.to_gstr false) (gases.map GasLayer.to_gstr) := by
  intro lites
  induction lites with
  | nil => intro gases h; simp at h
  | cons l ls ih =>
    intro gases h
    cases gases with
    | nil =>
      cases ls with
      | nil => rfl
      | cons l2 ls2 => simp at h
    | cons g gs =>
      have h2 : ls.length = gs.length + 1 := by simpa using h
      show l.to_gstr false :: g.to_gstr :: IguGlass.parts ls gs = _
      rw [ih gs h2]
      rfl

theorem core_parse_gen (sep : Char) (K : Char → Bool) (hKsep : K sep = false)
    (hKdash : K '-' = false) (hKclose : K ')' = false) (hsep2 : sep ≠ '-')
    (hsep3 : sep ≠ ')') (T : List Str) (hT_ne : T ≠ [])
    (hTmem : ∀ t ∈ T, (∀ c ∈ t, K c = true) ∧ hSafeB t = true) :
    parse_meta (joinChar sep T) = (joinChar sep T, none, none, none) ∧
      parse_igdbcode (joinChar sep T) = .ok (joinChar sep T, none, false) ∧
      splitChar sep (joinChar sep T) = T := by
  have hchars : ∀ c ∈ joinChar sep T, c = sep ∨ K c = true := by
    intro c hc
    rcases mem_joinChar sep T c hc with h | ⟨p, hp, hcp⟩
    · exact Or.inl h
    · exact Or.inr ((hTmem p hp).1 c hcp)
  refine ⟨?_, ?_, ?_⟩
  · refine parse_meta_id _ fun hmm => ?_
    rcases hchars '-' hmm with h | h
    · exact hsep2 h.symm
    · rw [hKdash] at h
      exact Bool.noConfusion h
  · refine parse_igdbcode_passthrough _ (getLast_ne_of_mem _ ')' fun c hc => ?_)
    rcases hchars c hc with rfl | h
    · exact hsep3
    · intro hcc
      rw [hcc, hKclose] at h
      exact Bool.noConfusion h
  · refine splitChar_join sep T hT_ne fun p hp hsepmem => ?_
    have := (hTmem p hp).1 sep hsepmem
    rw [hKsep] at this
    exact Bool.noConfusion this

theorem metaPart_chars (mk : Str) (v : Option ℚ) :
    ∀ c ∈ metaPart mk v, c ∈ mk ∨ c.isDigit = true ∨ c = '.' := by
  intro c hc
  cases v with
  | none => simp [metaPart] at hc
  | some q =>
    by_cases hq : q ≠ 0
    · rw [show metaPart mk (some q) = if q ≠ 0 then mk ++ renderNum q else [] from rfl,
        if_pos hq] at hc
      rcases List.mem_append.mp hc with h | h
      · exact Or.inl h
      · exact Or.inr (renderNum_chars q c h)
    · rw [show metaPart mk (some q) = if q ≠ 0 then mk ++ renderNum q else [] from rfl,
        if_neg hq] at hc
      simp at hc

theorem not_mem_metaPart (c : Char) (mk : Str) (v : Option ℚ) (hc1 : c ∉ mk)
    (hc2 : c.isDigit = false) (hc3 : c ≠ '.') : c ∉ metaPart mk v := by
  intro hmm
  rcases metaPart_chars mk v c hmm with h | h | h
  · exact hc1 h
  · rw [hc2] at h; exact Bool.noConfusion h
  · exact hc3 h

theorem metaVal_cases (v : Option ℚ) (hv : validMetaValB v = true) :
    v = none ∨ ∃ q : ℚ, v = some q ∧ 0 < q ∧ IsDecimal q := by
  cases v with
  | none => exact Or.inl rfl
  | some q =>
    simp only [validMetaValB, Bool.and_eq_true, decide_eq_true_eq] at hv
    exact Or.inr ⟨q, rfl, hv.1, hv.2⟩

theorem metaPart_some_pos (mk : Str) (q : ℚ) (hq : 0 < q) :
    metaPart mk (some q) = mk ++ renderNum q := by
  rw [show metaPart mk (some q) = if q ≠ 0 then mk ++ renderNum q else [] from rfl,
    if_pos hq.ne']

theorem metaPart_no_H (mk : Str) (v : Option ℚ) (hmk : 'H' ∉ mk) : 'H' ∉ metaPart mk v :=
  not_mem_metaPart 'H' mk v hmk (by decide) (by decide)

theorem parseSignedNumAt_render (q : ℚ) (rest : Str) (h0 : 0 ≤ q) (hdq : IsDecimal q)
    (hrest : HeadSafe rest) : parseSignedNumAt (renderNum q ++ rest) = some q := by
  obtain ⟨c0, r0, hr0, hdig⟩ := renderNum_head_digit q
  rw [hr0, List.cons_append]
  simp only [parseSignedNumAt]
  rw [if_neg (fun hc => by rw [hc] at hdig; exact absurd hdig (by decide)),
    if_neg (fun hc => by rw [hc] at hdig; exact absurd hdig (by decide))]
  rw [← List.cons_append, ← hr0]
  exact parseUnsigned_render q h0 hdq rest hrest

theorem headSafe_nil : HeadSafe ([] : Str) := by
  intro c hc
  simp at hc

theorem headSafe_metaPart_append (mk : Str) (v : Option ℚ) (rest : Str) (hmkne : mk ≠ [])
    (hmk : ∀ c, mk.head? = some c → c.isDigit = false ∧ c ≠ '.') (hrest : HeadSafe rest) :
    HeadSafe (metaPart mk v ++ rest) := by
  cases v with
  | none => simpa [metaPart] using hrest
  | some q =>
    by_cases hq : q ≠ 0
    · rw [show metaPart mk (some q) = if q ≠ 0 then mk ++ renderNum q else [] from rfl,
        if_pos hq]
      cases mk with
      | nil => exact absurd rfl hmkne
      | cons m0 mks =>
        intro c hc
        simp only [List.cons_append, List.head?_cons, Option.some.injEq] at hc
        subst hc
        exact hmk m0 rfl
    · rw [show metaPart mk (some q) = if q ≠ 0 then mk ++ renderNum q else [] from rfl,
        if_neg hq]
      simpa using hrest

theorem parse_top (core : Str) (w h s : Option ℚ)
    (hw : validMetaValB w = true) (hh : validMetaValB h = true) (hs : validMetaValB s = true)
    (hdash : '-' ∉ core) (hWc : 'W' ∉ core) (hUc : 'U' ∉ core)
    (hcoreH : hSafeB core = true) :
    parse_meta (add_meta w h s core) = (core, w, h, s) := by
  have hheadW : ∀ c, (Protocol.WIDTH).head? = some c → c.isDigit = false ∧ c ≠ '.' := by
    intro c hc
    rw [show (Protocol.WIDTH).head? = some 'W' from rfl] at hc
    obtain rfl : 'W' = c := by injection hc
    exact ⟨by decide, by decide⟩
  have hheadH : ∀ c, (Protocol.HEIGHT).head? = some c → c.isDigit = false ∧ c ≠ '.' := by
    intro c hc
    rw [show (Protocol.HEIGHT).head? = some 'H' from rfl] at hc
    obtain rfl : 'H' = c := by injection hc
    exact ⟨by decide, by decide⟩
  have hheadS : ∀ c, (Protocol.SUPPORT).head? = some c → c.isDigit = false ∧ c ≠ '.' := by
    intro c hc
    rw [show (Protocol.SUPPORT).head? = some 'S' from rfl] at hc
    obtain rfl : 'S' = c := by injection hc
    exact ⟨by decide, by decide⟩
  have hHS : HeadSafe (metaPart Protocol.HEIGHT h ++ metaPart Protocol.SUPPORT s) :=
    headSafe_metaPart_append _ h _ (by decide) hheadH
      (by
        have := headSafe_metaPart_append Protocol.SUPPORT s [] (by decide) hheadS headSafe_nil
        rwa [List.append_nil] at this)
  have hSonly : HeadSafe (metaPart Protocol.SUPPORT s) := by
    have := headSafe_metaPart_append Protocol.SUPPORT s [] (by decide) hheadS headSafe_nil
    rwa [List.append_nil] at this
  by_cases hS : metaPart Protocol.WIDTH w ++ metaPart Protocol.HEIGHT h ++
      metaPart Protocol.SUPPORT s = []
  · obtain ⟨h12, hSp⟩ := List.append_eq_nil.mp hS
    obtain ⟨hWp, hHp⟩ := List.append_eq_nil.mp h12
    have hwn : w = none := by
      rcases metaVal_cases w hw with rfl | ⟨q, rfl, hq, -⟩
      · rfl
      · rw [metaPart_some_pos _ q hq] at hWp
        exact absurd (List.append_eq_nil.mp hWp).2 (renderNum_ne_nil q)
    have hhn : h = none := by
      rcases metaVal_cases h hh with rfl | ⟨q, rfl, hq, -⟩
      · rfl
      · rw [metaPart_some_pos _ q hq] at hHp
        exact absurd (List.append_eq_nil.mp hHp).2 (renderNum_ne_nil q)
    have hsn : s = none := by
      rcases metaVal_cases s hs with rfl | ⟨q, rfl, hq, -⟩
      · rfl
      · rw [metaPart_some_pos _ q hq] at hSp
        exact absurd (List.append_eq_nil.mp hSp).2 (renderNum_ne_nil q)
    subst hwn
    subst hhn
    subst hsn
    rw [show add_meta none none none core = core from rfl]
    exact parse_meta_id core hdash
  · have hadd : add_meta w h s core = core ++ Protocol.META :: (metaPart Protocol.WIDTH w ++
        metaPart Protocol.HEIGHT h ++ metaPart Protocol.SUPPORT s) := by
      simp only [add_meta]
      rw [if_pos hS]
    rw [hadd]
    have hWHp : 'W' ∉ metaPart Protocol.HEIGHT h :=
      not_mem_metaPart 'W' _ h (by decide) (by decide) (by decide)
    have hWSp : 'W' ∉ metaPart Protocol.SUPPORT s :=
      not_mem_metaPart 'W' _ s (by decide) (by decide) (by decide)
    have hHSp : 'H' ∉ metaPart Protocol.SUPPORT s := metaPart_no_H _ s (by decide)
    have hHWp : 'H' ∉ metaPart Protocol.WIDTH w := metaPart_no_H _ w (by decide)
    have hUWp : 'U' ∉ metaPart Protocol.WIDTH w :=
      not_mem_metaPart 'U' _ w (by decide) (by decide) (by decide)
    have hUHp : 'U' ∉ metaPart Protocol.HEIGHT h :=
      not_mem_metaPart 'U' _ h (by decide) (by decide) (by decide)
    have hWres : findMarkerNumLast Protocol.WIDTH (core ++ Protocol.META ::
        (metaPart Protocol.WIDTH w ++ metaPart Protocol.HEIGHT h ++
          metaPart Protocol.SUPPORT s)) = w := by
      rcases metaVal_cases w hw with rfl | ⟨q, rfl, hq, hdq⟩
      · refine findMarkerNumLast_none_of_char _ _ 'W' (by decide) (by decide) ?_
        intro hmm
        rcases List.mem_append.mp hmm with h2 | h2
        · exact hWc h2
        · rcases List.mem_cons.mp h2 with h3 | h3
          · exact absurd h3 (by decide)
          · rcases List.mem_append.mp h3 with h4 | h4
            · rcases List.mem_append.mp h4 with h5 | h5
              · simp [metaPart] at h5
              · exact hWHp h5
            · exact hWSp h4
      · have hgeq : core ++ Protocol.META :: (metaPart Protocol.WIDTH (some q) ++
            metaPart Protocol.HEIGHT h ++ metaPart Protocol.SUPPORT s) =
            (core ++ ['-']) ++ ('W' :: ([] : Str)) ++ (renderNum q ++
              (metaPart Protocol.HEIGHT h ++ metaPart Protocol.SUPPORT s)) := by
          rw [metaPart_some_pos _ q hq]
          simp [Protocol.META, Protocol.WIDTH, str]
        rw [hgeq]
        refine findMarkerNumLast_at 'W' [] _ _ q ?_ (by simp) ?_
        · exact parseSignedNumAt_render q _ (le_of_lt hq) hdq hHS
        · intro hmm
          rcases List.mem_append.mp hmm with h2 | h2
          · rcases renderNum_chars q 'W' h2 with h3 | h3
            · exact absurd h3 (by decide)
            · exact absurd h3 (by decide)
          · rcases List.mem_append.mp h2 with h3 | h3
            · exact hWHp h3
            · exact hWSp h3
    have hHres : findMarkerNumLast Protocol.HEIGHT (core ++ Protocol.META ::
        (metaPart Protocol.WIDTH w ++ metaPart Protocol.HEIGHT h ++
          metaPart Protocol.SUPPORT s)) = h := by
      rcases metaVal_cases h hh with rfl | ⟨q, rfl, hq, hdq⟩
      · refine findMarkerNumLast_H_none _ ?_
        refine hSafeB_append _ _ hcoreH ?_
        refine hSafeB_of_not_mem _ ?_
        intro hmm
        rcases List.mem_cons.mp hmm with h3 | h3
        · exact absurd h3 (by decide)
        · rcases List.mem_append.mp h3 with h4 | h4
          · rcases List.mem_append.mp h4 with h5 | h5
            · exact hHWp h5
            · simp [metaPart] at h5
          · exact hHSp h4
      · have hgeq : core ++ Protocol.META :: (metaPart Protocol.WIDTH w ++
            metaPart Protocol.HEIGHT (some q) ++ metaPart Protocol.SUPPORT s) =
            (core ++ '-' :: metaPart Protocol.WIDTH w) ++ ('H' :: ([] : Str)) ++
              (renderNum q ++ metaPart Protocol.SUPPORT s) := by
          rw [metaPart_some_pos _ q hq]
          simp [Protocol.META, Protocol.HEIGHT, str]
        rw [hgeq]
        refine findMarkerNumLast_at 'H' [] _ _ q ?_ (by simp) ?_
        · exact parseSignedNumAt_render q _ (le_of_lt hq) hdq hSonly
        · intro hmm
          rcases List.mem_append.mp hmm with h2 | h2
          · exact renderNum_no_H q h2
          · exact hHSp h2
    have hSres : findMarkerNumLast Protocol.SUPPORT (core ++ Protocol.META ::
        (metaPart Protocol.WIDTH w ++ metaPart Protocol.HEIGHT h ++
          metaPart Protocol.SUPPORT s)) = s := by
      rcases metaVal_cases s hs with rfl | ⟨q, rfl, hq, hdq⟩
      · refine findMarkerNumLast_none_of_char _ _ 'U' (by decide) (by decide) ?_
        intro hmm
        rcases List.mem_append.mp hmm with h2 | h2
        · exact hUc h2
        · rcases List.mem_cons.mp h2 with h3 | h3
          · exact absurd h3 (by decide)
          · rcases List.mem_append.mp h3 with h4 | h4
            · rcases List.mem_append.mp h4 with h5 | h5
              · exact hUWp h5
              · exact hUHp h5
            · simp [metaPart] at h4
      · have hgeq : core ++ Protocol.META :: (metaPart Protocol.WIDTH w ++
            metaPart Protocol.HEIGHT h ++ metaPart Protocol.SUPPORT (some q)) =
            (core ++ '-' :: (metaPart Protocol.WIDTH w ++ metaPart Protocol.HEIGHT h)) ++
              ('S' :: str "UPPORT") ++ renderNum q := by
          rw [metaPart_some_pos _ q hq]
          simp [Protocol.META, Protocol.SUPPORT, str]
        rw [hgeq]
        refine findMarkerNumLast_at 'S' (str "UPPORT") _ _ q ?_ (by decide) ?_
        · have := parseSignedNumAt_render q [] (le_of_lt hq) hdq headSafe_nil
          rwa [List.append_nil] at this
        · intro hmm
          rcases renderNum_chars q 'S' hmm with h3 | h3
          · exact absurd h3 (by decide)
          · exact absurd h3 (by decide)
    have hmem : Protocol.META ∈ core ++ Protocol.META :: (metaPart Protocol.WIDTH w ++
        metaPart Protocol.HEIGHT h ++ metaPart Protocol.SUPPORT s) :=
      List.mem_append_right _ (List.mem_cons_self _ _)
    unfold parse_meta
    rw [if_pos hmem]
    rw [show (find_number_after_marker Protocol.WIDTH (core ++ Protocol.META ::
      (metaPart Protocol.WIDTH w ++ metaPart Protocol.HEIGHT h ++
        metaPart Protocol.SUPPORT s)) true) = findMarkerNumLast Protocol.WIDTH _ from rfl]
    rw [show (find_number_after_marker Protocol.HEIGHT (core ++ Protocol.META ::
      (metaPart Protocol.WIDTH w ++ metaPart Protocol.HEIGHT h ++
        metaPart Protocol.SUPPORT s)) true) = findMarkerNumLast Protocol.HEIGHT _ from rfl]
    rw [show (find_number_after_marker Protocol.SUPPORT (core ++ Protocol.META ::
      (metaPart Protocol.WIDTH w ++ metaPart Protocol.HEIGHT h ++
        metaPart Protocol.SUPPORT s)) true) = findMarkerNumLast Protocol.SUPPORT _ from rfl]
    rw [hWres, hHres, hSres, splitChar_headI]
    rw [takeWhile_append_all core _ fun c hc => by
      simp only [bne_iff_ne, ne_eq]
      intro hcc
      rw [hcc] at hc
      exact hdash hc]
    rw [List.takeWhile_cons, if_neg (by decide), List.append_nil]

theorem validCode_cases (c : Option Str) (flip : Bool) (h : validCodeB c flip = true) :
    (c = none ∧ flip = false) ∨ ∃ cd, c = some cd ∧ cd ≠ [] ∧ ∀ ch ∈ cd, ch.isDigit = true := by
  cases c with
  | none =>
    simp only [validCodeB, Bool.not_eq_true'] at h
    exact Or.inl ⟨rfl, h⟩
  | some cd =>
    simp only [validCodeB, Bool.and_eq_true, decide_eq_true_eq, List.all_eq_true] at h
    exact Or.inr ⟨cd, rfl, h.1, h.2⟩

theorem add_igdbcode_some (cd : Str) (flip : Bool) (g : Str) (hne : cd ≠ []) :
    add_igdbcode (some cd) flip g =
      ('#' :: (cd ++ (if flip then ['x'] else []))) ++ ('(' :: (g ++ [')'])) := by
  show (if cd ≠ [] then Protocol.IGDB_START :: cd ++
      (if flip then [Protocol.IGDB_FLIP] else []) ++ Protocol.IGDB_OPEN_BRACKET :: g ++
      [Protocol.IGDB_CLOSE_BRACKET] else g) = _
  rw [if_pos hne]
  cases flip <;> simp [Protocol.IGDB_START, Protocol.IGDB_FLIP, Protocol.IGDB_OPEN_BRACKET,
    Protocol.IGDB_CLOSE_BRACKET]

theorem parse_igdbcode_wrap (cd xp : Str) (flip : Bool) (inner : Str) (hne : cd ≠ [])
    (hcd : ∀ ch ∈ cd, ch.isDigit = true) (hxp : ∀ c ∈ xp, c = 'x')
    (hxpflip : endsWithChar 'x' (cd ++ xp) = flip)
    (hinner : ∀ c ∈ inner, c ≠ '(' ∧ c ≠ ')') :
    parse_igdbcode (('#' :: (cd ++ xp)) ++ ('(' :: (inner ++ [')']))) =
      .ok (inner, some cd, flip) := by
  have hpre_flat : ∀ c ∈ '#' :: (cd ++ xp), c ≠ '(' ∧ c ≠ ')' := by
    intro c hc
    rcases List.mem_cons.mp hc with rfl | h2
    · exact ⟨by decide, by decide⟩
    · rcases List.mem_append.mp h2 with h3 | h3
      · have hdg := hcd c h3
        exact ⟨fun hcc => by rw [hcc] at hdg; exact absurd hdg (by decide),
          fun hcc => by rw [hcc] at hdg; exact absurd hdg (by decide)⟩
      · rw [hxp c h3]
        exact ⟨by decide, by decide⟩
  have hfeb := feb_wrapped ('#' :: (cd ++ xp)) inner hpre_flat hinner
  have hfirst : firstIdx '(' (('#' :: (cd ++ xp)) ++ ('(' :: (inner ++ [')']))) =
      ('#' :: (cd ++ xp)).length :=
    firstIdx_append_paren _ _ fun c hc => (hpre_flat c hc).1
  have hcond : (startsWithChar Protocol.IGDB_START
        (('#' :: (cd ++ xp)) ++ ('(' :: (inner ++ [')']))) &&
      endsWithChar Protocol.IGDB_CLOSE_BRACKET
        (('#' :: (cd ++ xp)) ++ ('(' :: (inner ++ [')'])))) = true := by
    have hend : endsWithChar Protocol.IGDB_CLOSE_BRACKET
        (('#' :: (cd ++ xp)) ++ ('(' :: (inner ++ [')']))) = true := by
      unfold endsWithChar
      rw [show ('#' :: (cd ++ xp)) ++ ('(' :: (inner ++ [')'])) =
        (('#' :: (cd ++ xp)) ++ ('(' :: inner)) ++ [')'] from by simp]
      rw [List.getLast?_concat]
      decide
    rw [hend]
    rfl
  have hx : ((('#' :: (cd ++ xp)) ++ ('(' :: (inner ++ [')']))).drop 1).take
      (('#' :: (cd ++ xp)).length - 1) = cd ++ xp := by
    rw [show (('#' :: (cd ++ xp)) ++ ('(' :: (inner ++ [')']))).drop 1 =
      (cd ++ xp) ++ ('(' :: (inner ++ [')'])) from rfl]
    rw [show ('#' :: (cd ++ xp)).length - 1 = (cd ++ xp).length from by simp]
    exact List.take_left _ _
  have hret : ((('#' :: (cd ++ xp)) ++ ('(' :: (inner ++ [')']))).drop
        (('#' :: (cd ++ xp)).length + 1)).take
      (('#' :: (cd ++ xp)).length + inner.length + 1 - (('#' :: (cd ++ xp)).length + 1)) =
      inner := by
    rw [show ('#' :: (cd ++ xp)).length + inner.length + 1 -
      (('#' :: (cd ++ xp)).length + 1) = inner.length from by omega]
    rw [show ('#' :: (cd ++ xp)) ++ ('(' :: (inner ++ [')'])) =
      (('#' :: (cd ++ xp)) ++ ['(']) ++ (inner ++ [')']) from by simp]
    rw [show ('#' :: (cd ++ xp)).length + 1 = (('#' :: (cd ++ xp)) ++ ['(']).length from by
      simp only [List.length_append, List.length_cons, List.length_nil]]
    rw [List.drop_left]
    exact List.take_left _ _
  have hsplit : (splitChar 'x' (cd ++ xp)).headI = cd := by
    rw [splitChar_headI]
    rw [takeWhile_append_all cd _ fun ch hc => by
      simp only [bne_iff_ne, ne_eq]
      intro hcc
      have hdg := hcd ch hc
      rw [hcc] at hdg
      exact absurd hdg (by decide)]
    rw [takeWhile_head_false _ fun c hc => by
      rw [hxp c (List.mem_of_mem_head? hc)]
      simp, List.append_nil]
  unfold parse_igdbcode
  rw [if_pos hcond]
  simp only [hfeb, List.getLast?_singleton, Protocol.IGDB_OPEN_BRACKET,
    Protocol.IGDB_FLIP, hfirst]
  simp only [if_true]
  rw [hx, hret, hsplit, hxpflip]

theorem endsWith_x_false (cd : Str) (hcd : ∀ ch ∈ cd, ch.isDigit = true) :
    endsWithChar 'x' cd = false := by
  unfold endsWithChar
  apply decide_eq_false
  intro hlast
  have := hcd 'x' (List.mem_of_mem_getLast? hlast)
  exact absurd this (by decide)

theorem endsWith_x_concat (cd : Str) : endsWithChar 'x' (cd ++ ['x']) = true := by
  unfold endsWithChar
  rw [List.getLast?_concat]
  simp

theorem metaPart_metaCls (mk : Str) (v : Option ℚ) (hmk : ∀ ch ∈ mk, metaCls ch = true) :
    ∀ c ∈ metaPart mk v, metaCls c = true := by
  intro c hc
  rcases metaPart_chars mk v c hc with h | h | h
  · exact hmk c h
  · simp [metaCls, h]
  · simp [metaCls, h]

theorem mem_add_meta (w h s : Option ℚ) (g0 : Str) (c : Char) (hc : c ∈ add_meta w h s g0) :
    c ∈ g0 ∨ metaCls c = true := by
  simp only [add_meta] at hc
  by_cases hS : metaPart Protocol.WIDTH w ++ metaPart Protocol.HEIGHT h ++
      metaPart Protocol.SUPPORT s ≠ []
  · rw [if_pos hS] at hc
    rcases List.mem_append.mp hc with h2 | h2
    · exact Or.inl h2
    · rcases List.mem_cons.mp h2 with rfl | h3
      · exact Or.inr (by decide)
      · refine Or.inr ?_
        rcases List.mem_append.mp h3 with h4 | h4
        · rcases List.mem_append.mp h4 with h5 | h5
          · exact metaPart_metaCls _ w (by decide) c h5
          · exact metaPart_metaCls _ h (by decide) c h5
        · exact metaPart_metaCls _ s (by decide) c h4
  · rw [if_neg hS] at hc
    exact Or.inl hc

theorem mem_add_igdbcode (code : Option Str) (flip : Bool) (g0 : Str) (c : Char)
    (hc : c ∈ add_igdbcode code flip g0) :
    c ∈ g0 ∨ c = '#' ∨ c = '(' ∨ c = ')' ∨ c = 'x' ∨ ∃ cd, code = some cd ∧ c ∈ cd := by
  cases code with
  | none => exact Or.inl hc
  | some cd =>
    by_cases hne : cd ≠ []
    · rw [add_igdbcode_some cd flip g0 hne] at hc
      rcases List.mem_append.mp hc with h2 | h2
      · rcases List.mem_cons.mp h2 with rfl | h3
        · exact Or.inr (Or.inl rfl)
        · rcases List.mem_append.mp h3 with h4 | h4
          · exact Or.inr (Or.inr (Or.inr (Or.inr (Or.inr ⟨cd, rfl, h4⟩))))
          · cases flip with
            | false => simp at h4
            | true =>
              have : c = 'x' := by simpa using h4
              exact Or.inr (Or.inr (Or.inr (Or.inr (Or.inl this))))
      · rcases List.mem_cons.mp h2 with rfl | h3
        · exact Or.inr (Or.inr (Or.inl rfl))
        · rcases List.mem_append.mp h3 with h4 | h4
          · exact Or.inl h4
          · have : c = ')' := by simpa using h4
            exact Or.inr (Or.inr (Or.inr (Or.inl this)))
    · push_neg at hne
      subst hne
      rw [show add_igdbcode (some []) flip g0 = g0 from rfl] at hc
      exact Or.inl hc

theorem top_g_not_mem (inner : Str) (K : Char → Bool) (code : Option Str) (flip : Bool)
    (w h s : Option ℚ) (hinner : ∀ c ∈ inner, K c = true)
    (hcodeD : ∀ cd, code = some cd → ∀ ch ∈ cd, ch.isDigit = true) (x : Char)
    (hxK : K x = false) (hxdig : x.isDigit = false) (hx2 : metaCls x = false)
    (hx3 : x ≠ '#') (hx4 : x ≠ '(') (hx5 : x ≠ ')') (hx6 : x ≠ 'x') :
    x ∉ add_meta w h s (add_igdbcode code flip inner) := by
  intro hxmem
  rcases mem_add_meta w h s _ x hxmem with h2 | h2
  · rcases mem_add_igdbcode code flip inner x h2 with h3 | h3 | h3 | h3 | h3 | ⟨cd, hcd, h3⟩
    · have := hinner x h3
      rw [hxK] at this
      exact Bool.noConfusion this
    · exact hx3 h3
    · exact hx4 h3
    · exact hx5 h3
    · exact hx6 h3
    · have := hcodeD cd hcd x h3
      rw [hxdig] at this
      exact Bool.noConfusion this
  · rw [hx2] at h2
    exact Bool.noConfusion h2

theorem add_meta_cons (w h s : Option ℚ) (c0 : Char) (r0 : Str) :
    ∃ r1, add_meta w h s (c0 :: r0) = c0 :: r1 := by
  simp only [add_meta]
  by_cases hS : metaPart Protocol.WIDTH w ++ metaPart Protocol.HEIGHT h ++
      metaPart Protocol.SUPPORT s ≠ []
  · rw [if_pos hS]
    exact ⟨r0 ++ Protocol.META :: (metaPart Protocol.WIDTH w ++ metaPart Protocol.HEIGHT h ++
      metaPart Protocol.SUPPORT s), rfl⟩
  · rw [if_neg hS]
    exact ⟨r0, rfl⟩

theorem LAM_not_prefixOf (c : Char) (r : Str) (hc : c ≠ 'L') :
    Protocol.LAM.isPrefixOf (c :: r) = false := by
  rw [show Protocol.LAM.isPrefixOf (c :: r) = (('L' == c) && (str "AM").isPrefixOf r) from rfl]
  rw [beq_eq_false_iff_ne.mpr (Ne.symm hc), Bool.false_and]

theorem core_facts (inner : Str) (code : Option Str) (flip : Bool)
    (hinner_h : hSafeB inner = true)
    (hinner_c : ∀ c ∈ inner, c ≠ '-' ∧ c ≠ 'W' ∧ c ≠ 'U')
    (hcodeD : ∀ cd, code = some cd → ∀ ch ∈ cd, ch.isDigit = true) :
    '-' ∉ add_igdbcode code flip inner ∧ 'W' ∉ add_igdbcode code flip inner ∧
      'U' ∉ add_igdbcode code flip inner ∧ hSafeB (add_igdbcode code flip inner) = true := by
  have hnm : ∀ x : Char, (∀ c ∈ inner, c ≠ x) → x ≠ '#' → x ≠ '(' → x ≠ ')' → x ≠ 'x' →
      x.isDigit = false → x ∉ add_igdbcode code flip inner := by
    intro x hin hx3 hx4 hx5 hx6 hxdig hxmem
    rcases mem_add_igdbcode code flip inner x hxmem with h3 | h3 | h3 | h3 | h3 | ⟨cd, hcd, h3⟩
    · exact hin x h3 rfl
    · exact hx3 h3
    · exact hx4 h3
    · exact hx5 h3
    · exact hx6 h3
    · have := hcodeD cd hcd x h3
      rw [hxdig] at this
      exact Bool.noConfusion this
  refine ⟨hnm '-' (fun c hc => (hinner_c c hc).1) (by decide) (by decide) (by decide)
      (by decide) (by decide),
    hnm 'W' (fun c hc => (hinner_c c hc).2.1) (by decide) (by decide) (by decide)
      (by decide) (by decide),
    hnm 'U' (fun c hc => (hinner_c c hc).2.2) (by decide) (by decide) (by decide)
      (by decide) (by decide), ?_⟩
  cases code with
  | none => exact hinner_h
  | some cd =>
    by_cases hne : cd ≠ []
    · rw [add_igdbcode_some cd flip inner hne]
      refine hSafeB_append _ _ (hSafeB_of_not_mem _ ?_) ?_
      · intro hmm
        rcases List.mem_cons.mp hmm with h2 | h2
        · exact absurd h2 (by decide)
        · rcases List.mem_append.mp h2 with h3 | h3
          · have := hcodeD cd rfl 'H' h3
            exact absurd this (by decide)
          · cases flip with
            | false => simp at h3
            | true =>
              have : ('H' : Char) = 'x' := by simpa using h3
              exact absurd this (by decide)
      · rw [show ('(' :: (inner ++ [')'])) = ['('] ++ (inner ++ [')']) from rfl]
        refine hSafeB_append _ _ (by decide) (hSafeB_append _ _ hinner_h (by decide))
    · push_neg at hne
      subst hne
      rw [show add_igdbcode (some []) flip inner = inner from rfl]
      exact hinner_h

theorem joinChar_cons_head (sep : Char) (c : Char) (r : Str) (ts : List Str) :
    ∃ r1, joinChar sep ((c :: r) :: ts) = c :: r1 := by
  cases ts with
  | nil => exact ⟨r, rfl⟩
  | cons t2 ts2 => exact ⟨r ++ sep :: joinChar sep (t2 :: ts2), rfl⟩

theorem mono_token_head (p : MonoGlass) (hp : MonoGlass.validB false p = true) :
    ∃ c r, p.to_gstr false = c :: r ∧ c.isDigit = true := by
  obtain ⟨desc, t, w, h, s, code, flip⟩ := p
  obtain ⟨hmem, ⟨q, rfl, -, -⟩, rfl, rfl, rfl, rfl, rfl⟩ :=
    mono_validB_fields desc t w h s code flip hp
  obtain ⟨c0, r0, hr0, hdig⟩ := renderNum_head_digit q
  refine ⟨c0, r0 ++ desc, ?_, hdig⟩
  rw [show MonoGlass.to_gstr ⟨desc, some q, none, none, none, none, false⟩ false =
    renderNum q ++ desc from rfl, hr0]
  rfl

theorem mono_validB_top_fields (desc : Str) (t w h s : Option ℚ) (code : Option Str)
    (flip : Bool) (hm : MonoGlass.validB true ⟨desc, t, w, h, s, code, flip⟩ = true) :
    desc ∈ HeatTreatment.VAR ∧ (∃ q : ℚ, t = some q ∧ 0 ≤ q ∧ IsDecimal q) ∧
      validCodeB code flip = true ∧ validMetaValB w = true ∧ validMetaValB h = true ∧
      validMetaValB s = true := by
  unfold MonoGlass.validB at hm
  rw [if_pos rfl] at hm
  simp only [Bool.and_eq_true, decide_eq_true_eq] at hm
  obtain ⟨⟨hmem, ht⟩, ⟨⟨⟨hcode, hw⟩, hh⟩, hs⟩⟩ := hm
  refine ⟨hmem, ?_, hcode, hw, hh, hs⟩
  cases t with
  | none => simp [validThicknessB] at ht
  | some q =>
    simp only [validThicknessB, Bool.and_eq_true, decide_eq_true_eq] at ht
    exact ⟨q, rfl, ht.1, ht.2⟩

theorem mono_top_roundtrip (m : MonoGlass) (hm : MonoGlass.validB true m = true) :
    GlassBuildup.make_glass (m.to_gstr true) = .ok (.mono m) := by
  obtain ⟨desc, t, w, h, s, code, flip⟩ := m
  obtain ⟨hmem, ⟨q, rfl, hq0, hqd⟩, hcode, hw, hh, hs⟩ :=
    mono_validB_top_fields desc t w h s code flip hm
  have hfacts := descList_facts desc (Or.inl hmem)
  have htokf := layer_token_facts q desc hfacts.1 hfacts.2.2
  have hcodeD : ∀ cd, code = some cd → ∀ ch ∈ cd, ch.isDigit = true := by
    intro cd hcd
    rcases validCode_cases code flip hcode with ⟨rfl, -⟩ | ⟨cd2, heq, -, hdg⟩
    · exact absurd hcd (by simp)
    · rw [heq] at hcd
      obtain rfl : cd2 = cd := by injection hcd
      exact hdg
  have hg : MonoGlass.to_gstr ⟨desc, some q, w, h, s, code, flip⟩ true =
      add_meta w h s (add_igdbcode code flip (renderNum q ++ desc)) := rfl
  rw [hg]
  have hcf := core_facts (renderNum q ++ desc) code flip htokf.2.2
    (fun c hc => ⟨tokCls_ne c (htokf.1 c hc) '-' (by decide),
      tokCls_ne c (htokf.1 c hc) 'W' (by decide),
      tokCls_ne c (htokf.1 c hc) 'U' (by decide)⟩)
    hcodeD
  have hpm := parse_top (add_igdbcode code flip (renderNum q ++ desc)) w h s hw hh hs
    hcf.1 hcf.2.1 hcf.2.2.1 hcf.2.2.2
  have hpc : parse_igdbcode (add_igdbcode code flip (renderNum q ++ desc)) =
      .ok (renderNum q ++ desc, code, flip) := by
    rcases validCode_cases code flip hcode with ⟨rfl, rfl⟩ | ⟨cd, rfl, hcdne, hcddig⟩
    · exact parse_igdbcode_passthrough _ (getLast_ne_of_mem _ ')' fun c hc =>
        tokCls_ne c (htokf.1 c hc) ')' (by decide))
    · rw [add_igdbcode_some cd flip _ hcdne]
      refine parse_igdbcode_wrap cd (if flip then ['x'] else []) flip _ hcdne hcddig ?_ ?_ ?_
      · intro c hc
        cases flip with
        | false => simp at hc
        | true => simpa using hc
      · cases flip with
        | false =>
          rw [show (if false then ['x'] else ([] : Str)) = [] from rfl, List.append_nil]
          exact endsWith_x_false cd hcddig
        | true =>
          rw [show (if true then ['x'] else ([] : Str)) = ['x'] from rfl]
          exact endsWith_x_concat cd
      · intro c hc
        exact ⟨tokCls_ne c (htokf.1 c hc) '(' (by decide),
          tokCls_ne c (htokf.1 c hc) ')' (by decide)⟩
  have h3 := parseLayerToken_render q hq0 hqd desc hfacts.1
  obtain ⟨c0, r0, hr0, hdig⟩ := renderNum_head_digit q
  have hghead : ∃ c1 r1, add_meta w h s (add_igdbcode code flip (renderNum q ++ desc)) =
      c1 :: r1 ∧ c1 ≠ 'L' := by
    rcases validCode_cases code flip hcode with ⟨rfl, rfl⟩ | ⟨cd, rfl, hcdne, hcddig⟩
    · have hcore : add_igdbcode none false (renderNum q ++ desc) = c0 :: (r0 ++ desc) := by
        rw [show add_igdbcode none false (renderNum q ++ desc) =
          renderNum q ++ desc from rfl, hr0]
        rfl
      rw [hcore]
      obtain ⟨r1, hr1⟩ := add_meta_cons w h s c0 (r0 ++ desc)
      exact ⟨c0, r1, hr1, fun hc => by rw [hc] at hdig; exact absurd hdig (by decide)⟩
    · rw [add_igdbcode_some cd flip _ hcdne]
      rw [show ('#' :: (cd ++ (if flip then ['x'] else []))) ++
        ('(' :: ((renderNum q ++ desc) ++ [')'])) =
        '#' :: ((cd ++ (if flip then ['x'] else [])) ++
          ('(' :: ((renderNum q ++ desc) ++ [')']))) from rfl]
      obtain ⟨r1, hr1⟩ := add_meta_cons w h s '#'
        ((cd ++ (if flip then ['x'] else [])) ++ ('(' :: ((renderNum q ++ desc) ++ [')'])))
      exact ⟨'#', r1, hr1, by decide⟩
  have hgK : ∀ x : Char, tokCls x = false → x.isDigit = false → metaCls x = false →
      x ≠ '#' → x ≠ '(' → x ≠ ')' → x ≠ 'x' →
      x ∉ add_meta w h s (add_igdbcode code flip (renderNum q ++ desc)) :=
    fun x h1 h2 h3' h4 h5 h6 h7 =>
      top_g_not_mem _ tokCls code flip w h s htokf.1 hcodeD x h1 h2 h3' h4 h5 h6 h7
  have hgas : Protocol.GAS_SEPARATOR ∉ add_meta w h s (add_igdbcode code flip
      (renderNum q ++ desc)) :=
    hgK '_' (by decide) (by decide) (by decide) (by decide) (by decide) (by decide) (by decide)
  unfold GlassBuildup.make_glass
  rw [if_neg hgas]
  unfold parseLite
  rw [if_neg ?_]
  · have hinit : MonoGlass.init_from_g_str (add_meta w h s (add_igdbcode code flip
        (renderNum q ++ desc))) = .ok ⟨desc, some q, w, h, s, code, flip⟩ := by
      unfold MonoGlass.init_from_g_str
      simp only [hpm, hpc, h3]
      rw [if_pos hmem]
    rw [hinit]
    rfl
  · rintro (hamp | hlam)
    · exact hgK '&' (by decide) (by decide) (by decide) (by decide) (by decide)
        (by decide) (by decide) hamp
    · obtain ⟨c1, r1, hr1, hcL⟩ := hghead
      rw [hr1] at hlam
      rw [LAM_not_prefixOf c1 r1 hcL] at hlam
      exact Bool.noConfusion hlam

theorem mem_add_igdbcode_of_inner (code : Option Str) (flip : Bool) (g0 : Str) (c : Char)
    (hc : c ∈ g0) : c ∈ add_igdbcode code flip g0 := by
  cases code with
  | none => exact hc
  | some cd =>
    by_cases hne : cd ≠ []
    · rw [add_igdbcode_some cd flip g0 hne]
      exact List.mem_append_right _ (List.mem_cons_of_mem '(' (List.mem_append_left _ hc))
    · push_neg at hne
      subst hne
      exact hc

theorem mem_add_meta_of_inner (w h s : Option ℚ) (g0 : Str) (c : Char) (hc : c ∈ g0) :
    c ∈ add_meta w h s g0 := by
  simp only [add_meta]
  by_cases hS : metaPart Protocol.WIDTH w ++ metaPart Protocol.HEIGHT h ++
      metaPart Protocol.SUPPORT s ≠ []
  · rw [if_pos hS]
    exact List.mem_append_left _ hc
  · rw [if_neg hS]
    exact hc

theorem lam_validB_top_fields (plies : List MonoGlass) (ils : List Interlayer)
    (w h s : Option ℚ) (code : Option Str) (flip : Bool)
    (hl : LamGlass.validB true ⟨plies, ils, w, h, s, code, flip⟩ = true) :
    2 ≤ plies.length ∧ plies.length = ils.length + 1 ∧
      (∀ p ∈ plies, MonoGlass.validB false p = true) ∧
      (∀ x ∈ ils, Interlayer.validB x = true) ∧ validCodeB code flip = true ∧
      validMetaValB w = true ∧ validMetaValB h = true ∧ validMetaValB s = true := by
  unfold LamGlass.validB at hl
  rw [if_pos rfl] at hl
  simp only [Bool.and_eq_true, decide_eq_true_eq, List.all_eq_true] at hl
  obtain ⟨⟨⟨⟨h2p, hcnt⟩, hpall⟩, hilall⟩, ⟨⟨⟨hcode, hw⟩, hh⟩, hs⟩⟩ := hl
  exact ⟨h2p, by omega, hpall, hilall, hcode, hw, hh, hs⟩

theorem lam_top_roundtrip (l : LamGlass) (hl : LamGlass.validB true l = true) :
    GlassBuildup.make_glass (l.to_gstr true) = .ok (.lam l) := by
  obtain ⟨plies, ils, w, h, s, code, flip⟩ := l
  obtain ⟨h2p, hplen, hpall, hilall, hcode, hw, hh, hs⟩ :=
    lam_validB_top_fields plies ils w h s code flip hl
  have hcodeD : ∀ cd, code = some cd → ∀ ch ∈ cd, ch.isDigit = true := by
    intro cd hcd
    rcases validCode_cases code flip hcode with ⟨rfl, -⟩ | ⟨cd2, heq, -, hdg⟩
    · exact absurd hcd (by simp)
    · rw [heq] at hcd
      obtain rfl : cd2 = cd := by injection hcd
      exact hdg
  have hg : LamGlass.to_gstr ⟨plies, ils, w, h, s, code, flip⟩ true =
      add_meta w h s (add_igdbcode code flip (joinChar '&' (interleaveL
        (plies.map fun m => m.to_gstr false) (ils.map Interlayer.to_gstr)))) := by
    rw [show LamGlass.to_gstr ⟨plies, ils, w, h, s, code, flip⟩ true =
      add_meta w h s (add_igdbcode code flip (joinChar '&'
        ((interleaveL (plies.map LamLayer.ply) (ils.map LamLayer.il)).map
          fun ly => match ly with | .ply m => m.to_gstr false | .il x => x.to_gstr))) from rfl]
    rw [interleaveL_map, List.map_map, List.map_map]
    rfl
  rw [hg]
  have hTmem : ∀ t ∈ interleaveL (plies.map fun m => m.to_gstr false)
      (ils.map Interlayer.to_gstr),
      (∀ c ∈ t, tokCls c = true) ∧ t ≠ [] ∧ hSafeB t = true := by
    intro t ht
    rcases mem_interleaveL _ _ t ht with h2 | h2
    · obtain ⟨p, hp, rfl⟩ := List.mem_map.mp h2
      exact mono_token_facts p (hpall p hp)
    · obtain ⟨x, hx, rfl⟩ := List.mem_map.mp h2
      exact il_token_facts x (hilall x hx)
  have hT_ne : interleaveL (plies.map fun m => m.to_gstr false)
      (ils.map Interlayer.to_gstr) ≠ [] := by
    cases plies with
    | nil => simp at h2p
    | cons p ps => exact interleaveL_ne_nil _ _ _
  have hinner_chars : ∀ c ∈ joinChar '&' (interleaveL (plies.map fun m => m.to_gstr false)
      (ils.map Interlayer.to_gstr)), (tokCls c || decide (c = '&')) = true := by
    intro c hc
    rcases mem_joinChar '&' _ c hc with rfl | ⟨p, hp, hcp⟩
    · simp
    · simp [(hTmem p hp).1 c hcp]
  have hinner_h : hSafeB (joinChar '&' (interleaveL (plies.map fun m => m.to_gstr false)
      (ils.map Interlayer.to_gstr))) = true :=
    hSafeB_joinChar '&' (by decide) _ fun p hp => (hTmem p hp).2.2
  have hcf := core_facts _ code flip hinner_h
    (fun c hc => by
      rcases (Bool.or_eq_true _ _).mp (hinner_chars c hc) with h2 | h2
      · exact ⟨tokCls_ne c h2 '-' (by decide), tokCls_ne c h2 'W' (by decide),
          tokCls_ne c h2 'U' (by decide)⟩
      · have : c = '&' := of_decide_eq_true h2
        subst this
        exact ⟨by decide, by decide, by decide⟩)
    hcodeD
  have hpm := parse_top (add_igdbcode code flip (joinChar '&' (interleaveL
      (plies.map fun m => m.to_gstr false) (ils.map Interlayer.to_gstr)))) w h s hw hh hs
    hcf.1 hcf.2.1 hcf.2.2.1 hcf.2.2.2
  have hinner_ne : ∀ c ∈ joinChar '&' (interleaveL (plies.map fun m => m.to_gstr false)
      (ils.map Interlayer.to_gstr)), c ≠ '(' ∧ c ≠ ')' := by
    intro c hc
    rcases (Bool.or_eq_true _ _).mp (hinner_chars c hc) with h2 | h2
    · exact ⟨tokCls_ne c h2 '(' (by decide), tokCls_ne c h2 ')' (by decide)⟩
    · have : c = '&' := of_decide_eq_true h2
      subst this
      exact ⟨by decide, by decide⟩
  have hpc : parse_igdbcode (add_igdbcode code flip (joinChar '&' (interleaveL
      (plies.map fun m => m.to_gstr false) (ils.map Interlayer.to_gstr)))) =
      .ok (joinChar '&' (interleaveL (plies.map fun m => m.to_gstr false)
        (ils.map Interlayer.to_gstr)), code, flip) := by
    rcases validCode_cases code flip hcode with ⟨rfl, rfl⟩ | ⟨cd, rfl, hcdne, hcddig⟩
    · exact parse_igdbcode_passthrough _ (getLast_ne_of_mem _ ')' fun c hc =>
        (hinner_ne c hc).2)
    · rw [add_igdbcode_some cd flip _ hcdne]
      refine parse_igdbcode_wrap cd (if flip then ['x'] else []) flip _ hcdne hcddig ?_ ?_
        hinner_ne
      · intro c hc
        cases flip with
        | false => simp at hc
        | true => simpa using hc
      · cases flip with
        | false =>
          rw [show (if false then ['x'] else ([] : Str)) = [] from rfl, List.append_nil]
          exact endsWith_x_false cd hcddig
        | true =>
          rw [show (if true then ['x'] else ([] : Str)) = ['x'] from rfl]
          exact endsWith_x_concat cd
  have hsplit : splitChar '&' (joinChar '&' (interleaveL (plies.map fun m => m.to_gstr false)
      (ils.map Interlayer.to_gstr))) = interleaveL (plies.map fun m => m.to_gstr false)
        (ils.map Interlayer.to_gstr) :=
    splitChar_join '&' _ hT_ne fun p hp hsep =>
      absurd ((hTmem p hp).1 '&' hsep) (by decide)
  have hlen : (plies.map fun m => m.to_gstr false).length =
      (ils.map Interlayer.to_gstr).length + 1 := by simp [hplen]
  have hEO := interleave_evens_odds (ils.map Interlayer.to_gstr)
    (plies.map fun m => m.to_gstr false) hlen
  have hmap : exceptMapM MonoGlass.init_from_g_str (plies.map fun m => m.to_gstr false) =
      .ok plies :=
    exceptMapM_map_ok _ _ plies fun p hp => mono_nested_roundtrip p (hpall p hp)
  have hilmap : (ils.map Interlayer.to_gstr).map Interlayer.init_from_g_str = ils := by
    rw [List.map_map]
    have hcg : ∀ x ∈ ils, (Interlayer.init_from_g_str ∘ Interlayer.to_gstr) x = x :=
      fun x hx => Interlayer_init_roundtrip x (hilall x hx)
    exact (List.map_congr_left hcg).trans (List.map_id' ils)
  have hgas : Protocol.GAS_SEPARATOR ∉ add_meta w h s (add_igdbcode code flip
      (joinChar '&' (interleaveL (plies.map fun m => m.to_gstr false)
        (ils.map Interlayer.to_gstr)))) :=
    top_g_not_mem _ (fun c => tokCls c || decide (c = '&')) code flip w h s hinner_chars
      hcodeD '_' (by decide) (by decide) (by decide) (by decide) (by decide) (by decide)
      (by decide)
  have hampg : Protocol.INTERLAYER_SEPARATOR ∈ add_meta w h s (add_igdbcode code flip
      (joinChar '&' (interleaveL (plies.map fun m => m.to_gstr false)
        (ils.map Interlayer.to_gstr)))) := by
    refine mem_add_meta_of_inner w h s _ _ (mem_add_igdbcode_of_inner code flip _ _ ?_)
    cases plies with
    | nil => simp at h2p
    | cons p1 prest =>
      cases prest with
      | nil => simp at h2p
      | cons p2 ps =>
        cases ils with
        | nil => simp at hplen
        | cons i1 irest =>
          rw [show interleaveL ((p1 :: p2 :: ps).map fun m => m.to_gstr false)
              ((i1 :: irest).map Interlayer.to_gstr) =
            p1.to_gstr false :: i1.to_gstr :: interleaveL ((p2 :: ps).map
              fun m => m.to_gstr false) (irest.map Interlayer.to_gstr) from rfl]
          exact sep_mem_joinChar '&' _ _ _
  unfold GlassBuildup.make_glass
  rw [if_neg hgas]
  unfold parseLite
  rw [if_pos (Or.inl hampg)]
  have hinit : LaminatedGlass.init_from_g_str (add_meta w h s (add_igdbcode code flip
      (joinChar '&' (interleaveL (plies.map fun m => m.to_gstr false)
        (ils.map Interlayer.to_gstr))))) = .ok ⟨plies, ils, w, h, s, code, flip⟩ := by
    unfold LaminatedGlass.init_from_g_str
    simp only [hpm, hpc, Protocol.INTERLAYER_SEPARATOR, hsplit, hEO.1, hEO.2, hmap, hilmap]
  rw [hinit]
  rfl

theorem igu_validB_top_fields (lites : List Lite) (gases : List GasLayer)
    (w h s : Option ℚ) (code : Option Str) (flip : Bool)
    (hu : IguGlass.validB true ⟨lites, gases, w, h, s, code, flip⟩ = true) :
    2 ≤ lites.length ∧ lites.length = gases.length + 1 ∧
      (∀ li ∈ lites, Lite.validB li = true) ∧
      (∀ x ∈ gases, GasLayer.validB x = true) ∧ validCodeB code flip = true ∧
      validMetaValB w = true ∧ validMetaValB h = true ∧ validMetaValB s = true := by
  unfold IguGlass.validB at hu
  rw [if_pos rfl] at hu
  simp only [Bool.and_eq_true, decide_eq_true_eq, List.all_eq_true] at hu
  obtain ⟨⟨⟨⟨h2p, hcnt⟩, hlall⟩, hgall⟩, ⟨⟨⟨hcode, hw⟩, hh⟩, hs⟩⟩ := hu
  exact ⟨h2p, by omega, hlall, hgall, hcode, hw, hh, hs⟩

theorem igu_top_roundtrip (u : IguGlass) (hu : IguGlass.validB true u = true) :
    GlassBuildup.make_glass (u.to_gstr true) = .ok (.igu u) := by
  obtain ⟨lites, gases, w, h, s, code, flip⟩ := u
  obtain ⟨h2p, hplen, hlall, hgall, hcode, hw, hh, hs⟩ :=
    igu_validB_top_fields lites gases w h s code flip hu
  have hcodeD : ∀ cd, code = some cd → ∀ ch ∈ cd, ch.isDigit = true := by
    intro cd hcd
    rcases validCode_cases code flip hcode with ⟨rfl, -⟩ | ⟨cd2, heq, -, hdg⟩
    · exact absurd hcd (by simp)
    · rw [heq] at hcd
      obtain rfl : cd2 = cd := by injection hcd
      exact hdg
  have hg : IguGlass.to_gstr ⟨lites, gases, w, h, s, code, flip⟩ true =
      add_meta w h s (add_igdbcode code flip (joinChar '_' (interleaveL
        (lites.map fun li => li.to_gstr false) (gases.map GasLayer.to_gstr)))) := by
    rw [show IguGlass.to_gstr ⟨lites, gases, w, h, s, code, flip⟩ true =
      add_meta w h s (add_igdbcode code flip
        (joinChar '_' (IguGlass.parts lites gases))) from rfl]
    rw [parts_eq_interleave lites gases hplen]
  rw [hg]
  have hTmem : ∀ t ∈ interleaveL (lites.map fun li => li.to_gstr false)
      (gases.map GasLayer.to_gstr),
      (∀ c ∈ t, (tokCls c || decide (c = '&')) = true) ∧ t ≠ [] ∧ hSafeB t = true := by
    intro t ht
    rcases mem_interleaveL _ _ t ht with h2 | h2
    · obtain ⟨li, hli, rfl⟩ := List.mem_map.mp h2
      exact lite_token_facts li (hlall li hli)
    · obtain ⟨x, hx, rfl⟩ := List.mem_map.mp h2
      have hf := gas_token_facts x (hgall x hx)
      exact ⟨fun c hc => by simp [hf.1 c hc], hf.2.1, hf.2.2⟩
  have hT_ne : interleaveL (lites.map fun li => li.to_gstr false)
      (gases.map GasLayer.to_gstr) ≠ [] := by
    cases lites with
    | nil => simp at h2p
    | cons li ls => exact interleaveL_ne_nil _ _ _
  have hinner_chars : ∀ c ∈ joinChar '_' (interleaveL (lites.map fun li => li.to_gstr false)
      (gases.map GasLayer.to_gstr)),
      ((tokCls c || decide (c = '&')) || decide (c = '_')) = true := by
    intro c hc
    rcases mem_joinChar '_' _ c hc with rfl | ⟨p, hp, hcp⟩
    · simp
    · simp [(hTmem p hp).1 c hcp]
  have hinner_h : hSafeB (joinChar '_' (interleaveL (lites.map fun li => li.to_gstr false)
      (gases.map GasLayer.to_gstr))) = true :=
    hSafeB_joinChar '_' (by decide) _ fun p hp => (hTmem p hp).2.2
  have hchar3 : ∀ c ∈ joinChar '_' (interleaveL (lites.map fun li => li.to_gstr false)
      (gases.map GasLayer.to_gstr)), tokCls c = true ∨ c = '&' ∨ c = '_' := by
    intro c hc
    rcases (Bool.or_eq_true _ _).mp (hinner_chars c hc) with h2 | h2
    · rcases (Bool.or_eq_true _ _).mp h2 with h3 | h3
      · exact Or.inl h3
      · exact Or.inr (Or.inl (of_decide_eq_true h3))
    · exact Or.inr (Or.inr (of_decide_eq_true h2))
  have hcf := core_facts _ code flip hinner_h
    (fun c hc => by
      rcases hchar3 c hc with h2 | h2 | h2
      · exact ⟨tokCls_ne c h2 '-' (by decide), tokCls_ne c h2 'W' (by decide),
          tokCls_ne c h2 'U' (by decide)⟩
      · subst h2
        exact ⟨by decide, by decide, by decide⟩
      · subst h2
        exact ⟨by decide, by decide, by decide⟩)
    hcodeD
  have hpm := parse_top (add_igdbcode code flip (joinChar '_' (interleaveL
      (lites.map fun li => li.to_gstr false) (gases.map GasLayer.to_gstr)))) w h s hw hh hs
    hcf.1 hcf.2.1 hcf.2.2.1 hcf.2.2.2
  have hinner_ne : ∀ c ∈ joinChar '_' (interleaveL (lites.map fun li => li.to_gstr false)
      (gases.map GasLayer.to_gstr)), c ≠ '(' ∧ c ≠ ')' := by
    intro c hc
    rcases hchar3 c hc with h2 | h2 | h2
    · exact ⟨tokCls_ne c h2 '(' (by decide), tokCls_ne c h2 ')' (by decide)⟩
    · subst h2
      exact ⟨by decide, by decide⟩
    · subst h2
      exact ⟨by decide, by decide⟩
  have hpc : parse_igdbcode (add_igdbcode code flip (joinChar '_' (interleaveL
      (lites.map fun li => li.to_gstr false) (gases.map GasLayer.to_gstr)))) =
      .ok (joinChar '_' (interleaveL (lites.map fun li => li.to_gstr false)
        (gases.map GasLayer.to_gstr)), code, flip) := by
    rcases validCode_cases code flip hcode with ⟨rfl, rfl⟩ | ⟨cd, rfl, hcdne, hcddig⟩
    · exact parse_igdbcode_passthrough _ (getLast_ne_of_mem _ ')' fun c hc =>
        (hinner_ne c hc).2)
    · rw [add_igdbcode_some cd flip _ hcdne]
      refine parse_igdbcode_wrap cd (if flip then ['x'] else []) flip _ hcdne hcddig ?_ ?_
        hinner_ne
      · intro c hc
        cases flip with
        | false => simp at hc
        | true => simpa using hc
      · cases flip with
        | false =>
          rw [show (if false then ['x'] else ([] : Str)) = [] from rfl, List.append_nil]
          exact endsWith_x_false cd hcddig
        | true =>
          rw [show (if true then ['x'] else ([] : Str)) = ['x'] from rfl]
          exact endsWith_x_concat cd
  have hsplit : splitChar '_' (joinChar '_' (interleaveL
      (lites.map fun li => li.to_gstr false) (gases.map GasLayer.to_gstr))) =
      interleaveL (lites.map fun li => li.to_gstr false) (gases.map GasLayer.to_gstr) :=
    splitChar_join '_' _ hT_ne fun p hp hsep => by
      have := (hTmem p hp).1 '_' hsep
      exact absurd this (by decide)
  have hlen : (lites.map fun li => li.to_gstr false).length =
      (gases.map GasLayer.to_gstr).length + 1 := by simp [hplen]
  have hEO := interleave_evens_odds (gases.map GasLayer.to_gstr)
    (lites.map fun li => li.to_gstr false) hlen
  have hmap : exceptMapM parseLite (lites.map fun li => li.to_gstr false) = .ok lites :=
    exceptMapM_map_ok _ _ lites fun li hli => parseLite_roundtrip li (hlall li hli)
  have hgmap : (gases.map GasLayer.to_gstr).map GasLayer.init_from_g_str = gases := by
    rw [List.map_map]
    have hcg : ∀ x ∈ gases, (GasLayer.init_from_g_str ∘ GasLayer.to_gstr) x = x :=
      fun x hx => GasLayer_init_roundtrip x (hgall x hx)
    exact (List.map_congr_left hcg).trans (List.map_id' gases)
  have hgasmem : Protocol.GAS_SEPARATOR ∈ add_meta w h s (add_igdbcode code flip
      (joinChar '_' (interleaveL (lites.map fun li => li.to_gstr false)
        (gases.map GasLayer.to_gstr)))) := by
    refine mem_add_meta_of_inner w h s _ _ (mem_add_igdbcode_of_inner code flip _ _ ?_)
    cases lites with
    | nil => simp at h2p
    | cons l1 lrest =>
      cases lrest with
      | nil => simp at h2p
      | cons l2 ls =>
        cases gases with
        | nil => simp at hplen
        | cons g1 grest =>
          rw [show interleaveL ((l1 :: l2 :: ls).map fun li => li.to_gstr false)
              ((g1 :: grest).map GasLayer.to_gstr) =
            l1.to_gstr false :: g1.to_gstr :: interleaveL ((l2 :: ls).map
              fun li => li.to_gstr false) (grest.map GasLayer.to_gstr) from rfl]
          exact sep_mem_joinChar '_' _ _ _
  unfold GlassBuildup.make_glass
  rw [if_pos hgasmem]
  have hinit : InsulatedGlass.init_from_g_str (add_meta w h s (add_igdbcode code flip
      (joinChar '_' (interleaveL (lites.map fun li => li.to_gstr false)
        (gases.map GasLayer.to_gstr))))) = .ok ⟨lites, gases, w, h, s, code, flip⟩ := by
    unfold InsulatedGlass.init_from_g_str
    simp only [hpm, hpc, Protocol.GAS_SEPARATOR, hsplit, hEO.1, hEO.2, hmap, hgmap]
  rw [hinit]
  rfl

theorem make_glass_roundtrip (b : GlassBuildup) (hb : GlassBuildup.validB b = true) :
    GlassBuildup.make_glass (b.to_gstr true) = .ok b := by
  cases b with
  | mono m => exact mono_top_roundtrip m (by simpa [GlassBuildup.validB] using hb)
  | lam l => exact lam_top_roundtrip l (by simpa [GlassBuildup.validB] using hb)
  | igu u => exact igu_top_roundtrip u (by simpa [GlassBuildup.validB] using hb)

/-! ### C1: round-trip -/

/-- C1 counterexample.  The claim asserts the round-trip for *every* validly
constructed buildup.  A `LaminatedGlass` with a single ply and no
interlayers passes the constructor's count check (`len(interlayers) =
len(plies) - 1 = 0`), but it renders as the bare token `"6A"`, which
`make_glass` re-parses as a `MonoGlass`: the round-trip changes the class
of the buildup. -/
theorem make_glass_roundtrip_cx :
    LaminatedGlass.make [MonoGlass.mk (str "A") (some 6) none none none none false] [] =
      .ok (LamGlass.mk [MonoGlass.mk (str "A") (some 6) none none none none false] []
        none none none none false) ∧
    GlassBuildup.to_gstr (.lam (LamGlass.mk
      [MonoGlass.mk (str "A") (some 6) none none none none false] []
      none none none none false)) true = str "6A" ∧
    GlassBuildup.make_glass (str "6A") =
      .ok (.mono (MonoGlass.mk (str "A") (some 6) none none none none false)) ∧
    GlassBuildup.make_glass (GlassBuildup.to_gstr (.lam (LamGlass.mk
      [MonoGlass.mk (str "A") (some 6) none none none none false] []
      none none none none false)) true) ≠
      .ok (.lam (LamGlass.mk [MonoGlass.mk (str "A") (some 6) none none none none false] []
        none none none none false)) :=
  ⟨by decide, by decide, by decide, by decide⟩

/-- C1 as amended: the round-trip
`make_glass (b.to_gstr()) = b` holds for every buildup `b` in round-trippable
form (`GlassBuildup.validB`): at least two plies per laminate and two lites
per insulated unit, every thickness set to a non-negative exact decimal,
descriptors drawn from the enumerated sets, the identifier code unset or a
non-empty digit string (and unset on nested panes, with the flip flag false
whenever the code is unset), width/height/support each unset or a positive
exact decimal at top level and unset on nested components.  Equality is
structural over the owned layer sequence, the metadata and the
identifier. -/
theorem roundtrip_valid_buildups (b : GlassBuildup)
    (hb : GlassBuildup.validB b = true) :
    GlassBuildup.make_glass (GlassBuildup.to_gstr b true) = .ok b :=
  make_glass_roundtrip b hb

/-- C1 witness: the amended theorem applied to a double-glazed unit
`#20x(6A_6A&0.76PVB&6A_12AIR)-W3000H4000SUPPORT4` — an insulated buildup
with a mono lite, a laminated lite of two plies and a PVB interlayer, an
air gap, full metadata, an identifier code and the flip flag set. -/
theorem roundtrip_valid_buildups_witness :
    GlassBuildup.validB (.igu (IguGlass.mk
      [Lite.mono (MonoGlass.mk (str "A") (some 6) none none none none false),
       Lite.lam (LamGlass.mk
         [MonoGlass.mk (str "A") (some 6) none none none none false,
          MonoGlass.mk (str "A") (some 6) none none none none false]
         [Interlayer.mk (str "PVB") (some (19 / 25))] none none none none false)]
      [GasLayer.mk (str "AIR") (some 12)]
      (some 3000) (some 4000) (some 4) (some (str "20")) true)) = true ∧
    GlassBuildup.make_glass (GlassBuildup.to_gstr (.igu (IguGlass.mk
      [Lite.mono (MonoGlass.mk (str "A") (some 6) none none none none false),
       Lite.lam (LamGlass.mk
         [MonoGlass.mk (str "A") (some 6) none none none none false,
          MonoGlass.mk (str "A") (some 6) none none none none false]
         [Interlayer.mk (str "PVB") (some (19 / 25))] none none none none false)]
      [GasLayer.mk (str "AIR") (some 12)]
      (some 3000) (some 4000) (some 4) (some (str "20")) true)) true) =
      .ok (.igu (IguGlass.mk
      [Lite.mono (MonoGlass.mk (str "A") (some 6) none none none none false),
       Lite.lam (LamGlass.mk
         [MonoGlass.mk (str "A") (some 6) none none none none false,
          MonoGlass.mk (str "A") (some 6) none none none none false]
         [Interlayer.mk (str "PVB") (some (19 / 25))] none none none none false)]
      [GasLayer.mk (str "AIR") (some 12)]
      (some 3000) (some 4000) (some 4) (some (str "20")) true)) :=
  ⟨by decide, roundtrip_valid_buildups _ (by decide)⟩

end GlassModel
